import Mathlib

/-!
# Grokking-DSA

## The owning-buffer classes (namespace `RAII`)

Embedding of `ResourceManager` (learning-C++/raii_move_semantics.cpp) and
`GoodResourceManager` (learning-C++/rule_of_three_five.cpp).  The two classes have
the same members line for line (they differ only in the text they print), so one
embedding serves both.  `BadResourceManager` (rule_of_three_five.cpp) has its own
embedding on the same heap.

The free store is explicit: `new int[n]` and `delete[]` act on a `Heap`, the special
member functions act on a `State` made of the heap and the objects constructed so far.
The trace printed to `std::cout` is not modelled.

## The algorithms and the small classes

* `Cpp`: 32-bit `int` arithmetic (`wrap32`), the conversion of an unsigned 64-bit integer
  to `double`, and the outcome of a run.
* `Solution`: `twoSum` (grokking-algorithms/leetcode/two_sum.cpp).
* `NumberOfSteps`: `binary_search`, `quickSortArray`, `getSmallestInArray` and
  `getSumOfArray` (grokking-algorithms/binary_search/number_of_steps.cpp).
* `Student`: `returnAverage` (projects/student_average.cpp).
* `Banking`: `Account<T>::withdraw` (learning-C++/comprehensive_banking_system.cpp).
* `ConstructorsDestructors`: `BankAccount` (constructors_destructors.cpp).
* `Templates`: `Stack<T>::pop` (learning-C++/advanced_templates.cpp, templates.cpp).
* `HelloWorldClass`: `HelloWorld` (hello_world_class.cpp).

Where a loop or a recursion of the source is not structural, the model takes a fuel
argument, and the theorems that state a result give a fuel for which it is produced.
-/

namespace RAII

/-- One array obtained from `new int[n]`: its elements and the number of
`delete[]` calls that have been issued on it (`0` while it is allocated). -/
structure Block where
  cells : List Int
  frees : Nat
deriving DecidableEq, Repr

/-- The free store: every block ever handed out, in order of allocation.  A pointer
value (`int*`) is a natural number: `0` is `nullptr`, `k + 1` is the address of the block
stored at position `k`.  Addresses are never reused. -/
structure Heap where
  blocks : List Block
deriving DecidableEq, Repr

/-- What the environment answers to one `new int[n]`: it throws `std::bad_alloc`,
or it hands out a block whose elements are not initialised (`new int[n]` default-initialises,
which for `int` leaves indeterminate values): `junk i` is what cell `i` happens to hold. -/
inductive Alloc where
  | fails
  | yields (junk : Nat → Int)

/-- Expression `new int[n]`: `none` when it throws, else the grown heap and the fresh pointer. -/
def Heap.newArray (h : Heap) (n : Nat) : Alloc → Option (Heap × Nat)
  | .fails => none
  | .yields junk => some (⟨h.blocks ++ [⟨(List.range n).map junk, 0⟩]⟩, h.blocks.length + 1)

/-- Statement `delete[] p` has defined behaviour: `p` is `nullptr`, or the address of a
block that is allocated and not yet released. -/
def Heap.deletable (h : Heap) (p : Nat) : Bool :=
  match p with
  | 0 => true
  | k + 1 =>
    match h.blocks[k]? with
    | some b => b.frees == 0
    | none => false

/-- Statement `delete[] p`: nothing for `nullptr`, else one more release recorded on the
block.  Where `Heap.deletable` fails the statement has undefined behaviour in C++; the
release is recorded all the same, so that a second `delete[]` on a block shows as
`frees = 2` and a double release can be stated.  A value that names no block, which no
operation produces, is left alone. -/
def Heap.deleteArray (h : Heap) (p : Nat) : Heap :=
  match p with
  | 0 => h
  | k + 1 =>
    match h.blocks[k]? with
    | some b => ⟨h.blocks.set k { b with frees := b.frees + 1 }⟩
    | none => h

/-- Read of `p[i]`: defined only inside a block that is still allocated. -/
def Heap.read (h : Heap) (p : Nat) (i : Nat) : Option Int :=
  match p with
  | 0 => none
  | k + 1 =>
    match h.blocks[k]? with
    | some b => if b.frees = 0 then b.cells[i]? else none
    | none => none

/-- Write `p[i] = v`: defined only inside a block that is still allocated. -/
def Heap.write (h : Heap) (p : Nat) (i : Nat) (v : Int) : Option Heap :=
  match p with
  | 0 => none
  | k + 1 =>
    match h.blocks[k]? with
    | some b =>
      if b.frees = 0 ∧ i < b.cells.length then
        some ⟨h.blocks.set k { b with cells := b.cells.set i v }⟩
      else none
    | none => none

/-- Loop `for (size_t i = 0; i < size; ++i) data[i] = other.data[i];` started at index `i`
with `todo` iterations left; `none` when an access is undefined. -/
def copyLoop (dst src : Nat) : Nat → Nat → Heap → Option Heap
  | 0, _, h => some h
  | todo + 1, i, h =>
    match h.read src i with
    | none => none
    | some v =>
      match h.write dst i v with
      | none => none
      | some h1 => copyLoop dst src todo (i + 1) h1

/-- Data members of `ResourceManager` / `GoodResourceManager`: `int* data; size_t size;`. -/
structure ResourceManager where
  data : Nat
  size : Nat
deriving DecidableEq, Repr

/-- The class `GoodResourceManager` has the same members and member functions. -/
abbrev GoodResourceManager := ResourceManager

/-- Program state: the free store and the objects constructed so far; an object is
named by its position, which plays the role of its address (`this`, `&other`). -/
structure State where
  heap : Heap
  objs : List ResourceManager
deriving DecidableEq, Repr

/-- Outcome of a special member function: it completes (`ref` names the object it
constructed or returns), `std::bad_alloc` leaves it (with the state at the throw),
or its behaviour is undefined. -/
inductive Result where
  | done (s : State) (ref : Nat)
  | threw (s : State)
  | undefined
deriving DecidableEq, Repr

namespace ResourceManager

/-- Sizing constructor `ResourceManager(size_t s) : size(s) { data = new int[size]; }`. -/
def ctor (s : State) (n : Nat) (a : Alloc) : Result :=
  match s.heap.newArray n a with
  | none => .threw s
  | some (h, p) => .done ⟨h, s.objs ++ [⟨p, n⟩]⟩ s.objs.length

/-- Destructor `~ResourceManager() { delete[] data; }`. -/
def dtor (h : Heap) (t : ResourceManager) : Heap :=
  h.deleteArray t.data

/-- Copy constructor: `size(other.size)`, `data = new int[size]`, then the copy loop. -/
def copyCtor (s : State) (other : Nat) (a : Alloc) : Result :=
  match s.objs[other]? with
  | none => .undefined
  | some r =>
    match s.heap.newArray r.size a with
    | none => .threw s
    | some (h, p) =>
      match copyLoop p r.data r.size 0 h with
      | none => .undefined
      | some h1 => .done ⟨h1, s.objs ++ [⟨p, r.size⟩]⟩ s.objs.length

/-- Move constructor: `data(other.data), size(other.size)`, then
`other.data = nullptr; other.size = 0;`. -/
def moveCtor (s : State) (other : Nat) : Result :=
  match s.objs[other]? with
  | none => .undefined
  | some r => .done ⟨s.heap, s.objs.set other ⟨0, 0⟩ ++ [⟨r.data, r.size⟩]⟩ s.objs.length

/-- Copy assignment `operator=(const ResourceManager& other)`: guarded by
`this != &other`; `delete[] data; size = other.size; data = new int[size];`, the copy
loop, and `return *this`. -/
def copyAssign (s : State) (this other : Nat) (a : Alloc) : Result :=
  match s.objs[this]?, s.objs[other]? with
  | some t, some r =>
    if this ≠ other then
      let h0 := s.heap.deleteArray t.data
      let objs0 := s.objs.set this ⟨t.data, r.size⟩
      match h0.newArray r.size a with
      | none => .threw ⟨h0, objs0⟩
      | some (h1, p) =>
        match copyLoop p r.data r.size 0 h1 with
        | none => .undefined
        | some h2 => .done ⟨h2, objs0.set this ⟨p, r.size⟩⟩ this
    else .done s this
  | _, _ => .undefined

/-- Move assignment `operator=(ResourceManager&& other)`: guarded by `this != &other`;
`delete[] data; data = other.data; size = other.size; other.data = nullptr;
other.size = 0;` and `return *this`. -/
def moveAssign (s : State) (this other : Nat) : Result :=
  match s.objs[this]?, s.objs[other]? with
  | some t, some r =>
    if this ≠ other then
      .done ⟨s.heap.deleteArray t.data, (s.objs.set this ⟨r.data, r.size⟩).set other ⟨0, 0⟩⟩ this
    else .done s this
  | _, _ => .undefined

/-- The overload `int& operator[](size_t index) { return data[index]; }`: the element it
refers to, as handle and position. -/
def index (t : ResourceManager) (i : Nat) : Nat × Nat := (t.data, i)

/-- The overload `const int& operator[](size_t index) const { return data[index]; }`. -/
def indexConst (t : ResourceManager) (i : Nat) : Nat × Nat := (t.data, i)

/-- Member `getSize() const { return size; }`. -/
def getSize (t : ResourceManager) : Nat := t.size

end ResourceManager

/-- Value of `x.getSize()` for the object named `obj`. -/
def State.getSize (s : State) (obj : Nat) : Option Nat :=
  (s.objs[obj]?).map ResourceManager.getSize

/-- Value read through `x[i]` for the object named `obj`; `none` when undefined. -/
def State.load (s : State) (obj i : Nat) : Option Int :=
  match s.objs[obj]? with
  | none => none
  | some t => s.heap.read (t.index i).1 (t.index i).2

/-- Value read through the const overload, `std::as_const(x)[i]`, for the object named
`obj`; `none` when undefined. -/
def State.loadConst (s : State) (obj i : Nat) : Option Int :=
  match s.objs[obj]? with
  | none => none
  | some t => s.heap.read (t.indexConst i).1 (t.indexConst i).2

/-- Assignment `x[i] = v` for the object named `obj`; `none` when undefined. -/
def State.store (s : State) (obj i : Nat) (v : Int) : Option State :=
  match s.objs[obj]? with
  | none => none
  | some t =>
    match s.heap.write (t.index i).1 (t.index i).2 v with
    | none => none
    | some h => some ⟨h, s.objs⟩

/-- The object `t` is in a valid state over heap `h`: either it is empty (no storage,
size 0) or its handle is an allocated block of exactly `size` elements. -/
def ResourceManager.validIn (h : Heap) (t : ResourceManager) : Bool :=
  match t.data with
  | 0 => t.size == 0
  | k + 1 =>
    match h.blocks[k]? with
    | some b => b.frees == 0 && b.cells.length == t.size
    | none => false

/-- The object named `obj` exists and is in a valid state. -/
def State.valid (s : State) (obj : Nat) : Bool :=
  match s.objs[obj]? with
  | none => false
  | some t => t.validIn s.heap

/-- Elements stored behind a pointer (empty for `nullptr`). -/
def Heap.contents (h : Heap) (p : Nat) : List Int :=
  match p with
  | 0 => []
  | k + 1 =>
    match h.blocks[k]? with
    | some b => b.cells
    | none => []

/-- The state before any object exists. -/
def State.init : State := ⟨⟨[]⟩, []⟩

/-- Well-formed state: every object is valid and no block is owned by two objects. -/
def State.wf (s : State) : Prop :=
  (∀ t ∈ s.objs, t.validIn s.heap = true) ∧
    s.objs.Pairwise (fun t u => t.data = 0 ∨ t.data ≠ u.data)

instance State.decidableWf (s : State) : Decidable s.wf := by
  unfold State.wf
  infer_instance

/-- One operation of a client program on the objects constructed so far. -/
inductive Op where
  | construct (n : Nat) (o : Alloc)
  | copyConstruct (src : Nat) (o : Alloc)
  | moveConstruct (src : Nat)
  | copyAssign (dst src : Nat) (o : Alloc)
  | moveAssign (dst src : Nat)

/-- Effect of one operation. -/
def step (s : State) : Op → Result
  | .construct n o => ResourceManager.ctor s n o
  | .copyConstruct src o => ResourceManager.copyCtor s src o
  | .moveConstruct src => ResourceManager.moveCtor s src
  | .copyAssign dst src o => ResourceManager.copyAssign s dst src o
  | .moveAssign dst src => ResourceManager.moveAssign s dst src

/-- How a sequence of operations ends: all of them completed, `std::bad_alloc` left one
of them (the rest is not executed), or the behaviour is undefined. -/
inductive Run where
  | completed (s : State)
  | aborted (s : State)
  | undefined
deriving DecidableEq, Repr

/-- Execution of a sequence of operations, in order. -/
def exec : State → List Op → Run
  | s, [] => .completed s
  | s, op :: ops =>
    match step s op with
    | .done s1 _ => exec s1 ops
    | .threw s1 => .aborted s1
    | .undefined => .undefined

/-- End of scope (or stack unwinding): the destructor runs once on every object, in
reverse order of construction. -/
def destroyAll (s : State) : Heap :=
  s.objs.foldr (fun t h => ResourceManager.dtor h t) s.heap

/-- The heap left by a whole program: the operations, then the destructors. -/
def lifetime (ops : List Op) : Option Heap :=
  match exec State.init ops with
  | .completed s => some (destroyAll s)
  | .aborted s => some (destroyAll s)
  | .undefined => none

/-- The allocation made by the operation (if it makes one) succeeds. -/
def Op.allocOk : Op → Bool
  | .construct _ .fails => false
  | .copyConstruct _ .fails => false
  | .copyAssign _ _ .fails => false
  | _ => true

/-- The operation names only objects among the first `count` ones. -/
def Op.scoped (count : Nat) : Op → Bool
  | .construct _ _ => true
  | .copyConstruct src _ => decide (src < count)
  | .moveConstruct src => decide (src < count)
  | .copyAssign dst src _ => decide (dst < count) && decide (src < count)
  | .moveAssign dst src => decide (dst < count) && decide (src < count)

/-- Number of objects the operation constructs. -/
def Op.constructs : Op → Nat
  | .construct _ _ => 1
  | .copyConstruct _ _ => 1
  | .moveConstruct _ => 1
  | _ => 0

/-- Every operation of the sequence names only objects constructed before it, when
`count` objects exist at the start. -/
def wellScoped : Nat → List Op → Bool
  | _, [] => true
  | count, op :: ops => op.scoped count && wellScoped (count + op.constructs) ops

/-- Number of objects whose handle is the block at position `k`. -/
def owners (objs : List ResourceManager) (k : Nat) : Nat :=
  objs.countP (fun t => t.data == k + 1)

/-- Ownership balance: a block either has one owner and no release recorded, or no
owner and exactly one release recorded. -/
def State.balanced (s : State) : Prop :=
  ∀ k b, s.heap.blocks[k]? = some b → b.frees + owners s.objs k = 1

/-- Invariant of the states a program can reach: every object is valid and the
ownership balance holds. -/
def State.inv (s : State) : Prop :=
  (∀ (i : Nat) (t : ResourceManager), s.objs[i]? = some t → t.validIn s.heap = true) ∧
    s.balanced

/-- Data members of `BadResourceManager` (rule_of_three_five.cpp): `int* data; size_t size;`.
The class declares a sizing constructor and a destructor only. -/
structure BadResourceManager where
  data : Nat
  size : Nat
deriving DecidableEq, Repr

namespace BadResourceManager

/-- Constructor `BadResourceManager(size_t s) : size(s) { data = new int[size]; }`; `none`
when the allocation throws. -/
def ctor (h : Heap) (n : Nat) (a : Alloc) : Option (Heap × BadResourceManager) :=
  match h.newArray n a with
  | none => none
  | some (h1, p) => some (h1, ⟨p, n⟩)

/-- Destructor `~BadResourceManager() { delete[] data; }`. -/
def dtor (h : Heap) (t : BadResourceManager) : Heap :=
  h.deleteArray t.data

/-- The copy constructor the compiler generates for a class that declares none: each
member is copied, so the handle is copied, not the array (`BadResourceManager bad2 = bad1;`). -/
def copyCtor (other : BadResourceManager) : BadResourceManager :=
  ⟨other.data, other.size⟩

end BadResourceManager

end RAII

/-! # The `int` type of the algorithm snippets -/

namespace Cpp

/-- Value of a 32-bit two's complement `int` holding the mathematical result `z`
(wrap-around on overflow). -/
def wrap32 (z : Int) : Int := (z + 2147483648) % 4294967296 - 2147483648

/-- The integer `z` is a value of type `int`. -/
def isInt (z : Int) : Bool := decide (-2147483648 ≤ z) && decide (z < 2147483648)

/-- Outcome of a function call: it returns a value, its behaviour is undefined (an access
outside the vector), or the model ran out of fuel before the loop ended. -/
inductive Outcome (α : Type) where
  | returned (r : α)
  | undefined
  | outOfFuel
deriving DecidableEq, Repr

/-- Number of low-order bits of `n` that do not fit the 53-bit significand of a `double`
(`fuel` bounds the number of bits looked at). -/
def excessBits : Nat → Nat → Nat
  | 0, _ => 0
  | fuel + 1, n => if n < 9007199254740992 then 0 else excessBits fuel (n / 2) + 1

/-- Conversion of an unsigned 64-bit integer to `double` (IEEE 754 binary64, rounding to
nearest, ties to even): the value of the resulting `double`, which is an integer.  Values
below 2^53 are kept exactly. -/
def u64ToDouble (n : Nat) : Nat :=
  let e := excessBits 64 n
  let q := n / 2 ^ e
  let r := n % 2 ^ e
  if 2 * r < 2 ^ e ∨ (2 * r = 2 ^ e ∧ q % 2 = 0) then q * 2 ^ e else (q + 1) * 2 ^ e

end Cpp

/-! # grokking-algorithms/leetcode/two_sum.cpp -/

namespace Solution

/-- The `std::unordered_map<int, int>` of `twoSum`, as a list of key/value entries with
at most one entry per key. -/
abbrev Map := List (Int × Int)

/-- Lookup `m.find(key)`: `none` stands for `m.end()`, `some v` for an iterator whose
`second` is `v`. -/
def Map.find : Map → Int → Option Int
  | [], _ => none
  | (k, v) :: m, key => if k = key then some v else Map.find m key

/-- Statement `m[key] = v`: the entry of `key` is created or overwritten. -/
def Map.assign (m : Map) (key v : Int) : Map :=
  (key, v) :: m.filter (fun e => decide (e.1 ≠ key))

/-- Loop `for (int i = 0; i < nums.size(); ++i)` of `twoSum`, entered with counter `i`,
the elements `nums[i], nums[i+1], ...` still to visit and the map built so far.  The
counter is an `int`; it stays below 2^31, without overflow, on vectors of fewer than
2^31 elements. -/
def twoSum.loop (target : Int) : List Int → Int → Map → List Int
  | [], _, _ => []
  | x :: rest, i, m =>
    let neededValueToHitTarget := Cpp.wrap32 (target - x)
    match Map.find m neededValueToHitTarget with
    | some second => [second, i]
    | none => twoSum.loop target rest (Cpp.wrap32 (i + 1)) (Map.assign m x i)

/-- Member function `Solution::twoSum(std::vector<int>& nums, int target)`. -/
def twoSum (nums : List Int) (target : Int) : List Int :=
  twoSum.loop target nums 0 []

end Solution

/-! # grokking-algorithms/binary_search/number_of_steps.cpp -/

namespace NumberOfSteps

/-- The `while (low <= high)` loop of `binary_search` (the vector `stacks` of the source
is written `stacksVec`, `stacks` being a reserved word here).  `(low + high)/2` is `int`
arithmetic: the sum wraps around and the division truncates; `ceil` is applied to that
`int`, which it leaves as it is.  `stacks[mid]` is undefined unless
`0 ≤ mid < stacks.size()`. -/
def binary_search.loop (stacksVec : List Int) (value : Int) :
    Nat → Int → Int → Cpp.Outcome Int
  | 0, _, _ => .outOfFuel
  | fuel + 1, low, high =>
    if low ≤ high then
      let mid := Int.tdiv (Cpp.wrap32 (low + high)) 2
      if mid < 0 then .undefined
      else
        match stacksVec[mid.toNat]? with
        | none => .undefined
        | some valueOfMidIndex =>
          if valueOfMidIndex = value then .returned mid
          else if valueOfMidIndex > value then
            binary_search.loop stacksVec value fuel low (Cpp.wrap32 (mid - 1))
          else binary_search.loop stacksVec value fuel (Cpp.wrap32 (mid + 1)) high
    else .returned 0

/-- Function `int binary_search(std::vector<int> stacks, int value)`:
`low = 0`, `high = stacks.size() - 1` converted to `int`, then the loop (which needs at
most `stacks.size() + 1` tests of its condition when the arithmetic does not overflow). -/
def binary_search (stacksVec : List Int) (value : Int) : Cpp.Outcome Int :=
  binary_search.loop stacksVec value (stacksVec.length + 1) 0
    (Cpp.wrap32 ((stacksVec.length : Int) - 1))

/-- Loop of `getSmallestInArray`, entered with the elements still to visit, the counter
`i`, `smallest` and `smallest_index`. -/
def getSmallestInArray.loop : List Int → Int → Int → Int → Int
  | [], _, smallest, _ => smallest
  | x :: rest, i, smallest, smallest_index =>
    if x < smallest then getSmallestInArray.loop rest (Cpp.wrap32 (i + 1)) x i
    else getSmallestInArray.loop rest (Cpp.wrap32 (i + 1)) smallest smallest_index

/-- Function `int getSmallestInArray(std::vector<int> stacks)`: `smallest = stacks[0]`
(undefined on an empty vector), then the loop over all elements from index 0. -/
def getSmallestInArray (stacksVec : List Int) : Cpp.Outcome Int :=
  match stacksVec[0]? with
  | none => .undefined
  | some first => .returned (getSmallestInArray.loop stacksVec 0 first 0)

/-- Recursion of `getSumOfArray` with `fuel` nested calls allowed: 0 for the empty
vector, else `lastValue = stacks.back(); stacks.pop_back();` and the `int` sum
`lastValue + getSumOfArray(stacks)`. -/
def getSumOfArray.go : Nat → List Int → Cpp.Outcome Int
  | 0, _ => .outOfFuel
  | fuel + 1, stacksVec =>
    match stacksVec.getLast? with
    | none => .returned 0
    | some lastValue =>
      match getSumOfArray.go fuel stacksVec.dropLast with
      | .returned r => .returned (Cpp.wrap32 (lastValue + r))
      | .undefined => .undefined
      | .outOfFuel => .outOfFuel

/-- Function `int getSumOfArray(std::vector<int> stacks)`. -/
def getSumOfArray (stacksVec : List Int) : Cpp.Outcome Int :=
  getSumOfArray.go (stacksVec.length + 1) stacksVec

/-- Loop `for (int i = 0; i < pivot; i++) lessValues.push_back(i);` of `quickSortArray`:
it pushes the counter values `0, 1, ..., pivot - 1`, not elements of the vector. -/
def quickSortArray.lessLoop (pivot : Int) : List Int :=
  (List.range pivot.toNat).map Int.ofNat

/-- Loop `for (int i = 0; i > pivot; i++) greaterValues.push_back(i);`: it does not run
for `pivot ≥ 0`; for a negative pivot it pushes `0, 1, ...` until the counter wraps around
after `2^31 - 1`. -/
def quickSortArray.greaterLoop (pivot : Int) : List Int :=
  if 0 > pivot then (List.range 2147483648).map Int.ofNat else []

/-- The vector `finalValues` that `quickSortArray` passes to its recursive call:
`lessValues` (with `pivot` pushed at its end) followed by `greaterValues`. -/
def quickSortArray.finalValues (pivot : Int) : List Int :=
  (quickSortArray.lessLoop pivot ++ [pivot]) ++ quickSortArray.greaterLoop pivot

/-- Function `std::vector<int> quickSortArray(std::vector<int> stacks)` with `fuel`
nested calls allowed: vectors of fewer than 2 elements are returned as they are, else
`pivot = stacks.back()` and `return quickSortArray(finalValues);`. -/
def quickSortArray : Nat → List Int → Cpp.Outcome (List Int)
  | 0, _ => .outOfFuel
  | fuel + 1, stacksVec =>
    if stacksVec.length < 2 then .returned stacksVec
    else
      match stacksVec.getLast? with
      | none => .undefined
      | some pivot => quickSortArray fuel (quickSortArray.finalValues pivot)

end NumberOfSteps

/-! # projects/student_average.cpp -/

namespace Student

/-- Loop `for (int i = 0; i < scores.size(); i++) sum = sum + scores[i];` over the scores
still to visit, in `int` arithmetic. -/
def returnAverage.loop : List Int → Int → Int
  | [], sum => sum
  | score :: rest, sum => returnAverage.loop rest (Cpp.wrap32 (sum + score))

/-- Member function `double returnAverage()`: `return sum / scores.size();`.  The `int`
sum is converted to the unsigned 64-bit type of `scores.size()`, the division is the
unsigned integer division, and its quotient is converted to `double` by the `return`; the
result is the value of that `double` (an integer).  Undefined for no scores (division by
zero) and for 2^31 scores or more (the `int` counter `i` overflows). -/
def returnAverage (scores : List Int) : Cpp.Outcome Nat :=
  if scores.length = 0 ∨ 2147483648 ≤ scores.length then .undefined
  else
    .returned (Cpp.u64ToDouble
      ((returnAverage.loop scores 0 % 18446744073709551616).toNat / scores.length))

end Student

/-! # learning-C++/comprehensive_banking_system.cpp -/

namespace Banking

/-- Data members of `Account<T>`. -/
structure Account (T : Type) where
  accountNumber : String
  accountHolder : String
  balance : T
  transactionHistory : List String
  accessCount : List (String × Int)

/-- Private member `addTransaction`: one entry, the time stamp read from the clock
(a parameter here) followed by `" - "` and the text, is pushed at the back of the
history. -/
def Account.addTransaction {T : Type} (acc : Account T) (timestamp transaction : String) :
    Account T :=
  { acc with transactionHistory := acc.transactionHistory ++ [timestamp ++ " - " ++ transaction] }

/-- Member function `bool withdraw(T amount)`; `toStr` stands for `std::to_string`.
The result is the account afterwards and the value returned. -/
def Account.withdraw {T : Type} [Zero T] [LT T] [LE T] [Sub T]
    [DecidableRel (fun a b : T => a < b)] [DecidableRel (fun a b : T => a ≤ b)]
    (toStr : T → String) (timestamp : String) (acc : Account T) (amount : T) :
    Account T × Bool :=
  if 0 < amount ∧ amount ≤ acc.balance then
    (Account.addTransaction { acc with balance := acc.balance - amount } timestamp
      ("Withdrawal: -" ++ toStr amount), true)
  else
    (Account.addTransaction acc timestamp ("Failed withdrawal attempt: -" ++ toStr amount),
      false)

end Banking

/-! # constructors_destructors.cpp -/

namespace ConstructorsDestructors

/-- Data members of `BankAccount`: the holder, the balance (a `double`, modelled by an
ordered type `T` with its own `+` and `-`) and the pointer `int* transactionCount`
(`0` is `nullptr`, `k + 1` the address of cell `k`). -/
structure BankAccount (T : Type) where
  accountHolder : String
  balance : T
  transactionCount : Nat

/-- Program state: the `int` cells obtained from `new int(v)` (`none` once deleted) and
the accounts constructed so far, named by position. -/
structure Bank (T : Type) where
  cells : List (Option Int)
  accounts : List (BankAccount T)

/-- Read `*p`; `none` when `p` is null or the cell is deleted. -/
def readCell (cells : List (Option Int)) (p : Nat) : Option Int :=
  match p with
  | 0 => none
  | k + 1 => (cells[k]?).join

/-- Statement `(*p)++` on an `int` cell; `none` when undefined. -/
def incrCell (cells : List (Option Int)) (p : Nat) : Option (List (Option Int)) :=
  match readCell cells p with
  | none => none
  | some c => some (cells.set (p - 1) (some (Cpp.wrap32 (c + 1))))

/-- Statement `delete p`: nothing for `nullptr`, the cell is gone for an allocated cell;
`none` when undefined (the cell is already deleted, or `p` names no cell). -/
def deleteCell (cells : List (Option Int)) (p : Nat) : Option (List (Option Int)) :=
  match p with
  | 0 => some cells
  | k + 1 =>
    match cells[k]? with
    | some (some _) => some (cells.set k none)
    | _ => none

/-- Member function `void deposit(double amount)` on the account named `i`:
`balance += amount; (*transactionCount)++;`. -/
def Bank.deposit {T : Type} [Add T] (s : Bank T) (i : Nat) (amount : T) : Option (Bank T) :=
  match s.accounts[i]? with
  | none => none
  | some acc =>
    match incrCell s.cells acc.transactionCount with
    | none => none
    | some cells1 =>
      some ⟨cells1, s.accounts.set i { acc with balance := acc.balance + amount }⟩

/-- Member function `void withdraw(double amount)` on the account named `i`:
`if (amount <= balance) { balance -= amount; (*transactionCount)++; }`. -/
def Bank.withdraw {T : Type} [LE T] [Sub T] [DecidableRel (fun a b : T => a ≤ b)]
    (s : Bank T) (i : Nat) (amount : T) : Option (Bank T) :=
  match s.accounts[i]? with
  | none => none
  | some acc =>
    if amount ≤ acc.balance then
      match incrCell s.cells acc.transactionCount with
      | none => none
      | some cells1 =>
        some ⟨cells1, s.accounts.set i { acc with balance := acc.balance - amount }⟩
    else some s

/-- Copy constructor `BankAccount(const BankAccount& other)` (the allocation is taken to
succeed): holder and balance are copied and `transactionCount = new int(*other.transactionCount)`.
The new account is the last one. -/
def Bank.copyCtor {T : Type} (s : Bank T) (other : Nat) : Option (Bank T) :=
  match s.accounts[other]? with
  | none => none
  | some o =>
    match readCell s.cells o.transactionCount with
    | none => none
    | some c =>
      some ⟨s.cells ++ [some c],
        s.accounts ++ [⟨o.accountHolder, o.balance, s.cells.length + 1⟩]⟩

/-- Copy assignment `operator=(const BankAccount& other)` (the allocation is taken to
succeed), guarded by `this != &other`: holder and balance are copied, `delete
transactionCount;` and `transactionCount = new int(*other.transactionCount);`. -/
def Bank.copyAssign {T : Type} (s : Bank T) (this other : Nat) : Option (Bank T) :=
  match s.accounts[this]?, s.accounts[other]? with
  | some t, some o =>
    if this ≠ other then
      match deleteCell s.cells t.transactionCount with
      | none => none
      | some cells0 =>
        match readCell cells0 o.transactionCount with
        | none => none
        | some c =>
          some ⟨cells0 ++ [some c],
            s.accounts.set this ⟨o.accountHolder, o.balance, cells0.length + 1⟩⟩
    else some s
  | _, _ => none

/-- Balance of the account named `i`. -/
def Bank.balanceOf {T : Type} (s : Bank T) (i : Nat) : Option T :=
  (s.accounts[i]?).map BankAccount.balance

/-- Holder of the account named `i`. -/
def Bank.holderOf {T : Type} (s : Bank T) (i : Nat) : Option String :=
  (s.accounts[i]?).map BankAccount.accountHolder

/-- Value `*transactionCount` of the account named `i`; `none` when undefined. -/
def Bank.countOf {T : Type} (s : Bank T) (i : Nat) : Option Int :=
  match s.accounts[i]? with
  | none => none
  | some acc => readCell s.cells acc.transactionCount

/-- One later call on an account: `deposit(amount)` or `withdraw(amount)`. -/
inductive Call (T : Type) where
  | deposit (amount : T)
  | withdraw (amount : T)

/-- Effect of the call on the account named `i`. -/
def Bank.call {T : Type} [LE T] [Add T] [Sub T] [DecidableRel (fun a b : T => a ≤ b)]
    (s : Bank T) (i : Nat) : Call T → Option (Bank T)
  | .deposit amount => s.deposit i amount
  | .withdraw amount => s.withdraw i amount

/-- Effect of a sequence of calls, each with the account it is made on, in order. -/
def Bank.run {T : Type} [LE T] [Add T] [Sub T] [DecidableRel (fun a b : T => a ≤ b)] :
    Bank T → List (Nat × Call T) → Option (Bank T)
  | s, [] => some s
  | s, (i, c) :: rest =>
    match s.call i c with
    | none => none
    | some s1 => Bank.run s1 rest

/-- The account named `j` shows the same holder, balance and transaction count in `s2`
as in `s1`. -/
def Bank.sameAccount {T : Type} (s1 s2 : Bank T) (j : Nat) : Prop :=
  s2.holderOf j = s1.holderOf j ∧ s2.balanceOf j = s1.balanceOf j ∧
    s2.countOf j = s1.countOf j

/-- The bank of the examples: Alice holds 1000 after 3 transactions, Bob holds 5
after 5 transactions. -/
def bankS : Bank Int := ⟨[some 3, some 5], [⟨"Alice", 1000, 1⟩, ⟨"Bob", 5, 2⟩]⟩

end ConstructorsDestructors

/-! # learning-C++/advanced_templates.cpp and learning-C++/templates.cpp -/

namespace Templates

/-- Data member of the class template `Stack<T>`: `std::vector<T> elements;` (the back
of the vector is the end of the list). -/
structure Stack (T : Type) where
  elements : List T

/-- Member function `pop()` of advanced_templates.cpp, read with the missing semicolon
supplied: `if (!elements.empty()) { elements.pop_back(); }` and then, outside the `if`,
`throw std::error("Stack is empty");`.  The result is the stack afterwards and the
message of the exception thrown, if any. -/
def Stack.pop {T : Type} (s : Stack T) : Stack T × Option String :=
  let s1 : Stack T := if !s.elements.isEmpty then ⟨s.elements.dropLast⟩ else s
  (s1, some "Stack is empty")

/-- Member function `pop()` of templates.cpp: the same statements, with the message
`"Stack is empty, nothing to pop"`. -/
def Stack.popTemplates {T : Type} (s : Stack T) : Stack T × Option String :=
  let s1 : Stack T := if !s.elements.isEmpty then ⟨s.elements.dropLast⟩ else s
  (s1, some "Stack is empty, nothing to pop")

/-- Member function `size()`. -/
def Stack.size {T : Type} (s : Stack T) : Nat := s.elements.length

end Templates

/-! # hello_world_class.cpp -/

namespace HelloWorldClass

/-- Data members of `HelloWorld`: `unsigned int repeatCount; std::string message;`. -/
structure HelloWorld where
  repeatCount : Nat
  message : String

/-- Value of a 32-bit `unsigned int` holding the mathematical result `z`. -/
def wrapU32 (z : Int) : Nat := (z % 4294967296).toNat

/-- Loop `for (unsigned int i = 0; i < hw.repeatCount; ++i)` shared by `operator<<` and
`print`, with `todo` iterations left, counter `i` and the text written so far: the
message, then a space when `i < hw.repeatCount - 1` (unsigned arithmetic). -/
def HelloWorld.loop (hw : HelloWorld) : Nat → Nat → String → String
  | 0, _, os => os
  | todo + 1, i, os =>
    let os1 := os ++ hw.message
    let os2 := if i < wrapU32 ((hw.repeatCount : Int) - 1) then os1 ++ " " else os1
    HelloWorld.loop hw todo (i + 1) os2

/-- Friend `operator<<(std::ostream& os, const HelloWorld& hw)`: the text of the stream
afterwards. -/
def HelloWorld.stream (os : String) (hw : HelloWorld) : String :=
  HelloWorld.loop hw hw.repeatCount 0 os

/-- Member function `print()`: the loop on `std::cout`, then `std::endl`. -/
def HelloWorld.print (out : String) (hw : HelloWorld) : String :=
  HelloWorld.loop hw hw.repeatCount 0 out ++ "\n"

end HelloWorldClass

namespace RAII

/-! ## Lemmas on the heap and the copy loop -/

open ResourceManager

theorem set_same_of_getElem? {α : Type} (l : List α) (k : Nat) (b : α)
    (h : l[k]? = some b) : l.set k b = l := by
  apply List.ext_getElem?
  intro j
  by_cases hj : k = j
  · subst hj
    have hk : k < l.length := by
      rcases Nat.lt_or_ge k l.length with h1 | h1
      · exact h1
      · rw [List.getElem?_eq_none h1] at h; cases h
    rw [List.getElem?_set_self hk, h]
  · rw [List.getElem?_set_ne hj]

theorem lt_length_of_getElem? {α : Type} (l : List α) (k : Nat) (b : α)
    (h : l[k]? = some b) : k < l.length := by
  rcases Nat.lt_or_ge k l.length with h1 | h1
  · exact h1
  · rw [List.getElem?_eq_none h1] at h; cases h

theorem copyLoop_spec (kd ks : Nat) (hne : ks ≠ kd) (bs : Block) (hfs : bs.frees = 0) :
    ∀ (todo i : Nat) (h : Heap) (bd : Block),
      h.blocks[ks]? = some bs → h.blocks[kd]? = some bd → bd.frees = 0 →
      i + todo ≤ bs.cells.length → i + todo ≤ bd.cells.length →
      ∃ cells, copyLoop (kd + 1) (ks + 1) todo i h = some ⟨h.blocks.set kd ⟨cells, 0⟩⟩ ∧
        cells.length = bd.cells.length ∧
        (∀ j, i ≤ j → j < i + todo → cells[j]? = bs.cells[j]?) ∧
        (∀ j, (j < i ∨ i + todo ≤ j) → cells[j]? = bd.cells[j]?) := by
  intro todo
  induction todo with
  | zero =>
    intro i h bd hs hd hfd _ _
    refine ⟨bd.cells, ?_, rfl, ?_, ?_⟩
    · have hb : (⟨bd.cells, 0⟩ : Block) = bd := by
        cases bd; simp at hfd; simp [hfd]
      rw [hb, set_same_of_getElem? _ _ _ hd]
      rfl
    · intro j h1 h2; omega
    · intro j _; rfl
  | succ todo ih =>
    intro i h bd hs hd hfd hls hld
    have hi : i < bs.cells.length := by omega
    have hid : i < bd.cells.length := by omega
    have hkd : kd < h.blocks.length := lt_length_of_getElem? _ _ _ hd
    have hread : h.read (ks + 1) i = some (bs.cells[i]) := by
      simp [Heap.read, hs, hfs, List.getElem?_eq_getElem hi]
    have hwrite : h.write (kd + 1) i (bs.cells[i]) =
        some ⟨h.blocks.set kd { bd with cells := bd.cells.set i (bs.cells[i]) }⟩ := by
      simp [Heap.write, hd, hfd, hid]
    obtain ⟨cells, hrun, hlen, hin, hout⟩ :=
      ih (i + 1) ⟨h.blocks.set kd { bd with cells := bd.cells.set i (bs.cells[i]) }⟩
        { bd with cells := bd.cells.set i (bs.cells[i]) }
        (by simp [List.getElem?_set_ne (Ne.symm hne), hs])
        (by simp [List.getElem?_set_self hkd])
        hfd (by omega) (by simp; omega)
    refine ⟨cells, ?_, ?_, ?_, ?_⟩
    · simp only [copyLoop, hread, hwrite, hrun, List.set_set]
    · simpa using hlen
    · intro j h1 h2
      by_cases hj : j = i
      · subst hj
        rw [hout j (Or.inl (Nat.lt_succ_self j))]
        simp [List.getElem?_set_self hid, List.getElem?_eq_getElem hi]
      · exact hin j (by omega) (by omega)
    · intro j h1
      rw [hout j (by omega)]
      have : i ≠ j := by omega
      simp [List.getElem?_set_ne this]

theorem copyLoop_full (h : Heap) (kd ks : Nat) (hne : ks ≠ kd) (bs bd : Block)
    (hs : h.blocks[ks]? = some bs) (hd : h.blocks[kd]? = some bd)
    (hfs : bs.frees = 0) (hfd : bd.frees = 0) (n : Nat)
    (hls : bs.cells.length = n) (hld : bd.cells.length = n) :
    copyLoop (kd + 1) (ks + 1) n 0 h = some ⟨h.blocks.set kd ⟨bs.cells, 0⟩⟩ := by
  obtain ⟨cells, hrun, hlen, hin, _⟩ :=
    copyLoop_spec kd ks hne bs hfs n 0 h bd hs hd hfd (by omega) (by omega)
  have hc : cells = bs.cells := by
    apply List.ext_getElem?
    intro j
    by_cases hj : j < n
    · exact hin j (Nat.zero_le j) (by omega)
    · rw [List.getElem?_eq_none (by omega), List.getElem?_eq_none (by omega)]
  rw [hrun, hc]

theorem validIn_cases (h : Heap) (t : ResourceManager) (hv : t.validIn h = true) :
    (t.data = 0 ∧ t.size = 0) ∨
    ∃ k b, t.data = k + 1 ∧ h.blocks[k]? = some b ∧ b.frees = 0 ∧ b.cells.length = t.size := by
  unfold ResourceManager.validIn at hv
  split at hv
  · left; simp_all
  · rename_i k hk
    right
    split at hv
    · rename_i b hb
      refine ⟨k, b, hk, hb, ?_, ?_⟩ <;> simp_all
    · cases hv

theorem copyLoop_fresh (h : Heap) (t : ResourceManager) (hv : t.validIn h = true)
    (junk : Nat → Int) :
    copyLoop (h.blocks.length + 1) t.data t.size 0
        ⟨h.blocks ++ [⟨(List.range t.size).map junk, 0⟩]⟩ =
      some ⟨h.blocks ++ [⟨h.contents t.data, 0⟩]⟩ := by
  rcases validIn_cases h t hv with ⟨hd, hs⟩ | ⟨k, b, hd, hb, hf, hl⟩
  · simp [hd, hs, copyLoop, Heap.contents]
  · have hk : k < h.blocks.length := lt_length_of_getElem? _ _ _ hb
    rw [hd]
    have := copyLoop_full ⟨h.blocks ++ [⟨(List.range t.size).map junk, 0⟩]⟩ h.blocks.length k
      (Nat.ne_of_lt hk) b ⟨(List.range t.size).map junk, 0⟩
      (by simp [List.getElem?_append_left hk, hb]) (by simp) hf rfl t.size hl (by simp)
    rw [this]
    simp [Heap.contents, hb]

theorem contents_length (h : Heap) (t : ResourceManager) (hv : t.validIn h = true) :
    (h.contents t.data).length = t.size := by
  rcases validIn_cases h t hv with ⟨hd, hs⟩ | ⟨k, b, hd, hb, _, hl⟩
  · simp [hd, hs, Heap.contents]
  · simp [hd, Heap.contents, hb, hl]

theorem read_eq_contents (h : Heap) (t : ResourceManager) (hv : t.validIn h = true) (i : Nat) :
    h.read t.data i = (h.contents t.data)[i]? := by
  rcases validIn_cases h t hv with ⟨hd, hs⟩ | ⟨k, b, hd, hb, hf, _⟩
  · simp [hd, Heap.contents, Heap.read]
  · simp [hd, Heap.contents, Heap.read, hb, hf]

theorem read_write_other (h h1 : Heap) (p q i j : Nat) (v : Int)
    (hw : h.write p i v = some h1) (hpq : q ≠ p) : h1.read q j = h.read q j := by
  cases p with
  | zero => simp [Heap.write] at hw
  | succ k =>
    simp only [Heap.write] at hw
    split at hw
    · rename_i b hb
      split at hw
      · cases hw
        cases q with
        | zero => rfl
        | succ m =>
          have hne : k ≠ m := by omega
          simp [Heap.read, List.getElem?_set_ne hne]
      · cases hw
    · cases hw

theorem write_defined (h : Heap) (k i : Nat) (v : Int) (b : Block)
    (hb : h.blocks[k]? = some b) (hf : b.frees = 0) (hi : i < b.cells.length) :
    h.write (k + 1) i v = some ⟨h.blocks.set k { b with cells := b.cells.set i v }⟩ := by
  simp [Heap.write, hb, hf, hi]

theorem copyCtor_eq (s : State) (a : Nat) (t : ResourceManager) (junk : Nat → Int)
    (ht : s.objs[a]? = some t) (hv : t.validIn s.heap = true) :
    copyCtor s a (.yields junk) =
      .done ⟨⟨s.heap.blocks ++ [⟨s.heap.contents t.data, 0⟩]⟩,
             s.objs ++ [⟨s.heap.blocks.length + 1, t.size⟩]⟩ s.objs.length := by
  simp [copyCtor, ht, Heap.newArray, copyLoop_fresh s.heap t hv junk]

theorem valid_cases (s : State) (a : Nat) (hv : s.valid a = true) :
    ∃ t, s.objs[a]? = some t ∧ t.validIn s.heap = true := by
  unfold State.valid at hv
  split at hv
  · cases hv
  · rename_i t ht
    exact ⟨t, ht, hv⟩

theorem store_eq (s : State) (obj i : Nat) (v : Int) (t : ResourceManager) (h2 : Heap)
    (ht : s.objs[obj]? = some t) (hw : s.heap.write t.data i v = some h2) :
    s.store obj i v = some ⟨h2, s.objs⟩ := by
  simp [State.store, ht, ResourceManager.index, hw]

theorem load_eq (s : State) (obj j : Nat) (t : ResourceManager)
    (ht : s.objs[obj]? = some t) : s.load obj j = s.heap.read t.data j := by
  simp [State.load, ht, ResourceManager.index]

/-- Claim C1. A copy-constructed instance shares no storage with its source: for a
valid instance `a` of size `n`, the copy constructor yields a new instance `b` whose handle
differs from the handle of `a`; writing any value to an element `i < n` of `b` leaves every
element of `a` as it was, and writing any value to an element `i < n` of `a` leaves every
element of `b` as it was. -/
theorem copy_no_aliasing (s : State) (a n : Nat) (junk : Nat → Int)
    (hv : s.valid a = true) (hn : s.getSize a = some n) :
    ∃ s1, copyCtor s a (.yields junk) = .done s1 s.objs.length ∧
      (s1.objs[s.objs.length]?).map ResourceManager.data ≠
        (s1.objs[a]?).map ResourceManager.data ∧
      (∀ i v, i < n → ∃ s2, s1.store s.objs.length i v = some s2 ∧
        ∀ j, s2.load a j = s1.load a j) ∧
      (∀ i v, i < n → ∃ s2, s1.store a i v = some s2 ∧
        ∀ j, s2.load s.objs.length j = s1.load s.objs.length j) := by
  obtain ⟨t, ht, hvt⟩ := valid_cases s a hv
  have ha : a < s.objs.length := lt_length_of_getElem? _ _ _ ht
  have hsz : t.size = n := by
    simpa [State.getSize, ht, ResourceManager.getSize] using hn
  refine ⟨_, copyCtor_eq s a t junk ht hvt, ?_, ?_, ?_⟩
  · have hle : t.data ≤ s.heap.blocks.length := by
      rcases validIn_cases s.heap t hvt with ⟨hd, _⟩ | ⟨k, b, hd, hb, _, _⟩
      · omega
      · have := lt_length_of_getElem? _ _ _ hb
        omega
    show Option.map ResourceManager.data (s.objs ++ [_])[s.objs.length]? ≠
      Option.map ResourceManager.data (s.objs ++ [_])[a]?
    rw [List.getElem?_concat_length, List.getElem?_append_left ha, ht]
    simp only [Option.map_some', ne_eq, Option.some.injEq]
    omega
  · intro i v hi
    have hlen : i < (s.heap.contents t.data).length := by
      rw [contents_length s.heap t hvt]; omega
    have hw := write_defined ⟨s.heap.blocks ++ [⟨s.heap.contents t.data, 0⟩]⟩
      s.heap.blocks.length i v ⟨s.heap.contents t.data, 0⟩ (by simp) rfl hlen
    refine ⟨_, store_eq _ _ _ _ ⟨s.heap.blocks.length + 1, t.size⟩ _ (by simp) hw, ?_⟩
    intro j
    rw [load_eq _ a j t (by simp [List.getElem?_append_left ha, ht]),
      load_eq _ a j t (by simp [List.getElem?_append_left ha, ht])]
    apply read_write_other _ _ _ _ _ _ _ hw
    rcases validIn_cases s.heap t hvt with ⟨hd, _⟩ | ⟨k, b, hd, hb, _, _⟩
    · omega
    · have := lt_length_of_getElem? _ _ _ hb
      omega
  · intro i v hi
    rcases validIn_cases s.heap t hvt with ⟨_, hs0⟩ | ⟨k, b, hd, hb, hf, hl⟩
    · omega
    · have hk : k < s.heap.blocks.length := lt_length_of_getElem? _ _ _ hb
      have hw := write_defined ⟨s.heap.blocks ++ [⟨s.heap.contents t.data, 0⟩]⟩
        k i v b (by simp [List.getElem?_append_left hk, hb]) hf (by omega)
      rw [← hd] at hw
      refine ⟨_, store_eq _ _ _ _ t _ (by simp [List.getElem?_append_left ha, ht]) hw, ?_⟩
      intro j
      rw [load_eq _ s.objs.length j ⟨s.heap.blocks.length + 1, t.size⟩ (by simp),
        load_eq _ s.objs.length j ⟨s.heap.blocks.length + 1, t.size⟩ (by simp)]
      apply read_write_other _ _ _ _ _ _ _ hw
      show s.heap.blocks.length + 1 ≠ t.data
      omega

/-- Witness for C1: the instance of size 5 whose element 0 is 10, and its copy. -/
theorem copy_no_aliasing_witness :
    ∃ s1, copyCtor ⟨⟨[⟨[10, 0, 0, 0, 0], 0⟩]⟩, [⟨1, 5⟩]⟩ 0 (.yields fun _ => 7) = .done s1 1 ∧
      (s1.objs[1]?).map ResourceManager.data ≠ (s1.objs[0]?).map ResourceManager.data ∧
      (∀ i v, i < 5 → ∃ s2, s1.store 1 i v = some s2 ∧ ∀ j, s2.load 0 j = s1.load 0 j) ∧
      (∀ i v, i < 5 → ∃ s2, s1.store 0 i v = some s2 ∧ ∀ j, s2.load 1 j = s1.load 1 j) :=
  copy_no_aliasing ⟨⟨[⟨[10, 0, 0, 0, 0], 0⟩]⟩, [⟨1, 5⟩]⟩ 0 5 (fun _ => 7) (by decide) (by decide)

/-- Claim C2. Copy-assigning a valid instance to itself changes nothing: the operation
returns the instance, its size and every element read are as before, and the heap is
untouched (no storage released, none allocated), whatever the allocator would answer. -/
theorem copyAssign_self (s : State) (a : Nat) (o : Alloc) (hv : s.valid a = true) :
    ∃ s1, copyAssign s a a o = .done s1 a ∧ s1.getSize a = s.getSize a ∧
      (∀ i, s1.load a i = s.load a i) ∧ s1.heap = s.heap ∧ s1 = s := by
  obtain ⟨t, ht, _⟩ := valid_cases s a hv
  exact ⟨s, by simp [copyAssign, ht], rfl, fun _ => rfl, rfl, rfl⟩

/-- Witness for C2: an instance holding `[1, 2, 3]` assigned to itself. -/
theorem copyAssign_self_witness :
    ∃ s1, copyAssign ⟨⟨[⟨[1, 2, 3], 0⟩]⟩, [⟨1, 3⟩]⟩ 0 0 .fails = .done s1 0 ∧
      s1.getSize 0 = State.getSize ⟨⟨[⟨[1, 2, 3], 0⟩]⟩, [⟨1, 3⟩]⟩ 0 ∧
      (∀ i, s1.load 0 i = State.load ⟨⟨[⟨[1, 2, 3], 0⟩]⟩, [⟨1, 3⟩]⟩ 0 i) ∧
      s1.heap = ⟨[⟨[1, 2, 3], 0⟩]⟩ ∧ s1 = ⟨⟨[⟨[1, 2, 3], 0⟩]⟩, [⟨1, 3⟩]⟩ :=
  copyAssign_self ⟨⟨[⟨[1, 2, 3], 0⟩]⟩, [⟨1, 3⟩]⟩ 0 .fails (by decide)

/-- Claim C3. Move-assigning a valid instance to itself changes nothing: the operation
returns the instance, its size and every element read are as before, its handle is not
reset to null and the heap is untouched (the storage is not released). -/
theorem moveAssign_self (s : State) (a : Nat) (hv : s.valid a = true) :
    ∃ s1, moveAssign s a a = .done s1 a ∧ s1.getSize a = s.getSize a ∧
      (∀ i, s1.load a i = s.load a i) ∧ s1.objs[a]? = s.objs[a]? ∧ s1.heap = s.heap := by
  obtain ⟨t, ht, _⟩ := valid_cases s a hv
  exact ⟨s, by simp [moveAssign, ht], rfl, fun _ => rfl, rfl, rfl⟩

/-- Witness for C3: an instance holding `[1, 2, 3]` move-assigned to itself. -/
theorem moveAssign_self_witness :
    ∃ s1, moveAssign ⟨⟨[⟨[1, 2, 3], 0⟩]⟩, [⟨1, 3⟩]⟩ 0 0 = .done s1 0 ∧
      s1.getSize 0 = State.getSize ⟨⟨[⟨[1, 2, 3], 0⟩]⟩, [⟨1, 3⟩]⟩ 0 ∧
      (∀ i, s1.load 0 i = State.load ⟨⟨[⟨[1, 2, 3], 0⟩]⟩, [⟨1, 3⟩]⟩ 0 i) ∧
      s1.objs[0]? = (State.objs ⟨⟨[⟨[1, 2, 3], 0⟩]⟩, [⟨1, 3⟩]⟩)[0]? ∧
      s1.heap = ⟨[⟨[1, 2, 3], 0⟩]⟩ :=
  moveAssign_self ⟨⟨[⟨[1, 2, 3], 0⟩]⟩, [⟨1, 3⟩]⟩ 0 (by decide)

/-- Claim C4. Move construction empties the source: for a valid instance `a` with
`getSize(a) = n > 0`, the move constructor completes and yields a new instance `b` with
`getSize(b) = n`, while `a` is left with `getSize(a) = 0` and a null data handle. -/
theorem moveCtor_empties_source (s : State) (a n : Nat)
    (hv : s.valid a = true) (hn : s.getSize a = some n) (_hpos : 0 < n) :
    ∃ s1, moveCtor s a = .done s1 s.objs.length ∧
      s1.getSize s.objs.length = some n ∧ s1.getSize a = some 0 ∧
      (s1.objs[a]?).map ResourceManager.data = some 0 := by
  obtain ⟨t, ht, _⟩ := valid_cases s a hv
  have ha : a < s.objs.length := lt_length_of_getElem? _ _ _ ht
  have hsz : t.size = n := by
    simpa [State.getSize, ht, ResourceManager.getSize] using hn
  have hlen : (s.objs.set a ⟨0, 0⟩).length = s.objs.length := by simp
  have hnew : (s.objs.set a ⟨0, 0⟩ ++ [(⟨t.data, t.size⟩ : ResourceManager)])[s.objs.length]?
      = some ⟨t.data, t.size⟩ := by
    rw [← hlen, List.getElem?_concat_length]
  have hold : (s.objs.set a ⟨0, 0⟩ ++ [(⟨t.data, t.size⟩ : ResourceManager)])[a]?
      = some ⟨0, 0⟩ := by
    rw [List.getElem?_append_left (by omega), List.getElem?_set_self ha]
  refine ⟨⟨s.heap, s.objs.set a ⟨0, 0⟩ ++ [⟨t.data, t.size⟩]⟩, by simp [moveCtor, ht], ?_, ?_, ?_⟩
  · simp [State.getSize, hnew, ResourceManager.getSize, hsz]
  · simp [State.getSize, hold, ResourceManager.getSize]
  · simp [hold]

/-- Witness for C4: moving out of an instance of size 5. -/
theorem moveCtor_empties_source_witness :
    ∃ s1, moveCtor ⟨⟨[⟨[10, 0, 0, 0, 0], 0⟩]⟩, [⟨1, 5⟩]⟩ 0 = .done s1 1 ∧
      s1.getSize 1 = some 5 ∧ s1.getSize 0 = some 0 ∧
      (s1.objs[0]?).map ResourceManager.data = some 0 :=
  moveCtor_empties_source ⟨⟨[⟨[10, 0, 0, 0, 0], 0⟩]⟩, [⟨1, 5⟩]⟩ 0 5 (by decide) (by decide)
    (by decide)

/-- Claim C7, as stated, fails: `new int[size]` does not initialise the elements.  On a
free store whose fresh memory holds 7, `ResourceManager(1)` has size 1 and its element 0
reads 7, not 0. -/
theorem ctor_zero_filled_counterexample :
    ∃ s1, ctor State.init 1 (.yields fun _ => 7) = .done s1 0 ∧
      s1.getSize 0 = some 1 ∧ s1.load 0 0 = some 7 ∧ s1.load 0 0 ≠ some 0 :=
  ⟨⟨⟨[⟨[7], 0⟩]⟩, [⟨1, 1⟩]⟩, by decide, by decide, by decide, by decide⟩

/-- Claim C7, amended. For every size `n`, when the allocation succeeds the sizing
constructor yields a new instance with `getSize() = n` that owns a fresh block of exactly
`n` elements; element `i < n` holds whatever the fresh storage held (`junk i`), which is 0
only where the allocator happened to hand out zeroed memory. -/
theorem ctor_size_and_elements (s : State) (n : Nat) (junk : Nat → Int) :
    ∃ s1, ctor s n (.yields junk) = .done s1 s.objs.length ∧
      s1.getSize s.objs.length = some n ∧
      s1.valid s.objs.length = true ∧
      (∀ i, i < n → s1.load s.objs.length i = some (junk i)) ∧
      (∀ i, n ≤ i → s1.load s.objs.length i = none) := by
  refine ⟨⟨⟨s.heap.blocks ++ [⟨(List.range n).map junk, 0⟩]⟩,
    s.objs ++ [⟨s.heap.blocks.length + 1, n⟩]⟩, ?_, ?_, ?_, ?_, ?_⟩
  · simp [ctor, Heap.newArray]
  · simp [State.getSize, ResourceManager.getSize]
  · simp [State.valid, ResourceManager.validIn]
  · intro i hi
    simp [State.load, ResourceManager.index, Heap.read, List.getElem?_range hi, hi]
  · intro i hi
    simp [State.load, ResourceManager.index, Heap.read]
    omega

/-- Claim C10. The copy constructor duplicates its source: for a valid instance `a`, the
copy `b` has `getSize(b) = getSize(a)` and `b[i] = a[i]` (a defined value) for every
`i < getSize(a)`, and `a` is unchanged: same members, same elements. -/
theorem copyCtor_equal_elements (s : State) (a n : Nat) (junk : Nat → Int)
    (hv : s.valid a = true) (hn : s.getSize a = some n) :
    ∃ s1, copyCtor s a (.yields junk) = .done s1 s.objs.length ∧
      s1.getSize s.objs.length = some n ∧
      (∀ i, i < n → s1.load s.objs.length i = s.load a i ∧ (s.load a i).isSome = true) ∧
      s1.objs[a]? = s.objs[a]? ∧ s1.getSize a = some n ∧
      (∀ i, s1.load a i = s.load a i) := by
  obtain ⟨t, ht, hvt⟩ := valid_cases s a hv
  have ha : a < s.objs.length := lt_length_of_getElem? _ _ _ ht
  have hsz : t.size = n := by
    simpa [State.getSize, ht, ResourceManager.getSize] using hn
  have hold : (s.objs ++ [(⟨s.heap.blocks.length + 1, t.size⟩ : ResourceManager)])[a]? =
      some t := by
    rw [List.getElem?_append_left ha, ht]
  refine ⟨_, copyCtor_eq s a t junk ht hvt, ?_, ?_, ?_, ?_, ?_⟩
  · simp [State.getSize, ResourceManager.getSize, hsz]
  · intro i hi
    rw [load_eq _ s.objs.length i ⟨s.heap.blocks.length + 1, t.size⟩ (by simp),
      load_eq s a i t ht, read_eq_contents s.heap t hvt]
    constructor
    · simp [Heap.read]
    · have := contents_length s.heap t hvt
      rw [List.getElem?_eq_getElem (by omega)]
      rfl
  · rw [hold, ht]
  · show Option.map ResourceManager.getSize (s.objs ++ [_])[a]? = some n
    rw [hold]
    simp [ResourceManager.getSize, hsz]
  · intro i
    rw [load_eq _ a i t hold, load_eq s a i t ht]
    rcases validIn_cases s.heap t hvt with ⟨hd, _⟩ | ⟨k, b, hd, hb, _, _⟩
    · simp [hd, Heap.read]
    · have hk : k < s.heap.blocks.length := lt_length_of_getElem? _ _ _ hb
      simp [hd, Heap.read, List.getElem?_append_left hk]

/-- Witness for C10: copying the instance that holds `[10, 20, 30]`. -/
theorem copyCtor_equal_elements_witness :
    ∃ s1, copyCtor ⟨⟨[⟨[10, 20, 30], 0⟩]⟩, [⟨1, 3⟩]⟩ 0 (.yields fun _ => 7) = .done s1 1 ∧
      s1.getSize 1 = some 3 ∧
      (∀ i, i < 3 → s1.load 1 i = State.load ⟨⟨[⟨[10, 20, 30], 0⟩]⟩, [⟨1, 3⟩]⟩ 0 i ∧
        (State.load ⟨⟨[⟨[10, 20, 30], 0⟩]⟩, [⟨1, 3⟩]⟩ 0 i).isSome = true) ∧
      s1.objs[0]? = (State.objs ⟨⟨[⟨[10, 20, 30], 0⟩]⟩, [⟨1, 3⟩]⟩)[0]? ∧
      s1.getSize 0 = some 3 ∧
      (∀ i, s1.load 0 i = State.load ⟨⟨[⟨[10, 20, 30], 0⟩]⟩, [⟨1, 3⟩]⟩ 0 i) :=
  copyCtor_equal_elements ⟨⟨[⟨[10, 20, 30], 0⟩]⟩, [⟨1, 3⟩]⟩ 0 3 (fun _ => 7)
    (by decide) (by decide)

/-! ## Lemmas on ownership counting -/

theorem owners_nil (k : Nat) : owners [] k = 0 := rfl

theorem owners_cons (t : ResourceManager) (l : List ResourceManager) (k : Nat) :
    owners (t :: l) k = owners l k + (if t.data = k + 1 then 1 else 0) := by
  simp [owners, List.countP_cons]

theorem owners_append (l : List ResourceManager) (x : ResourceManager) (k : Nat) :
    owners (l ++ [x]) k = owners l k + (if x.data = k + 1 then 1 else 0) := by
  simp [owners, List.countP_append, List.countP_cons]

theorem owners_set (l : List ResourceManager) (i : Nat) (t x : ResourceManager) (k : Nat)
    (ht : l[i]? = some t) :
    owners (l.set i x) k + (if t.data = k + 1 then 1 else 0) =
      owners l k + (if x.data = k + 1 then 1 else 0) := by
  induction l generalizing i with
  | nil => simp at ht
  | cons u l ih =>
    cases i with
    | zero =>
      simp at ht
      subst ht
      simp only [List.set_cons_zero, owners_cons]
      omega
    | succ i =>
      simp at ht
      have := ih i ht
      simp only [List.set_cons_succ, owners_cons]
      omega

theorem owners_pos (l : List ResourceManager) (i : Nat) (t : ResourceManager) (k : Nat)
    (ht : l[i]? = some t) (hd : t.data = k + 1) : 1 ≤ owners l k := by
  have := owners_set l i t ⟨0, 0⟩ k ht
  simp [hd] at this
  omega

theorem owners_two (l : List ResourceManager) (i j : Nat) (t u : ResourceManager) (k : Nat)
    (hij : i ≠ j) (ht : l[i]? = some t) (hu : l[j]? = some u)
    (hdt : t.data = k + 1) (hdu : u.data = k + 1) : 2 ≤ owners l k := by
  have h1 := owners_set l i t ⟨0, 0⟩ k ht
  have h2 := owners_pos (l.set i ⟨0, 0⟩) j u k (by rw [List.getElem?_set_ne hij]; exact hu) hdu
  simp [hdt] at h1
  omega

theorem owners_eq_zero (l : List ResourceManager) (k : Nat)
    (h : ∀ (i : Nat) (t : ResourceManager), l[i]? = some t → t.data ≤ k) : owners l k = 0 := by
  induction l with
  | nil => rfl
  | cons u l ih =>
    have hu := h 0 u (by simp)
    have := ih (fun i t ht => h (i + 1) t (by simpa using ht))
    rw [owners_cons, this]
    have : ¬ u.data = k + 1 := by omega
    simp [this]

/-! ## Lemmas on release and growth of the heap -/

theorem deleteArray_length (h : Heap) (p : Nat) :
    (h.deleteArray p).blocks.length = h.blocks.length := by
  unfold Heap.deleteArray
  split
  · rfl
  · split <;> simp

theorem deleteArray_getElem? (h : Heap) (p k : Nat) :
    (h.deleteArray p).blocks[k]? =
      if p = k + 1 then (h.blocks[k]?).map (fun b => { b with frees := b.frees + 1 })
      else h.blocks[k]? := by
  unfold Heap.deleteArray
  split
  · simp
  · rename_i m
    split
    · rename_i b hb
      have hm : m < h.blocks.length := lt_length_of_getElem? _ _ _ hb
      by_cases hk : m = k
      · subst hk
        simp [List.getElem?_set_self hm, hb]
      · have : ¬ m + 1 = k + 1 := by omega
        simp [List.getElem?_set_ne hk, this]
    · rename_i hb
      by_cases hk : m = k
      · subst hk
        simp [hb]
      · have : ¬ m + 1 = k + 1 := by omega
        simp [this]

theorem validIn_deleteArray (h : Heap) (t : ResourceManager) (p : Nat)
    (hv : t.validIn h = true) (hp : p ≠ t.data) : t.validIn (h.deleteArray p) = true := by
  rcases validIn_cases h t hv with ⟨hd, hs⟩ | ⟨k, b, hd, hb, hf, hl⟩
  · simp [ResourceManager.validIn, hd, hs]
  · have : ¬ p = k + 1 := by omega
    simp [ResourceManager.validIn, hd, deleteArray_getElem?, this, hb, hf, hl]

theorem contents_deleteArray (h : Heap) (p q : Nat) (hp : p ≠ q) :
    (h.deleteArray p).contents q = h.contents q := by
  cases q with
  | zero => rfl
  | succ k =>
    have : ¬ p = k + 1 := by omega
    simp [Heap.contents, deleteArray_getElem?, this]

theorem validIn_grow (h : Heap) (t : ResourceManager) (x : Block)
    (hv : t.validIn h = true) : t.validIn ⟨h.blocks ++ [x]⟩ = true := by
  rcases validIn_cases h t hv with ⟨hd, hs⟩ | ⟨k, b, hd, hb, hf, hl⟩
  · simp [ResourceManager.validIn, hd, hs]
  · have hk : k < h.blocks.length := lt_length_of_getElem? _ _ _ hb
    simp [ResourceManager.validIn, hd, List.getElem?_append_left hk, hb, hf, hl]

theorem validIn_data_le (h : Heap) (t : ResourceManager) (hv : t.validIn h = true) :
    t.data ≤ h.blocks.length := by
  rcases validIn_cases h t hv with ⟨hd, _⟩ | ⟨k, b, hd, hb, _, _⟩
  · omega
  · have hk : k < h.blocks.length := lt_length_of_getElem? _ _ _ hb
    omega

theorem validIn_fresh (h : Heap) (cells : List Int) :
    ResourceManager.validIn ⟨h.blocks ++ [⟨cells, 0⟩]⟩ ⟨h.blocks.length + 1, cells.length⟩
      = true := by
  simp [ResourceManager.validIn]

theorem validIn_empty (h : Heap) : ResourceManager.validIn h ⟨0, 0⟩ = true := by
  simp [ResourceManager.validIn]

theorem deletable_of_validIn (h : Heap) (t : ResourceManager) (hv : t.validIn h = true) :
    h.deletable t.data = true := by
  rcases validIn_cases h t hv with ⟨hd, _⟩ | ⟨k, blk, hd, hblk, hf, _⟩
  · rw [hd]; rfl
  · simp [Heap.deletable, hd, hblk, hf]

/-! ## Preservation of the invariant -/

theorem inv_exclusive (s : State) (hinv : s.inv) (i j : Nat) (t u : ResourceManager)
    (hij : i ≠ j) (ht : s.objs[i]? = some t) (hu : s.objs[j]? = some u)
    (hd : t.data ≠ 0) : t.data ≠ u.data := by
  intro heq
  rcases validIn_cases s.heap t (hinv.1 i t ht) with ⟨h0, _⟩ | ⟨k, b, hk, hb, _, _⟩
  · exact hd h0
  · have h1 := hinv.2 k b hb
    have h2 := owners_two s.objs i j t u k hij ht hu hk (by omega)
    omega

theorem getElem?_set_cases {α : Type} (l : List α) (i j : Nat) (x y : α)
    (h : (l.set i x)[j]? = some y) : (j = i ∧ y = x) ∨ (j ≠ i ∧ l[j]? = some y) := by
  by_cases hij : i = j
  · subst hij
    have hi : i < l.length := by
      have := lt_length_of_getElem? _ _ _ h
      simpa using this
    rw [List.getElem?_set_self hi] at h
    left
    exact ⟨rfl, (Option.some.inj h).symm⟩
  · rw [List.getElem?_set_ne hij] at h
    right
    exact ⟨fun e => hij e.symm, h⟩

theorem getElem?_concat_cases {α : Type} (l : List α) (j : Nat) (x y : α)
    (h : (l ++ [x])[j]? = some y) : (j = l.length ∧ y = x) ∨ (j < l.length ∧ l[j]? = some y) := by
  by_cases hj : j < l.length
  · rw [List.getElem?_append_left hj] at h
    right
    exact ⟨hj, h⟩
  · have hlen := lt_length_of_getElem? _ _ _ h
    simp at hlen
    have : j = l.length := by omega
    subst this
    rw [List.getElem?_concat_length] at h
    left
    exact ⟨rfl, (Option.some.inj h).symm⟩

theorem inv_alloc (s : State) (cells : List Int) (hinv : s.inv) :
    State.inv ⟨⟨s.heap.blocks ++ [⟨cells, 0⟩]⟩,
      s.objs ++ [⟨s.heap.blocks.length + 1, cells.length⟩]⟩ := by
  constructor
  · intro i t ht
    rcases getElem?_concat_cases _ _ _ _ ht with ⟨_, rfl⟩ | ⟨_, hold⟩
    · exact validIn_fresh s.heap cells
    · exact validIn_grow s.heap t _ (hinv.1 i t hold)
  · intro k b hb
    show b.frees + owners (s.objs ++ [_]) k = 1
    rw [owners_append]
    rcases getElem?_concat_cases _ _ _ _ hb with ⟨rfl, rfl⟩ | ⟨hk, hold⟩
    · have := owners_eq_zero s.objs s.heap.blocks.length
        (fun i t ht => validIn_data_le s.heap t (hinv.1 i t ht))
      simp [this]
    · have := hinv.2 k b hold
      have hne : ¬ s.heap.blocks.length + 1 = k + 1 := by omega
      simp [hne, this]

theorem inv_move (s : State) (a : Nat) (t : ResourceManager) (ht : s.objs[a]? = some t)
    (hinv : s.inv) : State.inv ⟨s.heap, s.objs.set a ⟨0, 0⟩ ++ [⟨t.data, t.size⟩]⟩ := by
  constructor
  · intro i u hu
    rcases getElem?_concat_cases _ _ _ _ hu with ⟨_, rfl⟩ | ⟨_, hold⟩
    · exact hinv.1 a t ht
    · rcases getElem?_set_cases _ _ _ _ _ hold with ⟨_, rfl⟩ | ⟨_, hold2⟩
      · exact validIn_empty s.heap
      · exact hinv.1 i u hold2
  · intro k b hb
    show b.frees + owners (s.objs.set a ⟨0, 0⟩ ++ [_]) k = 1
    rw [owners_append]
    have h1 := owners_set s.objs a t ⟨0, 0⟩ k ht
    have h2 := hinv.2 k b hb
    simp at h1
    simp only []
    omega

theorem inv_release_alloc (s : State) (a : Nat) (t : ResourceManager) (cells : List Int)
    (ht : s.objs[a]? = some t) (hinv : s.inv) :
    State.inv ⟨⟨(s.heap.deleteArray t.data).blocks ++ [⟨cells, 0⟩]⟩,
      s.objs.set a ⟨s.heap.blocks.length + 1, cells.length⟩⟩ := by
  have hlen := deleteArray_length s.heap t.data
  constructor
  · intro i u hu
    rcases getElem?_set_cases _ _ _ _ _ hu with ⟨_, rfl⟩ | ⟨hia, hold⟩
    · rw [← hlen]
      exact validIn_fresh (s.heap.deleteArray t.data) cells
    · apply validIn_grow
      by_cases hd : t.data = 0
      · rw [hd]
        exact hinv.1 i u hold
      · exact validIn_deleteArray s.heap u t.data (hinv.1 i u hold)
          (inv_exclusive s hinv a i t u (fun e => hia e.symm) ht hold hd)
  · intro k b hb
    show b.frees + owners (s.objs.set a _) k = 1
    have h1 := owners_set s.objs a t ⟨s.heap.blocks.length + 1, cells.length⟩ k ht
    have hle := validIn_data_le s.heap t (hinv.1 a t ht)
    rcases getElem?_concat_cases _ _ _ _ hb with ⟨hk, rfl⟩ | ⟨hk, hold⟩
    · rw [hlen] at hk
      subst hk
      have h0 := owners_eq_zero s.objs s.heap.blocks.length
        (fun i t ht => validIn_data_le s.heap t (hinv.1 i t ht))
      have hne : ¬ t.data = s.heap.blocks.length + 1 := by omega
      simp [hne, h0] at h1
      simp [h1]
    · rw [hlen] at hk
      have hne : ¬ s.heap.blocks.length + 1 = k + 1 := by omega
      simp only [hne, if_false] at h1
      rw [deleteArray_getElem?] at hold
      by_cases hd : t.data = k + 1
      · simp only [hd, if_true] at hold h1
        obtain ⟨b0, hb0, rfl⟩ := Option.map_eq_some'.mp hold
        have h2 := hinv.2 k b0 hb0
        have h3 := owners_pos s.objs a t k ht hd
        simp only []
        omega
      · simp only [hd, if_false] at hold h1
        have h2 := hinv.2 k b hold
        omega

theorem inv_release_adopt (s : State) (a c : Nat) (t r : ResourceManager) (hac : a ≠ c)
    (ht : s.objs[a]? = some t) (hr : s.objs[c]? = some r) (hinv : s.inv) :
    State.inv ⟨s.heap.deleteArray t.data,
      (s.objs.set a ⟨r.data, r.size⟩).set c ⟨0, 0⟩⟩ := by
  have hvalid : ∀ (i : Nat) (u : ResourceManager), i ≠ a → s.objs[i]? = some u →
      u.validIn (s.heap.deleteArray t.data) = true := by
    intro i u hia hu
    by_cases hd : t.data = 0
    · rw [hd]
      exact hinv.1 i u hu
    · exact validIn_deleteArray s.heap u t.data (hinv.1 i u hu)
        (inv_exclusive s hinv a i t u (fun e => hia e.symm) ht hu hd)
  constructor
  · intro i u hu
    rcases getElem?_set_cases _ _ _ _ _ hu with ⟨_, rfl⟩ | ⟨hic, hold⟩
    · exact validIn_empty _
    · rcases getElem?_set_cases _ _ _ _ _ hold with ⟨_, rfl⟩ | ⟨hia, hold2⟩
      · exact hvalid c r (fun e => hac e.symm) hr
      · exact hvalid i u hia hold2
  · intro k b hb
    show b.frees + owners ((s.objs.set a _).set c _) k = 1
    have h1 := owners_set s.objs a t ⟨r.data, r.size⟩ k ht
    have h2 := owners_set (s.objs.set a ⟨r.data, r.size⟩) c r ⟨0, 0⟩ k
      (by rw [List.getElem?_set_ne hac]; exact hr)
    simp only [] at h1 h2
    have h20 : ¬ (0 : Nat) = k + 1 := by omega
    simp only [h20, if_false] at h2
    change (s.heap.deleteArray t.data).blocks[k]? = some b at hb
    rw [deleteArray_getElem?] at hb
    by_cases hd : t.data = k + 1
    · simp only [hd, if_true] at hb h1
      obtain ⟨b0, hb0, rfl⟩ := Option.map_eq_some'.mp hb
      have h3 := hinv.2 k b0 hb0
      have h4 := owners_pos s.objs a t k ht hd
      simp only []
      omega
    · simp only [hd, if_false] at hb h1
      have h3 := hinv.2 k b hb
      omega

/-! ## Well-formed states and the frame of copy assignment -/

theorem wf_valid (s : State) (hwf : s.wf) (i : Nat) (t : ResourceManager)
    (ht : s.objs[i]? = some t) : t.validIn s.heap = true := by
  have hi := lt_length_of_getElem? _ _ _ ht
  rw [List.getElem?_eq_getElem hi] at ht
  cases ht
  exact hwf.1 _ (List.getElem_mem hi)

theorem wf_exclusive (s : State) (hwf : s.wf) (i j : Nat) (t u : ResourceManager)
    (hij : i ≠ j) (ht : s.objs[i]? = some t) (hu : s.objs[j]? = some u) :
    t.data = 0 ∨ t.data ≠ u.data := by
  have hi := lt_length_of_getElem? _ _ _ ht
  have hj := lt_length_of_getElem? _ _ _ hu
  rw [List.getElem?_eq_getElem hi] at ht
  rw [List.getElem?_eq_getElem hj] at hu
  cases ht
  cases hu
  have hp := List.pairwise_iff_getElem.mp hwf.2
  rcases Nat.lt_or_gt_of_ne hij with h | h
  · exact hp i j hi hj h
  · rcases hp j i hj hi h with h0 | hne
    · by_cases hz : (s.objs[i]).data = 0
      · exact Or.inl hz
      · right
        intro e
        exact hz (by rw [e, h0])
    · exact Or.inr (fun e => hne e.symm)

theorem read_deleteArray (h : Heap) (p q i : Nat) (hp : p = 0 ∨ p ≠ q) :
    (h.deleteArray p).read q i = h.read q i := by
  cases q with
  | zero => rfl
  | succ k =>
    rcases hp with rfl | hp
    · rfl
    · have : ¬ p = k + 1 := hp
      simp [Heap.read, deleteArray_getElem?, this]

theorem read_grow (h : Heap) (x : Block) (q i : Nat) (hq : q ≤ h.blocks.length) :
    Heap.read ⟨h.blocks ++ [x]⟩ q i = h.read q i := by
  cases q with
  | zero => rfl
  | succ k =>
    have hk : k < h.blocks.length := by omega
    simp [Heap.read, List.getElem?_append_left hk]

theorem read_fresh (h : Heap) (cells : List Int) (i : Nat) :
    Heap.read ⟨h.blocks ++ [⟨cells, 0⟩]⟩ (h.blocks.length + 1) i = cells[i]? := by
  simp [Heap.read]

theorem release_keeps (h : Heap) (p : Nat) (r : ResourceManager)
    (hvr : r.validIn h = true) (hex : p = 0 ∨ p ≠ r.data) :
    r.validIn (h.deleteArray p) = true ∧
      (h.deleteArray p).contents r.data = h.contents r.data := by
  rcases hex with rfl | hne
  · exact ⟨hvr, rfl⟩
  · exact ⟨validIn_deleteArray h r p hvr hne, contents_deleteArray h p r.data hne⟩

theorem copyAssign_eq (s : State) (a b : Nat) (t r : ResourceManager) (junk : Nat → Int)
    (hab : a ≠ b) (ht : s.objs[a]? = some t) (hr : s.objs[b]? = some r)
    (hvr : r.validIn s.heap = true) (hex : t.data = 0 ∨ t.data ≠ r.data) :
    copyAssign s a b (.yields junk) =
      .done ⟨⟨(s.heap.deleteArray t.data).blocks ++ [⟨s.heap.contents r.data, 0⟩]⟩,
        s.objs.set a ⟨s.heap.blocks.length + 1, r.size⟩⟩ a := by
  obtain ⟨hv0, hc0⟩ := release_keeps s.heap t.data r hvr hex
  have hloop := copyLoop_fresh (s.heap.deleteArray t.data) r hv0 junk
  rw [hc0, deleteArray_length] at hloop
  simp [copyAssign, ht, hr, hab, Heap.newArray, deleteArray_length, hloop, List.set_set]

theorem copyAssign_fails_eq (s : State) (a b : Nat) (t r : ResourceManager)
    (hab : a ≠ b) (ht : s.objs[a]? = some t) (hr : s.objs[b]? = some r) :
    copyAssign s a b .fails =
      .threw ⟨s.heap.deleteArray t.data, s.objs.set a ⟨t.data, r.size⟩⟩ := by
  simp [copyAssign, ht, hr, hab, Heap.newArray]

theorem getElem?_of_lt {α : Type} (l : List α) (i : Nat) (hi : i < l.length) :
    ∃ x, l[i]? = some x := ⟨l[i], List.getElem?_eq_getElem hi⟩

/-- Claim C9. Copy assignment returns the assigned-to instance, so assignments chain: for
instances `a`, `b`, `c` of a well-formed state, `a` distinct from `b` and from `c`, the first
assignment `a = b` completes and returns `a`, the second one applied to that result,
`(a = b) = c`, completes and returns `a`, and afterwards `a` has the size of `c` and reads
the same elements as `c`, while `b` and `c` have the members and elements they had. -/
theorem copyAssign_chain (s : State) (a b c n : Nat) (j1 j2 : Nat → Int)
    (hwf : s.wf) (ha : a < s.objs.length) (hb : b < s.objs.length) (hc : c < s.objs.length)
    (hab : a ≠ b) (hac : a ≠ c) (hn : s.getSize c = some n) :
    ∃ s1 s2 r1, copyAssign s a b (.yields j1) = .done s1 r1 ∧ r1 = a ∧
      copyAssign s1 r1 c (.yields j2) = .done s2 a ∧
      s2.getSize a = some n ∧
      (∀ i, s2.load a i = s.load c i) ∧ (∀ i, i < n → (s.load c i).isSome = true) ∧
      s2.objs[b]? = s.objs[b]? ∧ (∀ i, s2.load b i = s.load b i) ∧
      s2.objs[c]? = s.objs[c]? ∧ (∀ i, s2.load c i = s.load c i) := by
  obtain ⟨t, ht⟩ := getElem?_of_lt s.objs a ha
  obtain ⟨rb, hrb⟩ := getElem?_of_lt s.objs b hb
  obtain ⟨rc, hrc⟩ := getElem?_of_lt s.objs c hc
  have hvb := wf_valid s hwf b rb hrb
  have hvc := wf_valid s hwf c rc hrc
  have hxb := wf_exclusive s hwf a b t rb hab ht hrb
  have hxc := wf_exclusive s hwf a c t rc hac ht hrc
  have hlb := validIn_data_le s.heap rb hvb
  have hlc := validIn_data_le s.heap rc hvc
  have hsz : rc.size = n := by
    simpa [State.getSize, hrc, ResourceManager.getSize] using hn
  have h1 := copyAssign_eq s a b t rb j1 hab ht hrb hvb hxb
  -- the state after the first assignment
  generalize hs1 : (⟨⟨(s.heap.deleteArray t.data).blocks ++ [⟨s.heap.contents rb.data, 0⟩]⟩,
    s.objs.set a ⟨s.heap.blocks.length + 1, rb.size⟩⟩ : State) = s1 at h1
  have hlen1 : s1.heap.blocks.length = s.heap.blocks.length + 1 := by
    subst hs1; simp [deleteArray_length]
  have ha1 : s1.objs[a]? = some ⟨s.heap.blocks.length + 1, rb.size⟩ := by
    subst hs1; exact List.getElem?_set_self ha
  have hb1 : s1.objs[b]? = some rb := by
    subst hs1; show (s.objs.set a _)[b]? = _; rw [List.getElem?_set_ne hab, hrb]
  have hc1 : s1.objs[c]? = some rc := by
    subst hs1; show (s.objs.set a _)[c]? = _; rw [List.getElem?_set_ne hac, hrc]
  have hframe1 : ∀ q i, q ≤ s.heap.blocks.length → (t.data = 0 ∨ t.data ≠ q) →
      s1.heap.read q i = s.heap.read q i := by
    intro q i hq hx
    subst hs1
    show Heap.read ⟨(s.heap.deleteArray t.data).blocks ++ [_]⟩ q i = _
    rw [read_grow _ _ _ _ (by rw [deleteArray_length]; exact hq), read_deleteArray _ _ _ _ hx]
  have hvc1 : rc.validIn s1.heap = true := by
    subst hs1
    exact validIn_grow _ _ _ (release_keeps s.heap t.data rc hvc hxc).1
  have hcont1 : s1.heap.contents rc.data = s.heap.contents rc.data := by
    apply List.ext_getElem?
    intro i
    rw [← read_eq_contents s1.heap rc hvc1, ← read_eq_contents s.heap rc hvc]
    exact hframe1 rc.data i hlc hxc
  have hx1 : s.heap.blocks.length + 1 = 0 ∨ s.heap.blocks.length + 1 ≠ rc.data := by
    right; omega
  have h2 := copyAssign_eq s1 a c ⟨s.heap.blocks.length + 1, rb.size⟩ rc j2 hac ha1 hc1 hvc1 hx1
  rw [hcont1] at h2
  refine ⟨s1, _, a, h1, rfl, h2, ?_, ?_, ?_, ?_, ?_, ?_, ?_⟩
  · have ha1len : a < s1.objs.length := lt_length_of_getElem? _ _ _ ha1
    simp [State.getSize, List.getElem?_set_self ha1len, ResourceManager.getSize, hsz]
  · intro i
    have ha1len : a < s1.objs.length := lt_length_of_getElem? _ _ _ ha1
    rw [load_eq _ a i ⟨s1.heap.blocks.length + 1, rc.size⟩ (List.getElem?_set_self ha1len),
      load_eq s c i rc hrc, read_eq_contents s.heap rc hvc]
    show Heap.read ⟨(s1.heap.deleteArray _).blocks ++ [_]⟩ (s1.heap.blocks.length + 1) i = _
    rw [← deleteArray_length s1.heap (s.heap.blocks.length + 1), read_fresh]
  · intro i hi
    rw [load_eq s c i rc hrc, read_eq_contents s.heap rc hvc]
    have := contents_length s.heap rc hvc
    rw [List.getElem?_eq_getElem (by omega)]
    rfl
  · show (s1.objs.set a _)[b]? = _
    rw [List.getElem?_set_ne hab, hb1, hrb]
  · intro i
    rw [load_eq _ b i rb (by show (s1.objs.set a _)[b]? = _; rw [List.getElem?_set_ne hab, hb1]),
      load_eq s b i rb hrb]
    show Heap.read ⟨(s1.heap.deleteArray _).blocks ++ [_]⟩ rb.data i = _
    rw [read_grow _ _ _ _ (by rw [deleteArray_length]; omega),
      read_deleteArray _ _ _ _ (Or.inr (by show s.heap.blocks.length + 1 ≠ _; omega))]
    exact hframe1 rb.data i hlb hxb
  · show (s1.objs.set a _)[c]? = _
    rw [List.getElem?_set_ne hac, hc1, hrc]
  · intro i
    rw [load_eq _ c i rc (by show (s1.objs.set a _)[c]? = _; rw [List.getElem?_set_ne hac, hc1]),
      load_eq s c i rc hrc]
    show Heap.read ⟨(s1.heap.deleteArray _).blocks ++ [_]⟩ rc.data i = _
    rw [read_grow _ _ _ _ (by rw [deleteArray_length]; omega),
      read_deleteArray _ _ _ _ (Or.inr (by show s.heap.blocks.length + 1 ≠ _; omega))]
    exact hframe1 rc.data i hlc hxc

/-- Witness for C9: `a` holds `[1, 2]`, `b` holds `[3, 4, 5]`, `c` holds `[6]`; after
`(a = b) = c` the instance `a` reads like `c`. -/
theorem copyAssign_chain_witness :
    ∃ s1 s2 r1,
      copyAssign ⟨⟨[⟨[1, 2], 0⟩, ⟨[3, 4, 5], 0⟩, ⟨[6], 0⟩]⟩, [⟨1, 2⟩, ⟨2, 3⟩, ⟨3, 1⟩]⟩ 0 1
        (.yields fun _ => 7) = .done s1 r1 ∧ r1 = 0 ∧
      copyAssign s1 r1 2 (.yields fun _ => 8) = .done s2 0 ∧
      s2.getSize 0 = some 1 ∧
      (∀ i, s2.load 0 i =
        State.load ⟨⟨[⟨[1, 2], 0⟩, ⟨[3, 4, 5], 0⟩, ⟨[6], 0⟩]⟩, [⟨1, 2⟩, ⟨2, 3⟩, ⟨3, 1⟩]⟩ 2 i) ∧
      (∀ i, i < 1 → (State.load
        ⟨⟨[⟨[1, 2], 0⟩, ⟨[3, 4, 5], 0⟩, ⟨[6], 0⟩]⟩, [⟨1, 2⟩, ⟨2, 3⟩, ⟨3, 1⟩]⟩ 2 i).isSome = true) ∧
      s2.objs[1]? = (State.objs
        ⟨⟨[⟨[1, 2], 0⟩, ⟨[3, 4, 5], 0⟩, ⟨[6], 0⟩]⟩, [⟨1, 2⟩, ⟨2, 3⟩, ⟨3, 1⟩]⟩)[1]? ∧
      (∀ i, s2.load 1 i =
        State.load ⟨⟨[⟨[1, 2], 0⟩, ⟨[3, 4, 5], 0⟩, ⟨[6], 0⟩]⟩, [⟨1, 2⟩, ⟨2, 3⟩, ⟨3, 1⟩]⟩ 1 i) ∧
      s2.objs[2]? = (State.objs
        ⟨⟨[⟨[1, 2], 0⟩, ⟨[3, 4, 5], 0⟩, ⟨[6], 0⟩]⟩, [⟨1, 2⟩, ⟨2, 3⟩, ⟨3, 1⟩]⟩)[2]? ∧
      (∀ i, s2.load 2 i =
        State.load ⟨⟨[⟨[1, 2], 0⟩, ⟨[3, 4, 5], 0⟩, ⟨[6], 0⟩]⟩, [⟨1, 2⟩, ⟨2, 3⟩, ⟨3, 1⟩]⟩ 2 i) :=
  copyAssign_chain ⟨⟨[⟨[1, 2], 0⟩, ⟨[3, 4, 5], 0⟩, ⟨[6], 0⟩]⟩, [⟨1, 2⟩, ⟨2, 3⟩, ⟨3, 1⟩]⟩
    0 1 2 1 (fun _ => 7) (fun _ => 8) (by decide) (by decide) (by decide) (by decide)
    (by decide) (by decide) (by decide)

/-- Claim C6, as stated, fails: with `a` holding `[1, 2]` and `b` holding `[3, 4, 5]`, a
failing allocation inside `a = b` leaves `a` with size 3 instead of 2, its element 0 (which
read 1) no longer readable, and its block released. -/
theorem copyAssign_failure_counterexample :
    ∃ s1, copyAssign ⟨⟨[⟨[1, 2], 0⟩, ⟨[3, 4, 5], 0⟩]⟩, [⟨1, 2⟩, ⟨2, 3⟩]⟩ 0 1 .fails = .threw s1 ∧
      State.getSize ⟨⟨[⟨[1, 2], 0⟩, ⟨[3, 4, 5], 0⟩]⟩, [⟨1, 2⟩, ⟨2, 3⟩]⟩ 0 = some 2 ∧
      s1.getSize 0 = some 3 ∧
      State.load ⟨⟨[⟨[1, 2], 0⟩, ⟨[3, 4, 5], 0⟩]⟩, [⟨1, 2⟩, ⟨2, 3⟩]⟩ 0 0 = some 1 ∧
      s1.load 0 0 = none ∧
      s1.heap.blocks[0]? = some ⟨[1, 2], 1⟩ :=
  ⟨⟨⟨[⟨[1, 2], 1⟩, ⟨[3, 4, 5], 0⟩]⟩, [⟨1, 3⟩, ⟨2, 3⟩]⟩,
    by decide, by decide, by decide, by decide, by decide, by decide⟩

/-- Claim C6, amended. For distinct instances `a` and `b` of a well-formed state, when the
allocation inside `a = b` fails, `std::bad_alloc` leaves the operator; every instance other
than `a`, so `b` too, keeps its members and elements, no object and no block has been
created, but the prior state of `a` is not kept: the operator releases before it allocates,
so the storage `a` held (a block allocated until then, of the size of `a`) has been
released, once, and that release is the only change to the heap. -/
theorem copyAssign_failure_state (s : State) (a b : Nat)
    (hwf : s.wf) (ha : a < s.objs.length) (hb : b < s.objs.length) (hab : a ≠ b) :
    ∃ s1 t, copyAssign s a b .fails = .threw s1 ∧ s.objs[a]? = some t ∧
      (∀ j, j ≠ a → s1.objs[j]? = s.objs[j]? ∧ ∀ i, s1.load j i = s.load j i) ∧
      s1.objs.length = s.objs.length ∧
      s1.heap.blocks.length = s.heap.blocks.length ∧
      s.heap.deletable t.data = true ∧
      s1.heap = s.heap.deleteArray t.data ∧
      (∀ k, t.data = k + 1 → ∃ blk, s.heap.blocks[k]? = some blk ∧ blk.frees = 0 ∧
        blk.cells.length = t.size ∧ s1.heap.blocks[k]? = some { blk with frees := 1 }) ∧
      (∀ k, t.data ≠ k + 1 → s1.heap.blocks[k]? = s.heap.blocks[k]?) := by
  obtain ⟨t, ht⟩ := getElem?_of_lt s.objs a ha
  obtain ⟨r, hr⟩ := getElem?_of_lt s.objs b hb
  have hvt := wf_valid s hwf a t ht
  refine ⟨_, t, copyAssign_fails_eq s a b t r hab ht hr, ht, ?_, ?_, ?_, ?_, rfl, ?_, ?_⟩
  · intro j hj
    have hobj : (s.objs.set a ⟨t.data, r.size⟩)[j]? = s.objs[j]? :=
      List.getElem?_set_ne (fun e => hj e.symm)
    refine ⟨hobj, ?_⟩
    intro i
    cases hu : s.objs[j]? with
    | none =>
      have h1 : (s.objs.set a ⟨t.data, r.size⟩)[j]? = none := by rw [hobj, hu]
      simp [State.load, h1, hu]
    | some u =>
      have h1 : (s.objs.set a ⟨t.data, r.size⟩)[j]? = some u := by rw [hobj, hu]
      rw [load_eq _ j i u h1, load_eq s j i u hu]
      exact read_deleteArray s.heap t.data u.data i
        (wf_exclusive s hwf a j t u (fun e => hj e.symm) ht hu)
  · simp
  · exact deleteArray_length s.heap t.data
  · exact deletable_of_validIn s.heap t hvt
  · intro k hk
    rcases validIn_cases s.heap t hvt with ⟨hd, _⟩ | ⟨k0, blk, hd, hblk, hf, hl⟩
    · omega
    · have hkk : k0 = k := by omega
      subst hkk
      refine ⟨blk, hblk, hf, hl, ?_⟩
      show (s.heap.deleteArray t.data).blocks[k0]? = _
      rw [deleteArray_getElem?]
      simp [hd, hblk, hf]
  · intro k hk
    show (s.heap.deleteArray t.data).blocks[k]? = _
    rw [deleteArray_getElem?]
    simp [hk]

/-- Witness for C6 (amended): `a` holds `[1, 2]`, `b` holds `[3, 4, 5]`. -/
theorem copyAssign_failure_state_witness :
    ∃ s1 t,
      copyAssign ⟨⟨[⟨[1, 2], 0⟩, ⟨[3, 4, 5], 0⟩]⟩, [⟨1, 2⟩, ⟨2, 3⟩]⟩ 0 1 .fails = .threw s1 ∧
      (State.objs ⟨⟨[⟨[1, 2], 0⟩, ⟨[3, 4, 5], 0⟩]⟩, [⟨1, 2⟩, ⟨2, 3⟩]⟩)[0]? = some t ∧
      (∀ j, j ≠ 0 →
        s1.objs[j]? = (State.objs ⟨⟨[⟨[1, 2], 0⟩, ⟨[3, 4, 5], 0⟩]⟩, [⟨1, 2⟩, ⟨2, 3⟩]⟩)[j]? ∧
        ∀ i, s1.load j i =
          State.load ⟨⟨[⟨[1, 2], 0⟩, ⟨[3, 4, 5], 0⟩]⟩, [⟨1, 2⟩, ⟨2, 3⟩]⟩ j i) ∧
      s1.objs.length = 2 ∧
      s1.heap.blocks.length = 2 ∧
      Heap.deletable ⟨[⟨[1, 2], 0⟩, ⟨[3, 4, 5], 0⟩]⟩ t.data = true ∧
      s1.heap = Heap.deleteArray ⟨[⟨[1, 2], 0⟩, ⟨[3, 4, 5], 0⟩]⟩ t.data ∧
      (∀ k, t.data = k + 1 → ∃ blk,
        (Heap.blocks ⟨[⟨[1, 2], 0⟩, ⟨[3, 4, 5], 0⟩]⟩)[k]? = some blk ∧ blk.frees = 0 ∧
        blk.cells.length = t.size ∧ s1.heap.blocks[k]? = some { blk with frees := 1 }) ∧
      (∀ k, t.data ≠ k + 1 →
        s1.heap.blocks[k]? = (Heap.blocks ⟨[⟨[1, 2], 0⟩, ⟨[3, 4, 5], 0⟩]⟩)[k]?) :=
  copyAssign_failure_state ⟨⟨[⟨[1, 2], 0⟩, ⟨[3, 4, 5], 0⟩]⟩, [⟨1, 2⟩, ⟨2, 3⟩]⟩ 0 1
    (by decide) (by decide) (by decide) (by decide)

/-! ## Programs: every completed operation keeps the invariant -/

theorem inv_init : State.init.inv := by
  constructor
  · intro i t ht
    simp [State.init] at ht
  · intro k b hb
    simp [State.init] at hb

theorem step_inv (s : State) (op : Op) (hinv : s.inv) (hok : op.allocOk = true)
    (hsc : op.scoped s.objs.length = true) :
    ∃ s1 ref, step s op = .done s1 ref ∧ s1.inv ∧
      s1.objs.length = s.objs.length + op.constructs := by
  cases op with
  | construct n o =>
    cases o with
    | fails => simp [Op.allocOk] at hok
    | yields junk =>
      refine ⟨_, _, rfl, ?_, by simp [Op.constructs]⟩
      simpa using inv_alloc s ((List.range n).map junk) hinv
  | copyConstruct src o =>
    cases o with
    | fails => simp [Op.allocOk] at hok
    | yields junk =>
      have hsrc : src < s.objs.length := by simpa [Op.scoped] using hsc
      obtain ⟨t, ht⟩ := getElem?_of_lt s.objs src hsrc
      have hv := hinv.1 src t ht
      refine ⟨_, _, copyCtor_eq s src t junk ht hv, ?_, by simp [Op.constructs]⟩
      have := inv_alloc s (s.heap.contents t.data) hinv
      rwa [contents_length s.heap t hv] at this
  | moveConstruct src =>
    have hsrc : src < s.objs.length := by simpa [Op.scoped] using hsc
    obtain ⟨t, ht⟩ := getElem?_of_lt s.objs src hsrc
    refine ⟨⟨s.heap, s.objs.set src ⟨0, 0⟩ ++ [⟨t.data, t.size⟩]⟩, s.objs.length,
      by simp [step, moveCtor, ht], inv_move s src t ht hinv, by simp [Op.constructs]⟩
  | copyAssign dst src o =>
    cases o with
    | fails => simp [Op.allocOk] at hok
    | yields junk =>
      have hboth : dst < s.objs.length ∧ src < s.objs.length := by simpa [Op.scoped] using hsc
      obtain ⟨t, ht⟩ := getElem?_of_lt s.objs dst hboth.1
      obtain ⟨r, hr⟩ := getElem?_of_lt s.objs src hboth.2
      by_cases hds : dst = src
      · subst hds
        exact ⟨s, dst, by simp [step, copyAssign, ht], hinv, by simp [Op.constructs]⟩
      · have hv := hinv.1 src r hr
        have hx : t.data = 0 ∨ t.data ≠ r.data := by
          by_cases h0 : t.data = 0
          · exact Or.inl h0
          · exact Or.inr (inv_exclusive s hinv dst src t r hds ht hr h0)
        refine ⟨_, _, copyAssign_eq s dst src t r junk hds ht hr hv hx, ?_,
          by simp [Op.constructs]⟩
        have := inv_release_alloc s dst t (s.heap.contents r.data) ht hinv
        rwa [contents_length s.heap r hv] at this
  | moveAssign dst src =>
    have hboth : dst < s.objs.length ∧ src < s.objs.length := by simpa [Op.scoped] using hsc
    obtain ⟨t, ht⟩ := getElem?_of_lt s.objs dst hboth.1
    obtain ⟨r, hr⟩ := getElem?_of_lt s.objs src hboth.2
    by_cases hds : dst = src
    · subst hds
      exact ⟨s, dst, by simp [step, moveAssign, ht], hinv, by simp [Op.constructs]⟩
    · exact ⟨⟨s.heap.deleteArray t.data, (s.objs.set dst ⟨r.data, r.size⟩).set src ⟨0, 0⟩⟩,
        dst, by simp [step, moveAssign, ht, hr, hds],
        inv_release_adopt s dst src t r hds ht hr hinv, by simp [Op.constructs]⟩

theorem exec_inv (ops : List Op) :
    ∀ (s : State), s.inv → ops.all (fun op => op.allocOk) = true →
      wellScoped s.objs.length ops = true →
      ∃ s1, exec s ops = .completed s1 ∧ s1.inv := by
  induction ops with
  | nil =>
    intro s hinv _ _
    exact ⟨s, rfl, hinv⟩
  | cons op ops ih =>
    intro s hinv hok hsc
    simp only [List.all_cons, Bool.and_eq_true] at hok
    simp only [wellScoped, Bool.and_eq_true] at hsc
    obtain ⟨s1, ref, hstep, hinv1, hlen⟩ := step_inv s op hinv hok.1 hsc.1
    obtain ⟨s2, hrun, hinv2⟩ := ih s1 hinv1 hok.2 (by rw [hlen]; exact hsc.2)
    exact ⟨s2, by simp [exec, hstep, hrun], hinv2⟩

theorem foldr_dtor_getElem? (objs : List ResourceManager) (h : Heap) (k : Nat) :
    (objs.foldr (fun t h => ResourceManager.dtor h t) h).blocks[k]? =
      (h.blocks[k]?).map (fun b => { b with frees := b.frees + owners objs k }) := by
  induction objs with
  | nil =>
    simp [owners_nil]
  | cons t objs ih =>
    simp only [ResourceManager.dtor] at ih
    simp only [List.foldr_cons, ResourceManager.dtor, deleteArray_getElem?, owners_cons]
    by_cases hd : t.data = k + 1
    · simp only [hd, if_true]
      rw [ih]
      cases h.blocks[k]? <;> simp [Nat.add_assoc]
    · simp only [hd, if_false]
      rw [ih]
      simp

theorem destroyAll_frees (s : State) (hinv : s.inv) :
    ∀ b ∈ (destroyAll s).blocks, b.frees = 1 := by
  intro b hb
  obtain ⟨k, hk, hbk⟩ := List.getElem_of_mem hb
  have hget : (destroyAll s).blocks[k]? = some b := by
    rw [List.getElem?_eq_getElem hk, hbk]
  rw [destroyAll, foldr_dtor_getElem?] at hget
  obtain ⟨b0, hb0, rfl⟩ := Option.map_eq_some'.mp hget
  exact hinv.2 k b0 hb0

theorem destroyAll_length (s : State) :
    (destroyAll s).blocks.length = s.heap.blocks.length := by
  unfold destroyAll
  induction s.objs with
  | nil => rfl
  | cons t objs ih =>
    simp only [List.foldr_cons, ResourceManager.dtor, deleteArray_length]
    exact ih

theorem inv_wf (s : State) (hinv : s.inv) : s.wf := by
  constructor
  · intro t ht
    obtain ⟨i, hi, hti⟩ := List.getElem_of_mem ht
    exact hinv.1 i t (by rw [List.getElem?_eq_getElem hi, hti])
  · rw [List.pairwise_iff_getElem]
    intro i j hi hj hij
    by_cases h0 : (s.objs[i]).data = 0
    · exact Or.inl h0
    · exact Or.inr (inv_exclusive s hinv i j _ _ (Nat.ne_of_lt hij)
        (List.getElem?_eq_getElem hi) (List.getElem?_eq_getElem hj) h0)

/-- Single release when every allocation succeeds. For every sequence of construct,
copy-construct, move-construct, copy-assign and move-assign operations in which each
operation names objects constructed before it and every allocation succeeds, the sequence
completes, and after every object has been destroyed once each block that was allocated
has been released exactly once: none twice, none still allocated. -/
theorem single_release (ops : List Op) (hok : ops.all (fun op => op.allocOk) = true)
    (hsc : wellScoped 0 ops = true) :
    ∃ s h, exec State.init ops = .completed s ∧ lifetime ops = some h ∧
      h.blocks.length = s.heap.blocks.length ∧ ∀ b ∈ h.blocks, b.frees = 1 := by
  obtain ⟨s, hrun, hinv⟩ := exec_inv ops State.init inv_init hok hsc
  exact ⟨s, destroyAll s, hrun, by simp [lifetime, hrun], destroyAll_length s,
    destroyAll_frees s hinv⟩

/-- An instance of `single_release`: a program using all five operations,
self-assignment included. -/
theorem single_release_witness :
    ∃ s h,
      exec State.init [.construct 2 (.yields fun _ => 7), .construct 3 (.yields fun _ => 8),
        .copyAssign 0 1 (.yields fun _ => 1), .moveConstruct 0, .moveAssign 1 2,
        .copyConstruct 0 (.yields fun _ => 1), .moveAssign 1 1, .copyAssign 3 3 (.yields fun _ => 1)]
        = .completed s ∧
      lifetime [.construct 2 (.yields fun _ => 7), .construct 3 (.yields fun _ => 8),
        .copyAssign 0 1 (.yields fun _ => 1), .moveConstruct 0, .moveAssign 1 2,
        .copyConstruct 0 (.yields fun _ => 1), .moveAssign 1 1, .copyAssign 3 3 (.yields fun _ => 1)]
        = some h ∧
      h.blocks.length = s.heap.blocks.length ∧ ∀ b ∈ h.blocks, b.frees = 1 :=
  single_release [.construct 2 (.yields fun _ => 7), .construct 3 (.yields fun _ => 8),
    .copyAssign 0 1 (.yields fun _ => 1), .moveConstruct 0, .moveAssign 1 2,
    .copyConstruct 0 (.yields fun _ => 1), .moveAssign 1 1, .copyAssign 3 3 (.yields fun _ => 1)]
    (by decide) (by decide)

theorem exec_append_completed (ops : List Op) :
    ∀ (s s1 : State) (more : List Op), exec s ops = .completed s1 →
      exec s (ops ++ more) = exec s1 more := by
  induction ops with
  | nil =>
    intro s s1 more h
    simp only [exec] at h
    cases h
    rfl
  | cons op ops ih =>
    intro s s1 more h
    simp only [exec, List.cons_append] at h ⊢
    cases hstep : step s op with
    | done s2 ref =>
      rw [hstep] at h
      simp only at h ⊢
      exact ih s2 s1 more h
    | threw s2 => rw [hstep] at h; cases h
    | undefined => rw [hstep] at h; cases h

/-- Claim C5 is not met by the code.  Take any program of construct, copy-construct,
move-construct, copy-assign and move-assign operations in which every allocation succeeds,
and let it end with a copy assignment `a = b` between distinct instances whose allocation
fails, `a` holding storage.  The operator has run `delete[]` on the handle of `a` before
`new` throws and leaves that handle in `a`, so when each instance is then destroyed once,
the destructor of `a` releases the same block again: the block `a` held, allocated and not
released before the assignment, ends with two releases recorded. -/
theorem failed_copyAssign_releases_twice (ops : List Op) (s : State) (a b : Nat)
    (t : ResourceManager)
    (hok : ops.all (fun op => op.allocOk) = true) (hsc : wellScoped 0 ops = true)
    (hrun : exec State.init ops = .completed s)
    (ht : s.objs[a]? = some t) (hb : b < s.objs.length) (hab : a ≠ b) (hpos : t.data ≠ 0) :
    ∃ k blk h, t.data = k + 1 ∧ s.heap.blocks[k]? = some blk ∧ blk.frees = 0 ∧
      lifetime (ops ++ [.copyAssign a b .fails]) = some h ∧
      h.blocks[k]? = some { blk with frees := 2 } := by
  obtain ⟨s0, hrun0, hinv⟩ := exec_inv ops State.init inv_init hok hsc
  rw [hrun] at hrun0
  cases hrun0
  obtain ⟨r, hr⟩ := getElem?_of_lt s.objs b hb
  rcases validIn_cases s.heap t (hinv.1 a t ht) with ⟨hd, _⟩ | ⟨k, blk, hd, hblk, hf, _⟩
  · exact absurd hd hpos
  · have hbal := hinv.2 k blk hblk
    have hown := owners_set s.objs a t ⟨t.data, r.size⟩ k ht
    simp only [hd, if_true] at hown
    have hlast : exec State.init (ops ++ [.copyAssign a b .fails]) =
        .aborted ⟨s.heap.deleteArray t.data, s.objs.set a ⟨t.data, r.size⟩⟩ := by
      rw [exec_append_completed ops State.init s _ hrun]
      simp [exec, step, copyAssign_fails_eq s a b t r hab ht hr]
    refine ⟨k, blk, destroyAll ⟨s.heap.deleteArray t.data, s.objs.set a ⟨t.data, r.size⟩⟩,
      hd, hblk, hf, by simp only [lifetime, hlast], ?_⟩
    rw [destroyAll, foldr_dtor_getElem?]
    show Option.map _ ((s.heap.deleteArray t.data).blocks[k]?) = _
    rw [deleteArray_getElem?]
    simp only [hd, if_true, hblk, Option.map_some']
    have hsum : blk.frees + 1 + owners (s.objs.set a ⟨k + 1, r.size⟩) k = 2 := by omega
    rw [hsum]

/-- Witness for C5: after `a(2)`, `b(3)` and an assignment `a = b` whose allocation
throws, destroying `b` and `a` leaves the block of `a` with two releases recorded. -/
theorem failed_copyAssign_releases_twice_witness :
    (∃ k blk h, (1 : Nat) = k + 1 ∧
      (Heap.blocks ⟨[⟨[7, 7], 0⟩, ⟨[8, 8, 8], 0⟩]⟩)[k]? = some blk ∧ blk.frees = 0 ∧
      lifetime ([.construct 2 (.yields fun _ => 7), .construct 3 (.yields fun _ => 8)] ++
        [.copyAssign 0 1 .fails]) = some h ∧
      h.blocks[k]? = some { blk with frees := 2 }) ∧
    lifetime [.construct 2 (.yields fun _ => 7), .construct 3 (.yields fun _ => 8),
      .copyAssign 0 1 .fails] = some ⟨[⟨[7, 7], 2⟩, ⟨[8, 8, 8], 1⟩]⟩ :=
  ⟨failed_copyAssign_releases_twice
    [.construct 2 (.yields fun _ => 7), .construct 3 (.yields fun _ => 8)]
    ⟨⟨[⟨[7, 7], 0⟩, ⟨[8, 8, 8], 0⟩]⟩, [⟨1, 2⟩, ⟨2, 3⟩]⟩ 0 1 ⟨1, 2⟩
    (by decide) (by decide) (by decide) (by decide) (by decide) (by decide) (by decide),
    by decide⟩

/-- Claim C8, as stated, fails twice.  `ResourceManager(0)` has size 0 and a non-null
handle (`new int[0]` returns a block of no elements); and after an assignment `a = b`
whose allocation throws, `a` has size 3 while its handle is the released block of 2
elements. -/
theorem data_invariant_counterexample :
    (∃ s1, ctor State.init 0 (.yields fun _ => 7) = .done s1 0 ∧
      s1.getSize 0 = some 0 ∧ (s1.objs[0]?).map ResourceManager.data = some 1) ∧
    (∃ s1, exec State.init [.construct 2 (.yields fun _ => 7),
        .construct 3 (.yields fun _ => 8), .copyAssign 0 1 .fails] = .aborted s1 ∧
      s1.getSize 0 = some 3 ∧ (s1.objs[0]?).map ResourceManager.data = some 1 ∧
      s1.heap.blocks[0]? = some ⟨[7, 7], 1⟩) :=
  ⟨⟨⟨⟨[⟨[], 0⟩]⟩, [⟨1, 0⟩]⟩, by decide, by decide, by decide⟩,
    ⟨⟨⟨[⟨[7, 7], 1⟩, ⟨[8, 8, 8], 0⟩]⟩, [⟨1, 3⟩, ⟨2, 3⟩]⟩,
      by decide, by decide, by decide, by decide⟩⟩

/-- Claim C8, amended. Every state reached through the sizing constructor, copy and move
construction and copy and move assignment, all of whose allocations succeeded, is
well formed (no two objects own the same block) and satisfies for each object: a null
handle goes with size 0, `size > 0` goes with a non-null handle, and a non-null handle
denotes an allocated block of exactly `size` elements (possibly none). -/
theorem reachable_invariant (ops : List Op) (hok : ops.all (fun op => op.allocOk) = true)
    (hsc : wellScoped 0 ops = true) :
    ∃ s, exec State.init ops = .completed s ∧ s.wf ∧
      ∀ (i : Nat) (t : ResourceManager), s.objs[i]? = some t →
        (t.data = 0 → t.size = 0) ∧ (0 < t.size → t.data ≠ 0) ∧
        (t.data ≠ 0 → ∃ b, s.heap.blocks[t.data - 1]? = some b ∧ b.frees = 0 ∧
          b.cells.length = t.size) := by
  obtain ⟨s, hrun, hinv⟩ := exec_inv ops State.init inv_init hok hsc
  refine ⟨s, hrun, inv_wf s hinv, ?_⟩
  intro i t ht
  rcases validIn_cases s.heap t (hinv.1 i t ht) with ⟨hd, hs⟩ | ⟨k, b, hd, hb, hf, hl⟩
  · exact ⟨fun _ => hs, fun hpos => by omega, fun hne => absurd hd hne⟩
  · refine ⟨fun h0 => by omega, fun _ => by omega, fun _ => ⟨b, ?_, hf, hl⟩⟩
    rw [hd]
    exact hb

/-- Witness for C8 (amended): a program that constructs a size 0 object, copies, moves
and assigns. -/
theorem reachable_invariant_witness :
    ∃ s, exec State.init [.construct 0 (.yields fun _ => 7), .construct 3 (.yields fun _ => 8),
        .copyAssign 0 1 (.yields fun _ => 1), .moveConstruct 0, .moveAssign 1 2,
        .copyConstruct 0 (.yields fun _ => 1)] = .completed s ∧ s.wf ∧
      ∀ (i : Nat) (t : ResourceManager), s.objs[i]? = some t →
        (t.data = 0 → t.size = 0) ∧ (0 < t.size → t.data ≠ 0) ∧
        (t.data ≠ 0 → ∃ b, s.heap.blocks[t.data - 1]? = some b ∧ b.frees = 0 ∧
          b.cells.length = t.size) :=
  reachable_invariant [.construct 0 (.yields fun _ => 7), .construct 3 (.yields fun _ => 8),
    .copyAssign 0 1 (.yields fun _ => 1), .moveConstruct 0, .moveAssign 1 2,
    .copyConstruct 0 (.yields fun _ => 1)] (by decide) (by decide)

/-- Claim C11. Move construction hands over the elements: for a valid instance `a` of size
`n`, the instance `b` move-constructed from `a` has size `n` and reads at every index what
`a` read before the move, a defined value for every `i < n`. -/
theorem moveCtor_keeps_elements (s : State) (a n : Nat)
    (hv : s.valid a = true) (hn : s.getSize a = some n) :
    ∃ s1, moveCtor s a = .done s1 s.objs.length ∧
      s1.getSize s.objs.length = some n ∧
      (∀ i, s1.load s.objs.length i = s.load a i) ∧
      (∀ i, i < n → (s.load a i).isSome = true) := by
  obtain ⟨t, ht, hvt⟩ := valid_cases s a hv
  have ha : a < s.objs.length := lt_length_of_getElem? _ _ _ ht
  have hsz : t.size = n := by
    simpa [State.getSize, ht, ResourceManager.getSize] using hn
  have hlen : (s.objs.set a ⟨0, 0⟩).length = s.objs.length := by simp
  have hnew : (s.objs.set a ⟨0, 0⟩ ++ [(⟨t.data, t.size⟩ : ResourceManager)])[s.objs.length]?
      = some ⟨t.data, t.size⟩ := by
    rw [← hlen, List.getElem?_concat_length]
  refine ⟨⟨s.heap, s.objs.set a ⟨0, 0⟩ ++ [⟨t.data, t.size⟩]⟩, by simp [moveCtor, ht], ?_, ?_, ?_⟩
  · simp [State.getSize, hnew, ResourceManager.getSize, hsz]
  · intro i
    rw [load_eq _ s.objs.length i ⟨t.data, t.size⟩ hnew, load_eq s a i t ht]
  · intro i hi
    rw [load_eq s a i t ht, read_eq_contents s.heap t hvt]
    have := contents_length s.heap t hvt
    rw [List.getElem?_eq_getElem (by omega)]
    rfl

/-- Witness for C11: the instance of size 5 whose element 0 is 10 is moved from; the
new instance has length 5 and element 0 equal to 10. -/
theorem moveCtor_keeps_elements_witness :
    (∃ s1, moveCtor ⟨⟨[⟨[10, 20, 0, 0, 0], 0⟩]⟩, [⟨1, 5⟩]⟩ 0 = .done s1 1 ∧
      s1.getSize 1 = some 5 ∧
      (∀ i, s1.load 1 i = State.load ⟨⟨[⟨[10, 20, 0, 0, 0], 0⟩]⟩, [⟨1, 5⟩]⟩ 0 i) ∧
      (∀ i, i < 5 → (State.load ⟨⟨[⟨[10, 20, 0, 0, 0], 0⟩]⟩, [⟨1, 5⟩]⟩ 0 i).isSome = true)) ∧
    State.load ⟨⟨[⟨[10, 20, 0, 0, 0], 0⟩]⟩, [⟨1, 5⟩]⟩ 0 0 = some 10 :=
  ⟨moveCtor_keeps_elements ⟨⟨[⟨[10, 20, 0, 0, 0], 0⟩]⟩, [⟨1, 5⟩]⟩ 0 5 (by decide) (by decide),
    by decide⟩

/-- Claim C12. Copy assignment between distinct instances: in a well-formed state (so `a`
may be valid in any way, moved-from and empty included), after `a = b` with the allocation
succeeding the operator returns `a`; `a` has the size of `b` and reads the elements of `b`;
`b` keeps its members and elements; the block `a` owned before, if any, was allocated and
is now released once; and the handle of `a` differs from the handle of `b`. -/
theorem copyAssign_distinct (s : State) (a b n : Nat) (junk : Nat → Int)
    (hwf : s.wf) (ha : a < s.objs.length) (hb : b < s.objs.length) (hab : a ≠ b)
    (hn : s.getSize b = some n) :
    ∃ s1, copyAssign s a b (.yields junk) = .done s1 a ∧
      s1.getSize a = some n ∧ s1.getSize b = some n ∧
      (∀ i, s1.load a i = s.load b i) ∧ (∀ i, i < n → (s.load b i).isSome = true) ∧
      s1.objs[b]? = s.objs[b]? ∧ (∀ i, s1.load b i = s.load b i) ∧
      (∀ t : ResourceManager, s.objs[a]? = some t → t.data ≠ 0 →
        ∃ blk, s.heap.blocks[t.data - 1]? = some blk ∧ blk.frees = 0 ∧
          s1.heap.blocks[t.data - 1]? = some { blk with frees := 1 }) ∧
      (s1.objs[a]?).map ResourceManager.data ≠ (s1.objs[b]?).map ResourceManager.data := by
  obtain ⟨t, ht⟩ := getElem?_of_lt s.objs a ha
  obtain ⟨r, hr⟩ := getElem?_of_lt s.objs b hb
  have hvt := wf_valid s hwf a t ht
  have hvr := wf_valid s hwf b r hr
  have hx := wf_exclusive s hwf a b t r hab ht hr
  have hlr := validIn_data_le s.heap r hvr
  have hsz : r.size = n := by
    simpa [State.getSize, hr, ResourceManager.getSize] using hn
  have ha1 : (s.objs.set a ⟨s.heap.blocks.length + 1, r.size⟩)[a]? =
      some ⟨s.heap.blocks.length + 1, r.size⟩ := List.getElem?_set_self ha
  have hb1 : (s.objs.set a ⟨s.heap.blocks.length + 1, r.size⟩)[b]? = some r := by
    rw [List.getElem?_set_ne hab, hr]
  refine ⟨_, copyAssign_eq s a b t r junk hab ht hr hvr hx, ?_, ?_, ?_, ?_, ?_, ?_, ?_, ?_⟩
  · show Option.map ResourceManager.getSize (s.objs.set a _)[a]? = _
    rw [ha1]
    simp [ResourceManager.getSize, hsz]
  · show Option.map ResourceManager.getSize (s.objs.set a _)[b]? = _
    rw [hb1]
    simp [ResourceManager.getSize, hsz]
  · intro i
    rw [load_eq _ a i _ ha1, load_eq s b i r hr, read_eq_contents s.heap r hvr]
    show Heap.read ⟨(s.heap.deleteArray t.data).blocks ++ [_]⟩ (s.heap.blocks.length + 1) i = _
    rw [← deleteArray_length s.heap t.data, read_fresh]
  · intro i hi
    rw [load_eq s b i r hr, read_eq_contents s.heap r hvr]
    have := contents_length s.heap r hvr
    rw [List.getElem?_eq_getElem (by omega)]
    rfl
  · rw [hb1, hr]
  · intro i
    rw [load_eq _ b i r hb1, load_eq s b i r hr]
    show Heap.read ⟨(s.heap.deleteArray t.data).blocks ++ [_]⟩ r.data i = _
    rw [read_grow _ _ _ _ (by rw [deleteArray_length]; exact hlr),
      read_deleteArray _ _ _ _ hx]
  · intro t0 ht0 hd0
    rw [ht] at ht0
    cases ht0
    rcases validIn_cases s.heap t hvt with ⟨hd, _⟩ | ⟨k, blk, hd, hblk, hf, _⟩
    · exact absurd hd hd0
    · have hk : k < s.heap.blocks.length := lt_length_of_getElem? _ _ _ hblk
      refine ⟨blk, by rw [hd]; exact hblk, hf, ?_⟩
      show (((s.heap.deleteArray t.data).blocks ++ [_])[t.data - 1]?) = _
      rw [hd]
      show (((s.heap.deleteArray (k + 1)).blocks ++ [_])[k]?) = _
      rw [List.getElem?_append_left (by rw [deleteArray_length]; exact hk),
        deleteArray_getElem?]
      simp [hblk, hf]
  · show Option.map ResourceManager.data (s.objs.set a _)[a]? ≠
      Option.map ResourceManager.data (s.objs.set a _)[b]?
    rw [ha1, hb1]
    simp only [Option.map_some', ne_eq, Option.some.injEq]
    omega

/-- Witness for C12: `a` is moved-from and empty, `b` holds `[10, 20, 30]`. -/
theorem copyAssign_distinct_witness :
    ∃ s1, copyAssign ⟨⟨[⟨[10, 20, 30], 0⟩]⟩, [⟨0, 0⟩, ⟨1, 3⟩]⟩ 0 1 (.yields fun _ => 7)
        = .done s1 0 ∧
      s1.getSize 0 = some 3 ∧ s1.getSize 1 = some 3 ∧
      (∀ i, s1.load 0 i = State.load ⟨⟨[⟨[10, 20, 30], 0⟩]⟩, [⟨0, 0⟩, ⟨1, 3⟩]⟩ 1 i) ∧
      (∀ i, i < 3 →
        (State.load ⟨⟨[⟨[10, 20, 30], 0⟩]⟩, [⟨0, 0⟩, ⟨1, 3⟩]⟩ 1 i).isSome = true) ∧
      s1.objs[1]? = (State.objs ⟨⟨[⟨[10, 20, 30], 0⟩]⟩, [⟨0, 0⟩, ⟨1, 3⟩]⟩)[1]? ∧
      (∀ i, s1.load 1 i = State.load ⟨⟨[⟨[10, 20, 30], 0⟩]⟩, [⟨0, 0⟩, ⟨1, 3⟩]⟩ 1 i) ∧
      (∀ t : ResourceManager,
        (State.objs ⟨⟨[⟨[10, 20, 30], 0⟩]⟩, [⟨0, 0⟩, ⟨1, 3⟩]⟩)[0]? = some t → t.data ≠ 0 →
        ∃ blk, (Heap.blocks ⟨[⟨[10, 20, 30], 0⟩]⟩)[t.data - 1]? = some blk ∧ blk.frees = 0 ∧
          s1.heap.blocks[t.data - 1]? = some { blk with frees := 1 }) ∧
      (s1.objs[0]?).map ResourceManager.data ≠ (s1.objs[1]?).map ResourceManager.data :=
  copyAssign_distinct ⟨⟨[⟨[10, 20, 30], 0⟩]⟩, [⟨0, 0⟩, ⟨1, 3⟩]⟩ 0 1 3 (fun _ => 7)
    (by decide) (by decide) (by decide) (by decide) (by decide)

/-- Claim C13. Move assignment between distinct instances: in a well-formed state, after
`a = std::move(b)` the operator returns `a`; `a` has the size `b` had and reads the
elements `b` read; the block `a` owned before, if any, was allocated and is now released
once; and `b` is empty: size 0 and a null handle. -/
theorem moveAssign_distinct (s : State) (a b n : Nat)
    (hwf : s.wf) (ha : a < s.objs.length) (hb : b < s.objs.length) (hab : a ≠ b)
    (hn : s.getSize b = some n) :
    ∃ s1, moveAssign s a b = .done s1 a ∧
      s1.getSize a = some n ∧
      (∀ i, s1.load a i = s.load b i) ∧ (∀ i, i < n → (s.load b i).isSome = true) ∧
      (∀ t : ResourceManager, s.objs[a]? = some t → t.data ≠ 0 →
        ∃ blk, s.heap.blocks[t.data - 1]? = some blk ∧ blk.frees = 0 ∧
          s1.heap.blocks[t.data - 1]? = some { blk with frees := 1 }) ∧
      s1.objs[b]? = some ⟨0, 0⟩ ∧ s1.getSize b = some 0 := by
  obtain ⟨t, ht⟩ := getElem?_of_lt s.objs a ha
  obtain ⟨r, hr⟩ := getElem?_of_lt s.objs b hb
  have hvt := wf_valid s hwf a t ht
  have hvr := wf_valid s hwf b r hr
  have hx := wf_exclusive s hwf a b t r hab ht hr
  have hsz : r.size = n := by
    simpa [State.getSize, hr, ResourceManager.getSize] using hn
  have hba : b ≠ a := fun e => hab e.symm
  have hlen : (s.objs.set a ⟨r.data, r.size⟩).length = s.objs.length := by simp
  have ha1 : ((s.objs.set a ⟨r.data, r.size⟩).set b ⟨0, 0⟩)[a]? = some ⟨r.data, r.size⟩ := by
    rw [List.getElem?_set_ne hba, List.getElem?_set_self ha]
  have hb1 : ((s.objs.set a ⟨r.data, r.size⟩).set b ⟨0, 0⟩)[b]? = some ⟨0, 0⟩ :=
    List.getElem?_set_self (by rw [hlen]; exact hb)
  refine ⟨⟨s.heap.deleteArray t.data, (s.objs.set a ⟨r.data, r.size⟩).set b ⟨0, 0⟩⟩,
    by simp [moveAssign, ht, hr, hab], ?_, ?_, ?_, ?_, hb1, ?_⟩
  · show Option.map ResourceManager.getSize ((s.objs.set a _).set b _)[a]? = _
    rw [ha1]
    simp [ResourceManager.getSize, hsz]
  · intro i
    rw [load_eq _ a i _ ha1, load_eq s b i r hr]
    exact read_deleteArray s.heap t.data r.data i hx
  · intro i hi
    rw [load_eq s b i r hr, read_eq_contents s.heap r hvr]
    have := contents_length s.heap r hvr
    rw [List.getElem?_eq_getElem (by omega)]
    rfl
  · intro t0 ht0 hd0
    rw [ht] at ht0
    cases ht0
    rcases validIn_cases s.heap t hvt with ⟨hd, _⟩ | ⟨k, blk, hd, hblk, hf, _⟩
    · exact absurd hd hd0
    · refine ⟨blk, by rw [hd]; exact hblk, hf, ?_⟩
      show (s.heap.deleteArray t.data).blocks[t.data - 1]? = _
      rw [hd]
      show (s.heap.deleteArray (k + 1)).blocks[k]? = _
      rw [deleteArray_getElem?]
      simp [hblk, hf]
  · show Option.map ResourceManager.getSize ((s.objs.set a _).set b _)[b]? = _
    rw [hb1]
    rfl

/-- Witness for C13: `a` holds `[7]`, `b` holds `[10, 20, 30]`. -/
theorem moveAssign_distinct_witness :
    ∃ s1, moveAssign ⟨⟨[⟨[7], 0⟩, ⟨[10, 20, 30], 0⟩]⟩, [⟨1, 1⟩, ⟨2, 3⟩]⟩ 0 1 = .done s1 0 ∧
      s1.getSize 0 = some 3 ∧
      (∀ i, s1.load 0 i =
        State.load ⟨⟨[⟨[7], 0⟩, ⟨[10, 20, 30], 0⟩]⟩, [⟨1, 1⟩, ⟨2, 3⟩]⟩ 1 i) ∧
      (∀ i, i < 3 →
        (State.load ⟨⟨[⟨[7], 0⟩, ⟨[10, 20, 30], 0⟩]⟩, [⟨1, 1⟩, ⟨2, 3⟩]⟩ 1 i).isSome = true) ∧
      (∀ t : ResourceManager,
        (State.objs ⟨⟨[⟨[7], 0⟩, ⟨[10, 20, 30], 0⟩]⟩, [⟨1, 1⟩, ⟨2, 3⟩]⟩)[0]? = some t →
        t.data ≠ 0 →
        ∃ blk, (Heap.blocks ⟨[⟨[7], 0⟩, ⟨[10, 20, 30], 0⟩]⟩)[t.data - 1]? = some blk ∧
          blk.frees = 0 ∧ s1.heap.blocks[t.data - 1]? = some { blk with frees := 1 }) ∧
      s1.objs[1]? = some ⟨0, 0⟩ ∧ s1.getSize 1 = some 0 :=
  moveAssign_distinct ⟨⟨[⟨[7], 0⟩, ⟨[10, 20, 30], 0⟩]⟩, [⟨1, 1⟩, ⟨2, 3⟩]⟩ 0 1 3
    (by decide) (by decide) (by decide) (by decide) (by decide)

/-- Claim C14. Indexed access: for a valid instance `a` of size `n` and `i < n`, the write
`a[i] = v` is defined; afterwards `a[i]` reads `v`, every `a[j]` with `j ≠ i` reads what it
read before, `getSize(a)` is unchanged, and the const and the non-const `operator[]`
refer to the same element, so reading through either gives the same value. -/
theorem index_write_read (s : State) (a i n : Nat) (v : Int)
    (hv : s.valid a = true) (hn : s.getSize a = some n) (hi : i < n) :
    ∃ s1, s.store a i v = some s1 ∧ s1.load a i = some v ∧
      (∀ j, j ≠ i → s1.load a j = s.load a j) ∧
      s1.getSize a = s.getSize a ∧
      (∀ (t : ResourceManager) (j : Nat), t.indexConst j = t.index j) ∧
      (∀ j, s1.loadConst a j = s1.load a j) := by
  obtain ⟨t, ht, hvt⟩ := valid_cases s a hv
  have hsz : t.size = n := by
    simpa [State.getSize, ht, ResourceManager.getSize] using hn
  rcases validIn_cases s.heap t hvt with ⟨_, hs0⟩ | ⟨k, blk, hd, hblk, hf, hl⟩
  · omega
  · have hk : k < s.heap.blocks.length := lt_length_of_getElem? _ _ _ hblk
    have hil : i < blk.cells.length := by omega
    have hw := write_defined s.heap k i v blk hblk hf hil
    rw [← hd] at hw
    have hload : ∀ (h1 : Heap) (j : Nat), State.load ⟨h1, s.objs⟩ a j = h1.read t.data j :=
      fun h1 j => load_eq ⟨h1, s.objs⟩ a j t ht
    refine ⟨_, store_eq s a i v t _ ht hw, ?_, ?_, rfl, fun _ _ => rfl, fun _ => rfl⟩
    · rw [hload, hd]
      simp [Heap.read, List.getElem?_set_self hk, hf, List.getElem?_set_self hil]
    · intro j hj
      rw [hload, load_eq s a j t ht, hd]
      have hne : i ≠ j := fun e => hj e.symm
      simp [Heap.read, List.getElem?_set_self hk, hf, List.getElem?_set_ne hne, hblk]

/-- Witness for C14: writing 99 to element 1 of the instance holding `[10, 20, 30]`. -/
theorem index_write_read_witness :
    ∃ s1, State.store ⟨⟨[⟨[10, 20, 30], 0⟩]⟩, [⟨1, 3⟩]⟩ 0 1 99 = some s1 ∧
      s1.load 0 1 = some 99 ∧
      (∀ j, j ≠ 1 → s1.load 0 j = State.load ⟨⟨[⟨[10, 20, 30], 0⟩]⟩, [⟨1, 3⟩]⟩ 0 j) ∧
      s1.getSize 0 = State.getSize ⟨⟨[⟨[10, 20, 30], 0⟩]⟩, [⟨1, 3⟩]⟩ 0 ∧
      (∀ (t : ResourceManager) (j : Nat), t.indexConst j = t.index j) ∧
      (∀ j, s1.loadConst 0 j = s1.load 0 j) :=
  index_write_read ⟨⟨[⟨[10, 20, 30], 0⟩]⟩, [⟨1, 3⟩]⟩ 0 1 3 99 (by decide) (by decide)
    (by decide)

/-- Claim C15. The destructor after a move and on a non-empty instance: once a
valid instance `a` has been moved from (by the move constructor), its destructor leaves the
heap exactly as it was, nothing is released; and the destructor of a valid instance with
`size > 0` records one release on the block behind its own handle, which was allocated,
and changes no other block. -/
theorem dtor_after_move_and_nonempty (s : State) (a : Nat) (hv : s.valid a = true) :
    (∃ s1 t1, moveCtor s a = .done s1 s.objs.length ∧ s1.objs[a]? = some t1 ∧
      t1.size = 0 ∧ dtor s1.heap t1 = s1.heap) ∧
    (∀ t : ResourceManager, s.objs[a]? = some t → 0 < t.size →
      ∃ k blk, t.data = k + 1 ∧ s.heap.blocks[k]? = some blk ∧ blk.frees = 0 ∧
        (dtor s.heap t).blocks = s.heap.blocks.set k { blk with frees := 1 } ∧
        ∀ j, j ≠ k → (dtor s.heap t).blocks[j]? = s.heap.blocks[j]?) := by
  obtain ⟨t, ht, hvt⟩ := valid_cases s a hv
  have ha : a < s.objs.length := lt_length_of_getElem? _ _ _ ht
  constructor
  · refine ⟨⟨s.heap, s.objs.set a ⟨0, 0⟩ ++ [⟨t.data, t.size⟩]⟩, ⟨0, 0⟩,
      by simp [moveCtor, ht], ?_, rfl, rfl⟩
    show (s.objs.set a ⟨0, 0⟩ ++ [_])[a]? = _
    rw [List.getElem?_append_left (by simpa using ha), List.getElem?_set_self ha]
  · intro t0 ht0 hpos
    rw [ht] at ht0
    cases ht0
    rcases validIn_cases s.heap t hvt with ⟨_, hs0⟩ | ⟨k, blk, hd, hblk, hf, _⟩
    · omega
    · have hdel : (dtor s.heap t).blocks = s.heap.blocks.set k { blk with frees := 1 } := by
        simp [dtor, Heap.deleteArray, hd, hblk, hf]
      refine ⟨k, blk, hd, hblk, hf, hdel, ?_⟩
      intro j hj
      rw [hdel, List.getElem?_set_ne (fun e => hj e.symm)]

/-- Witness for C15: the instance holding `[10, 20, 30]`. -/
theorem dtor_after_move_and_nonempty_witness :
    (∃ s1 t1, moveCtor ⟨⟨[⟨[7], 0⟩, ⟨[10, 20, 30], 0⟩]⟩, [⟨1, 1⟩, ⟨2, 3⟩]⟩ 1 = .done s1 2 ∧
      s1.objs[1]? = some t1 ∧ t1.size = 0 ∧ dtor s1.heap t1 = s1.heap) ∧
    (∀ t : ResourceManager,
      (State.objs ⟨⟨[⟨[7], 0⟩, ⟨[10, 20, 30], 0⟩]⟩, [⟨1, 1⟩, ⟨2, 3⟩]⟩)[1]? = some t →
      0 < t.size →
      ∃ k blk, t.data = k + 1 ∧
        (Heap.blocks ⟨[⟨[7], 0⟩, ⟨[10, 20, 30], 0⟩]⟩)[k]? = some blk ∧ blk.frees = 0 ∧
        (dtor ⟨[⟨[7], 0⟩, ⟨[10, 20, 30], 0⟩]⟩ t).blocks =
          (Heap.blocks ⟨[⟨[7], 0⟩, ⟨[10, 20, 30], 0⟩]⟩).set k { blk with frees := 1 } ∧
        ∀ j, j ≠ k → (dtor ⟨[⟨[7], 0⟩, ⟨[10, 20, 30], 0⟩]⟩ t).blocks[j]? =
          (Heap.blocks ⟨[⟨[7], 0⟩, ⟨[10, 20, 30], 0⟩]⟩)[j]?) :=
  dtor_after_move_and_nonempty ⟨⟨[⟨[7], 0⟩, ⟨[10, 20, 30], 0⟩]⟩, [⟨1, 1⟩, ⟨2, 3⟩]⟩ 1
    (by decide)

/-- Claim C16. The move operations cannot fail and allocate nothing.  Neither takes an
answer from the allocator (their bodies contain no `new`), so what the allocator would
answer is irrelevant.  For every source `b`, move construction completes with the heap
unchanged.  For every destination `a` in a valid state (empty, or owning an allocated
block) and every source `b`, move assignment completes; the one `delete[]` it may run is
applied to the old handle of `a`, where it is defined (null, or a block not yet released);
the number of blocks is the same, and every block that is allocated afterwards was
allocated before: the heap is the old one, or the old one with that `delete[]` applied. -/
theorem move_never_fails (s : State) (a b : Nat)
    (hva : s.valid a = true) (hb : b < s.objs.length) :
    (∃ s1, moveCtor s b = .done s1 s.objs.length ∧ s1.heap = s.heap) ∧
    (∃ s1 t, moveAssign s a b = .done s1 a ∧ s.objs[a]? = some t ∧
      s.heap.deletable t.data = true ∧
      s1.heap.blocks.length = s.heap.blocks.length ∧
      (s1.heap = s.heap ∨ s1.heap = s.heap.deleteArray t.data) ∧
      ∀ (k : Nat) (blk : Block), s1.heap.blocks[k]? = some blk → blk.frees = 0 →
        s.heap.blocks[k]? = some blk) := by
  obtain ⟨t, ht, hvt⟩ := valid_cases s a hva
  obtain ⟨r, hr⟩ := getElem?_of_lt s.objs b hb
  have hdel := deletable_of_validIn s.heap t hvt
  constructor
  · exact ⟨⟨s.heap, s.objs.set b ⟨0, 0⟩ ++ [⟨r.data, r.size⟩]⟩, by simp [moveCtor, hr], rfl⟩
  · by_cases hab : a = b
    · subst hab
      exact ⟨s, t, by simp [moveAssign, ht], ht, hdel, rfl, Or.inl rfl, fun _ _ h _ => h⟩
    · refine ⟨⟨s.heap.deleteArray t.data, (s.objs.set a ⟨r.data, r.size⟩).set b ⟨0, 0⟩⟩, t,
        by simp [moveAssign, ht, hr, hab], ht, hdel, deleteArray_length s.heap t.data,
        Or.inr rfl, ?_⟩
      intro k blk hk hf
      change (s.heap.deleteArray t.data).blocks[k]? = some blk at hk
      rw [deleteArray_getElem?] at hk
      by_cases hd : t.data = k + 1
      · simp only [hd, if_true] at hk
        obtain ⟨b0, _, rfl⟩ := Option.map_eq_some'.mp hk
        simp at hf
      · simpa only [hd, if_false] using hk

/-- Witness for C16: moving between an instance holding `[7]` and one holding
`[10, 20, 30]`. -/
theorem move_never_fails_witness :
    (∃ s1, moveCtor ⟨⟨[⟨[7], 0⟩, ⟨[10, 20, 30], 0⟩]⟩, [⟨1, 1⟩, ⟨2, 3⟩]⟩ 1 = .done s1 2 ∧
      s1.heap = ⟨[⟨[7], 0⟩, ⟨[10, 20, 30], 0⟩]⟩) ∧
    (∃ s1 t, moveAssign ⟨⟨[⟨[7], 0⟩, ⟨[10, 20, 30], 0⟩]⟩, [⟨1, 1⟩, ⟨2, 3⟩]⟩ 0 1 = .done s1 0 ∧
      (State.objs ⟨⟨[⟨[7], 0⟩, ⟨[10, 20, 30], 0⟩]⟩, [⟨1, 1⟩, ⟨2, 3⟩]⟩)[0]? = some t ∧
      Heap.deletable ⟨[⟨[7], 0⟩, ⟨[10, 20, 30], 0⟩]⟩ t.data = true ∧
      s1.heap.blocks.length = 2 ∧
      (s1.heap = ⟨[⟨[7], 0⟩, ⟨[10, 20, 30], 0⟩]⟩ ∨
        s1.heap = Heap.deleteArray ⟨[⟨[7], 0⟩, ⟨[10, 20, 30], 0⟩]⟩ t.data) ∧
      ∀ (k : Nat) (blk : Block), s1.heap.blocks[k]? = some blk → blk.frees = 0 →
        (Heap.blocks ⟨[⟨[7], 0⟩, ⟨[10, 20, 30], 0⟩]⟩)[k]? = some blk) :=
  move_never_fails ⟨⟨[⟨[7], 0⟩, ⟨[10, 20, 30], 0⟩]⟩, [⟨1, 1⟩, ⟨2, 3⟩]⟩ 0 1
    (by decide) (by decide)

/-- Claim C17. `BadResourceManager` releases one block twice: for every size `n`, after
`bad1(n)` and the member-wise copy `bad2 = bad1` both objects hold the same handle, and
running the two destructors (in reverse order of construction) leaves the block behind
that handle with two releases recorded. -/
theorem bad_double_release (h : Heap) (n : Nat) (junk : Nat → Int) :
    ∃ h1 bad1, BadResourceManager.ctor h n (.yields junk) = some (h1, bad1) ∧
      (BadResourceManager.copyCtor bad1).data = bad1.data ∧
      bad1.data = h.blocks.length + 1 ∧
      h1.blocks[h.blocks.length]? = some ⟨(List.range n).map junk, 0⟩ ∧
      (BadResourceManager.dtor (BadResourceManager.dtor h1 (BadResourceManager.copyCtor bad1))
        bad1).blocks[h.blocks.length]? = some ⟨(List.range n).map junk, 2⟩ := by
  refine ⟨⟨h.blocks ++ [⟨(List.range n).map junk, 0⟩]⟩, ⟨h.blocks.length + 1, n⟩,
    by simp [BadResourceManager.ctor, Heap.newArray], rfl, rfl, by simp, ?_⟩
  simp only [BadResourceManager.dtor, BadResourceManager.copyCtor, deleteArray_getElem?]
  simp

end RAII

namespace Solution
open Cpp

theorem isInt_iff (z : Int) : isInt z = true ↔ -2147483648 ≤ z ∧ z < 2147483648 := by
  simp [isInt]

theorem wrap32_of_isInt (z : Int) (h : isInt z = true) : wrap32 z = z := by
  rw [isInt_iff] at h
  unfold wrap32
  omega

theorem isInt_wrap32 (z : Int) : isInt (wrap32 z) = true := by
  rw [isInt_iff]
  unfold wrap32
  omega

theorem wrap32_needed_add (target x k : Int) (ht : isInt target = true)
    (hk : wrap32 (target - x) = k) : wrap32 (k + x) = target := by
  rw [isInt_iff] at ht
  unfold wrap32 at *
  omega

theorem wrap32_add_needed (target x k : Int) (hk : isInt k = true)
    (h : wrap32 (k + x) = target) : wrap32 (target - x) = k := by
  rw [isInt_iff] at hk
  unfold wrap32 at *
  omega

theorem find_filter_ne (m : Map) (k key : Int) (h : k ≠ key) :
    Map.find (m.filter (fun e => decide (e.1 ≠ k))) key = Map.find m key := by
  induction m with
  | nil => rfl
  | cons e m ih =>
    obtain ⟨k0, v0⟩ := e
    by_cases h0 : k0 = k
    · subst h0
      have hf : List.filter (fun e => decide (e.1 ≠ k0)) ((k0, v0) :: m) =
          List.filter (fun e => decide (e.1 ≠ k0)) m := by
        rw [List.filter_cons]
        simp
      rw [hf, ih]
      simp [Map.find, h]
    · have hf : List.filter (fun e => decide (e.1 ≠ k)) ((k0, v0) :: m) =
          (k0, v0) :: List.filter (fun e => decide (e.1 ≠ k)) m := by
        rw [List.filter_cons]
        simp [h0]
      rw [hf]
      simp only [Map.find, ih]

theorem find_assign (m : Map) (k v key : Int) :
    Map.find (Map.assign m k v) key = if k = key then some v else Map.find m key := by
  by_cases h : k = key
  · simp [Map.assign, Map.find, h]
  · simp only [Map.assign, Map.find, h, if_false]
    exact find_filter_ne m k key h

theorem getElem?_append_cons_length {α : Type} (pre rest : List α) (y : α) :
    (pre ++ y :: rest)[pre.length]? = some y := by
  rw [List.getElem?_append_right (Nat.le_refl _)]
  simp

theorem loop_sound (nums : List Int) (target : Int) (ht : isInt target = true)
    (hsize : nums.length < 2147483648) :
    ∀ (rest pre : List Int) (m : Map), pre ++ rest = nums →
      (∀ key v, Map.find m key = some v →
        0 ≤ v ∧ v < (pre.length : Int) ∧ nums[v.toNat]? = some key) →
      twoSum.loop target rest (pre.length : Int) m = [] ∨
      ∃ p q : Nat, twoSum.loop target rest (pre.length : Int) m = [(p : Int), (q : Int)] ∧
        p < q ∧ q < nums.length ∧
        ∃ x y, nums[p]? = some x ∧ nums[q]? = some y ∧ wrap32 (x + y) = target := by
  intro rest
  induction rest with
  | nil =>
    intro pre m _ _
    left
    rfl
  | cons y rest ih =>
    intro pre m hnums hinv
    have hy : nums[pre.length]? = some y := by
      rw [← hnums]
      exact getElem?_append_cons_length pre rest y
    have hlen : pre.length + (rest.length + 1) = nums.length := by
      rw [← hnums]
      simp
    cases hfind : Map.find m (wrap32 (target - y)) with
    | some v =>
      right
      obtain ⟨hv0, hvlt, hvget⟩ := hinv _ v hfind
      refine ⟨v.toNat, pre.length, ?_, ?_, ?_, wrap32 (target - y), y, hvget, hy,
        wrap32_needed_add target y _ ht rfl⟩
      · simp only [twoSum.loop, hfind]
        rw [Int.toNat_of_nonneg hv0]
      · omega
      · omega
    | none =>
      have hstep : wrap32 ((pre.length : Int) + 1) = ((pre ++ [y]).length : Int) := by
        rw [wrap32_of_isInt]
        · simp
        · rw [isInt_iff]
          omega
      have := ih (pre ++ [y]) (Map.assign m y (pre.length : Int))
        (by rw [← hnums]; simp)
        (by
          intro key v hkv
          rw [find_assign] at hkv
          by_cases hk : y = key
          · simp only [hk, if_true, Option.some.injEq] at hkv
            subst hkv
            subst hk
            refine ⟨by omega, by simp, ?_⟩
            simpa using hy
          · simp only [hk, if_false] at hkv
            obtain ⟨h0, h1, h2⟩ := hinv key v hkv
            refine ⟨h0, ?_, h2⟩
            simp only [List.length_append, List.length_singleton, Nat.cast_add, Nat.cast_one]
            omega)
      simp only [twoSum.loop, hfind, hstep]
      exact this

theorem loop_eq_nil_iff (target : Int) (ht : isInt target = true) :
    ∀ (rest pre : List Int) (i : Int) (m : Map),
      (∀ x ∈ pre, isInt x = true) → (∀ x ∈ rest, isInt x = true) →
      (∀ key, (∃ v, Map.find m key = some v) ↔ key ∈ pre) →
      (twoSum.loop target rest i m = [] ↔
        (∀ y ∈ rest, ∀ x ∈ pre, wrap32 (x + y) ≠ target) ∧
          rest.Pairwise (fun x y => wrap32 (x + y) ≠ target)) := by
  intro rest
  induction rest with
  | nil =>
    intro pre i m _ _ _
    simp [twoSum.loop]
  | cons y rest ih =>
    intro pre i m hpre hrest hkeys
    have hyInt : isInt y = true := hrest y (List.mem_cons_self y rest)
    cases hfind : Map.find m (wrap32 (target - y)) with
    | some v =>
      have hmem : wrap32 (target - y) ∈ pre := (hkeys _).mp ⟨v, hfind⟩
      simp only [twoSum.loop, hfind]
      constructor
      · intro h
        cases h
      · intro h
        exact absurd (wrap32_needed_add target y _ ht rfl)
          (h.1 y (List.mem_cons_self y rest) _ hmem)
    | none =>
      have hnot : ∀ x ∈ pre, wrap32 (x + y) ≠ target := by
        intro x hx hsum
        have hk := wrap32_add_needed target y x (hpre x hx) hsum
        obtain ⟨v, hv⟩ := (hkeys x).mpr hx
        rw [hk, hv] at hfind
        cases hfind
      have hih := ih (pre ++ [y]) (wrap32 (i + 1)) (Map.assign m y i)
        (by
          intro x hx
          rcases List.mem_append.mp hx with h | h
          · exact hpre x h
          · rw [List.mem_singleton] at h
            rw [h]
            exact hyInt)
        (fun x hx => hrest x (List.mem_cons_of_mem y hx))
        (by
          intro key
          rw [List.mem_append, List.mem_singleton, ← hkeys key]
          constructor
          · rintro ⟨v, hv⟩
            rw [find_assign] at hv
            by_cases hk : y = key
            · exact Or.inr hk.symm
            · simp only [hk, if_false] at hv
              exact Or.inl ⟨v, hv⟩
          · rintro (⟨v, hv⟩ | hk)
            · by_cases hk : y = key
              · exact ⟨i, by rw [find_assign]; simp [hk]⟩
              · exact ⟨v, by rw [find_assign]; simp [hk, hv]⟩
            · exact ⟨i, by rw [find_assign]; simp [hk]⟩)
      simp only [twoSum.loop, hfind]
      rw [hih, List.pairwise_cons]
      constructor
      · rintro ⟨h1, h2⟩
        refine ⟨?_, ?_, h2⟩
        · intro z hz x hx
          rcases List.mem_cons.mp hz with h | h
          · rw [h]
            exact hnot x hx
          · exact h1 z h x (List.mem_append_left _ hx)
        · intro z hz
          exact h1 z hz y (List.mem_append_right _ (List.mem_singleton_self y))
      · rintro ⟨h1, h2, h3⟩
        refine ⟨?_, h3⟩
        intro z hz x hx
        rcases List.mem_append.mp hx with h | h
        · exact h1 z (List.mem_cons_of_mem y hz) x h
        · rw [List.mem_singleton] at h
          rw [h]
          exact h2 z hz
end Solution

namespace Solution
open Cpp

theorem pairwise_iff_no_pair (nums : List Int) (target : Int) :
    nums.Pairwise (fun x y => wrap32 (x + y) ≠ target) ↔
      ¬ ∃ i j : Nat, i ≠ j ∧
        ∃ x y, nums[i]? = some x ∧ nums[j]? = some y ∧ wrap32 (x + y) = target := by
  rw [List.pairwise_iff_getElem]
  constructor
  · rintro h ⟨i, j, hij, x, y, hx, hy, hsum⟩
    obtain ⟨hi, hxi⟩ := List.getElem?_eq_some_iff.mp hx
    obtain ⟨hj, hyj⟩ := List.getElem?_eq_some_iff.mp hy
    rcases Nat.lt_or_gt_of_ne hij with hlt | hgt
    · exact h i j hi hj hlt (by rw [hxi, hyj]; exact hsum)
    · exact h j i hj hi hgt (by rw [hxi, hyj, Int.add_comm]; exact hsum)
  · intro h i j hi hj hij hsum
    exact h ⟨i, j, Nat.ne_of_lt hij, nums[i], nums[j],
      List.getElem?_eq_getElem hi, List.getElem?_eq_getElem hj, hsum⟩

/-- Claim C18. A non-empty result of `twoSum` is a solution: for a vector of fewer than
2^31 elements and an `int` target, whenever the result is not empty it consists of exactly
two indices `[i, j]` with `i < j < nums.size()` (both in bounds, not the same element) such
that `nums[i] + nums[j] == target` in `int` arithmetic, which is the exact sum whenever
that sum is itself an `int`. -/
theorem twoSum_sound (nums : List Int) (target : Int)
    (hsize : nums.length < 2147483648) (htarget : isInt target = true)
    (hne : twoSum nums target ≠ []) :
    ∃ i j : Nat, twoSum nums target = [(i : Int), (j : Int)] ∧ i < j ∧ j < nums.length ∧
      ∃ x y, nums[i]? = some x ∧ nums[j]? = some y ∧ wrap32 (x + y) = target ∧
        (isInt (x + y) = true → x + y = target) := by
  rcases loop_sound nums target htarget hsize nums [] [] rfl
    (by intro key v h; simp [Map.find] at h) with h | ⟨p, q, hres, hpq, hq, x, y, hx, hy, hsum⟩
  · exact absurd h hne
  · refine ⟨p, q, hres, hpq, hq, x, y, hx, hy, hsum, ?_⟩
    intro hxy
    rw [wrap32_of_isInt _ hxy] at hsum
    exact hsum

/-- Witness for C18: the three examples of the problem statement. -/
theorem twoSum_sound_witness :
    (∃ i j : Nat, twoSum [2, 7, 11, 15] 9 = [(i : Int), (j : Int)] ∧ i < j ∧
      j < [2, 7, 11, 15].length ∧
      ∃ x y, [2, 7, 11, 15][i]? = some x ∧ [2, 7, 11, 15][j]? = some y ∧
        wrap32 (x + y) = 9 ∧ (isInt (x + y) = true → x + y = 9)) ∧
    twoSum [2, 7, 11, 15] 9 = [0, 1] ∧ twoSum [3, 2, 4] 6 = [1, 2] ∧
    twoSum [3, 3] 6 = [0, 1] :=
  ⟨twoSum_sound [2, 7, 11, 15] 9 (by decide) (by decide) (by decide),
    by decide, by decide, by decide⟩

/-- Claim C19. `twoSum` finds a pair whenever there is one: for a vector of fewer than 2^31
`int` elements and an `int` target, the result is empty if and only if there are no two
distinct indices `i ≠ j` with `nums[i] + nums[j] == target` (in `int` arithmetic); and when
exactly one pair `i < j` of indices satisfies it, the result is `[i, j]`. -/
theorem twoSum_empty_iff (nums : List Int) (target : Int)
    (hsize : nums.length < 2147483648) (hnums : ∀ x ∈ nums, isInt x = true)
    (htarget : isInt target = true) :
    (twoSum nums target = [] ↔
      ¬ ∃ i j : Nat, i ≠ j ∧
        ∃ x y, nums[i]? = some x ∧ nums[j]? = some y ∧ wrap32 (x + y) = target) ∧
    (∀ i j : Nat, i < j →
      (∃ x y, nums[i]? = some x ∧ nums[j]? = some y ∧ wrap32 (x + y) = target) →
      (∀ i1 j1 : Nat, i1 < j1 →
        (∃ x y, nums[i1]? = some x ∧ nums[j1]? = some y ∧ wrap32 (x + y) = target) →
        i1 = i ∧ j1 = j) →
      twoSum nums target = [(i : Int), (j : Int)]) := by
  have hiff : twoSum nums target = [] ↔
      ¬ ∃ i j : Nat, i ≠ j ∧
        ∃ x y, nums[i]? = some x ∧ nums[j]? = some y ∧ wrap32 (x + y) = target := by
    rw [← pairwise_iff_no_pair]
    have := loop_eq_nil_iff target htarget nums [] 0 []
      (by intro x hx; cases hx) hnums
      (by intro key; simp [Map.find])
    simpa [twoSum] using this
  refine ⟨hiff, ?_⟩
  intro i j hij hpair huniq
  have hne : twoSum nums target ≠ [] := by
    intro h
    obtain ⟨x, y, hx, hy, hsum⟩ := hpair
    exact hiff.mp h ⟨i, j, Nat.ne_of_lt hij, x, y, hx, hy, hsum⟩
  rcases loop_sound nums target htarget hsize nums [] [] rfl
    (by intro key v h; simp [Map.find] at h) with h | ⟨p, q, hres, hpq, _, x, y, hx, hy, hsum⟩
  · exact absurd h hne
  · obtain ⟨hp, hq⟩ := huniq p q hpq ⟨x, y, hx, hy, hsum⟩
    show twoSum.loop target nums 0 [] = _
    rw [hp, hq] at hres
    exact hres

/-- Witness for C19: in `[3, 2, 4]` with target 6 the only pair is `(1, 2)`. -/
theorem twoSum_empty_iff_witness :
    (twoSum [3, 2, 4] 6 = [] ↔
      ¬ ∃ i j : Nat, i ≠ j ∧
        ∃ x y, [3, 2, 4][i]? = some x ∧ [3, 2, 4][j]? = some y ∧ wrap32 (x + y) = 6) ∧
    (∀ i j : Nat, i < j →
      (∃ x y, [3, 2, 4][i]? = some x ∧ [3, 2, 4][j]? = some y ∧ wrap32 (x + y) = 6) →
      (∀ i1 j1 : Nat, i1 < j1 →
        (∃ x y, [3, 2, 4][i1]? = some x ∧ [3, 2, 4][j1]? = some y ∧ wrap32 (x + y) = 6) →
        i1 = i ∧ j1 = j) →
      twoSum [3, 2, 4] 6 = [(i : Int), (j : Int)]) :=
  twoSum_empty_iff [3, 2, 4] 6 (by decide) (by decide) (by decide)
end Solution

namespace NumberOfSteps
open Cpp

theorem wrap32_small (z : Int) (h0 : -2147483648 ≤ z) (h1 : z < 2147483648) :
    wrap32 z = z := by
  unfold wrap32
  omega

theorem mid_of_nat (lo hi : Nat) (h : lo + hi < 2147483648) :
    Int.tdiv (wrap32 ((lo : Int) + (hi : Int))) 2 = (((lo + hi) / 2 : Nat) : Int) := by
  rw [wrap32_small _ (by omega) (by omega), Int.tdiv_eq_ediv (by omega) (by omega)]
  omega

theorem wrap32_pred (m : Nat) (h1 : 1 ≤ m) (h2 : m < 2147483648) :
    wrap32 ((m : Int) - 1) = ((m - 1 : Nat) : Int) := by
  rw [wrap32_small _ (by omega) (by omega)]
  omega

theorem wrap32_succ (m : Nat) (h : m + 1 < 2147483648) :
    wrap32 ((m : Int) + 1) = ((m + 1 : Nat) : Int) := by
  rw [wrap32_small _ (by omega) (by omega)]
  omega

theorem sorted_le (l : List Int) (hs : l.Pairwise (· ≤ ·)) (i j : Nat) (x y : Int)
    (hij : i ≤ j) (hx : l[i]? = some x) (hy : l[j]? = some y) : x ≤ y := by
  obtain ⟨hi, hxi⟩ := List.getElem?_eq_some_iff.mp hx
  obtain ⟨hj, hyj⟩ := List.getElem?_eq_some_iff.mp hy
  rcases Nat.lt_or_ge i j with hlt | hge
  · have := List.pairwise_iff_getElem.mp hs i j hi hj hlt
    rw [hxi, hyj] at this
    exact this
  · have : i = j := by omega
    subst this
    rw [hx] at hy
    cases hy
    exact Int.le_refl _

theorem loop_unfold (stacksVec : List Int) (value : Int) (fuel lo hi m : Nat) (v : Int)
    (hle : lo ≤ hi) (hsum : lo + hi < 2147483648) (hm : (lo + hi) / 2 = m)
    (hv : stacksVec[m]? = some v) :
    binary_search.loop stacksVec value (fuel + 1) (lo : Int) (hi : Int) =
      if v = value then .returned (m : Int)
      else if v > value then
        binary_search.loop stacksVec value fuel (lo : Int) (wrap32 ((m : Int) - 1))
      else binary_search.loop stacksVec value fuel (wrap32 ((m : Int) + 1)) (hi : Int) := by
  have hle2 : (lo : Int) ≤ (hi : Int) := by omega
  have hmid := mid_of_nat lo hi hsum
  rw [hm] at hmid
  have hnn : ¬ ((m : Int) < 0) := by omega
  rw [binary_search.loop]
  simp only [hle2, if_true, hmid, hnn, if_false, Int.toNat_ofNat, hv]

theorem loop_finds (stacksVec : List Int) (value : Int)
    (hsorted : stacksVec.Pairwise (· ≤ ·)) (hsize : stacksVec.length ≤ 1073741824) :
    ∀ (fuel lo hi : Nat), hi < stacksVec.length →
      (∃ p, lo ≤ p ∧ p ≤ hi ∧ stacksVec[p]? = some value) → hi - lo < fuel →
      ∃ i : Nat, binary_search.loop stacksVec value fuel (lo : Int) (hi : Int) =
          .returned (i : Int) ∧ i < stacksVec.length ∧ stacksVec[i]? = some value := by
  intro fuel
  induction fuel with
  | zero =>
    intro lo hi _ _ hf
    exact absurd hf (Nat.not_lt_zero _)
  | succ fuel ih =>
    intro lo hi hhi hp hf
    obtain ⟨p, hlp, hph, hpv⟩ := hp
    have hle : lo ≤ hi := Nat.le_trans hlp hph
    have hsum : lo + hi < 2147483648 := by omega
    obtain ⟨m, hm⟩ : ∃ m, (lo + hi) / 2 = m := ⟨_, rfl⟩
    have hm_lo : lo ≤ m := by omega
    have hm_hi : m ≤ hi := by omega
    have hmlen : m < stacksVec.length := by omega
    obtain ⟨v, hv⟩ : ∃ v, stacksVec[m]? = some v := ⟨_, List.getElem?_eq_getElem hmlen⟩
    rw [loop_unfold stacksVec value fuel lo hi m v hle hsum hm hv]
    by_cases heq : v = value
    · rw [if_pos heq]
      exact ⟨m, rfl, hmlen, by rw [hv, heq]⟩
    · rw [if_neg heq]
      by_cases hgt : v > value
      · rw [if_pos hgt]
        have hpm : p < m := by
          rcases Nat.lt_or_ge p m with h | h
          · exact h
          · have h1 := sorted_le stacksVec hsorted m p v value h hv hpv
            exact absurd hgt (Int.not_lt.mpr h1)
        have hm1 : 1 ≤ m := by omega
        have hm2 : m < 2147483648 := by omega
        rw [wrap32_pred m hm1 hm2]
        have hlt : m - 1 < stacksVec.length := by omega
        have hpm1 : p ≤ m - 1 := by omega
        have hfuel : m - 1 - lo < fuel := by omega
        exact ih lo (m - 1) hlt ⟨p, hlp, hpm1, hpv⟩ hfuel
      · rw [if_neg hgt]
        have hpm : m < p := by
          rcases Nat.lt_or_ge m p with h | h
          · exact h
          · have h1 := sorted_le stacksVec hsorted p m value v h hpv hv
            have h2 : v ≤ value := Int.not_lt.mp hgt
            exact absurd (Int.le_antisymm h2 h1) heq
        have hm2 : m + 1 < 2147483648 := by omega
        rw [wrap32_succ m hm2]
        have hpm1 : m + 1 ≤ p := hpm
        have hfuel : hi - (m + 1) < fuel := by omega
        exact ih (m + 1) hi hhi ⟨p, hpm1, hph, hpv⟩ hfuel
end NumberOfSteps

namespace NumberOfSteps
open Cpp

theorem loop_overflow (stacksVec : List Int) (value v : Int) (fuel : Nat)
    (hv : stacksVec[1073741823]? = some v) (hlt : v < value) :
    binary_search.loop stacksVec value (fuel + 1 + 1) 0 2147483646 = .undefined := by
  have h1 := loop_unfold stacksVec value (fuel + 1) 0 2147483646 1073741823 v
    (by decide) (by decide) (by decide) hv
  have hne : ¬ v = value := by omega
  have hngt : ¬ v > value := by omega
  rw [if_neg hne, if_neg hngt] at h1
  have hw : wrap32 (((1073741823 : Nat) : Int) + 1) = 1073741824 := by decide
  rw [hw] at h1
  have h2 : binary_search.loop stacksVec value (fuel + 1) 1073741824 2147483646 =
      .undefined := by
    rw [binary_search.loop]
    have hmid : Int.tdiv (wrap32 (1073741824 + 2147483646)) 2 = -536870913 := by decide
    simp only [hmid]
    rw [if_pos (by decide), if_pos (by decide)]
  exact h1.trans h2

/-- Claim C20, as stated, fails on a sorted vector of 2^31 - 1 elements (zeros followed by
one 1) searched for its last element 1: after the first probe `low = 2^30` and
`high = 2^31 - 2`, the `int` sum `low + high` overflows, `mid` is negative and
`stacks[mid]` is outside the vector, so no position is returned. -/
theorem binary_search_counterexample :
    (List.replicate 2147483646 (0 : Int) ++ [1]).Pairwise (· ≤ ·) ∧
    (1 : Int) ∈ List.replicate 2147483646 (0 : Int) ++ [1] ∧
    binary_search (List.replicate 2147483646 (0 : Int) ++ [1]) 1 = .undefined := by
  refine ⟨?_, List.mem_append_right _ (List.mem_singleton_self 1), ?_⟩
  · rw [List.pairwise_append]
    refine ⟨List.pairwise_replicate.mpr (Or.inr (Int.le_refl 0)), List.pairwise_singleton _ _, ?_⟩
    intro a ha b hb
    rw [List.eq_of_mem_replicate ha, List.mem_singleton.mp hb]
    decide
  · have hv : (List.replicate 2147483646 (0 : Int) ++ [1])[1073741823]? = some 0 := by
      rw [List.getElem?_append_left (by rw [List.length_replicate]; decide),
        List.getElem?_replicate, if_pos (by decide)]
    have hrun := loop_overflow (List.replicate 2147483646 (0 : Int) ++ [1]) 1 0 2147483646
      hv (by decide)
    have hlen : (List.replicate 2147483646 (0 : Int) ++ [1]).length = 2147483646 + 1 := by
      rw [List.length_append, List.length_replicate, List.length_singleton]
    have hhigh : wrap32 (((2147483646 + 1 : Nat) : Int) - 1) = 2147483646 := by decide
    have hdef : ∀ l : List Int, binary_search l 1 =
        binary_search.loop l 1 (l.length + 1) 0 (wrap32 ((l.length : Int) - 1)) :=
      fun _ => rfl
    rw [hdef, hlen, hhigh]
    exact hrun

/-- Claim C20, amended. For every vector of at most 2^30 elements sorted in ascending order
and every value that occurs in it, `binary_search` returns a position of that value: an
index `i` within bounds with `stacks[i] == value`. -/
theorem binary_search_finds (stacksVec : List Int) (value : Int)
    (hsorted : stacksVec.Pairwise (· ≤ ·)) (hmem : value ∈ stacksVec)
    (hsize : stacksVec.length ≤ 1073741824) :
    ∃ i : Nat, binary_search stacksVec value = .returned (i : Int) ∧
      i < stacksVec.length ∧ stacksVec[i]? = some value := by
  obtain ⟨p, hp, hpv⟩ := List.getElem_of_mem hmem
  have hpos : 1 ≤ stacksVec.length := by omega
  have hhigh : wrap32 ((stacksVec.length : Int) - 1) = ((stacksVec.length - 1 : Nat) : Int) :=
    wrap32_pred stacksVec.length hpos (by omega)
  unfold binary_search
  rw [hhigh]
  exact loop_finds stacksVec value hsorted hsize (stacksVec.length + 1) 0
    (stacksVec.length - 1) (by omega)
    ⟨p, Nat.zero_le p, by omega, by rw [List.getElem?_eq_getElem hp, hpv]⟩ (by omega)

/-- Witness for C20 (amended): the vector of the commented-out demo call. -/
theorem binary_search_finds_witness :
    ∃ i : Nat, binary_search [1, 3, 4, 5] 4 = .returned (i : Int) ∧
      i < ([1, 3, 4, 5] : List Int).length ∧ ([1, 3, 4, 5] : List Int)[i]? = some 4 :=
  binary_search_finds [1, 3, 4, 5] 4 (by decide) (by decide) (by decide)
end NumberOfSteps

namespace NumberOfSteps
open Cpp

theorem quickSortArray_step_demo (fuel : Nat) :
    quickSortArray (fuel + 1) [10, 3, 4] = quickSortArray fuel [0, 1, 2, 3, 4] := by
  rfl

theorem quickSortArray_step_fixed (fuel : Nat) :
    quickSortArray (fuel + 1) [0, 1, 2, 3, 4] = quickSortArray fuel [0, 1, 2, 3, 4] := by
  rfl

theorem quickSortArray_fixed_outOfFuel (fuel : Nat) :
    quickSortArray fuel [0, 1, 2, 3, 4] = .outOfFuel := by
  induction fuel with
  | zero => rfl
  | succ fuel ih => rw [quickSortArray_step_fixed, ih]

/-- Claim C22 is not met by the code (same defect as C23): the two loops of
`quickSortArray` push the loop counter instead of the elements and the function returns
the result of a recursive call on that vector.  For the demo input `{10, 3, 4}` no number
of nested calls produces a result, so `{3, 4, 10}` is never returned; and for `{3, 0}` the
result is `{0}`, which is not a permutation of the input. -/
theorem quickSortArray_does_not_sort :
    (∀ fuel, quickSortArray fuel [10, 3, 4] = .outOfFuel) ∧
    (∀ fuel, quickSortArray fuel [10, 3, 4] ≠ .returned [3, 4, 10]) ∧
    quickSortArray 2 [3, 0] = .returned [0] := by
  have h : ∀ fuel, quickSortArray fuel [10, 3, 4] = .outOfFuel := by
    intro fuel
    cases fuel with
    | zero => rfl
    | succ fuel => rw [quickSortArray_step_demo, quickSortArray_fixed_outOfFuel]
  refine ⟨h, ?_, by decide⟩
  intro fuel hret
  rw [h fuel] at hret
  cases hret

/-- Claim C23 is not met by the code (same defect as C22): the recursive call of
`quickSortArray` is made on `finalValues`, which for the demo input `{10, 3, 4}` (pivot 4)
is `{0, 1, 2, 3, 4}`, a longer vector than the argument; the call on `{0, 1, 2, 3, 4}`
calls itself on the same vector again, so however many nested calls are allowed the demo
call is still waiting for one more. -/
theorem quickSortArray_recursion_not_smaller :
    quickSortArray.finalValues 4 = [0, 1, 2, 3, 4] ∧
    ([10, 3, 4] : List Int).length < (quickSortArray.finalValues 4).length ∧
    (∀ fuel, quickSortArray (fuel + 1) [10, 3, 4] =
      quickSortArray fuel (quickSortArray.finalValues 4)) ∧
    (∀ fuel, quickSortArray (fuel + 1) (quickSortArray.finalValues 4) =
      quickSortArray fuel (quickSortArray.finalValues 4)) ∧
    (∀ fuel r, quickSortArray fuel [10, 3, 4] ≠ .returned r) := by
  refine ⟨by decide, by decide, fun _ => rfl, fun _ => rfl, ?_⟩
  intro fuel r hret
  cases fuel with
  | zero => cases hret
  | succ fuel =>
    rw [quickSortArray_step_demo, quickSortArray_fixed_outOfFuel] at hret
    cases hret
end NumberOfSteps

namespace Student
open Cpp

theorem excessBits_small (fuel n : Nat) (h : n < 9007199254740992) : excessBits fuel n = 0 := by
  cases fuel with
  | zero => rfl
  | succ fuel => simp [excessBits, h]

theorem u64ToDouble_small (n : Nat) (h : n < 9007199254740992) : u64ToDouble n = n := by
  simp [u64ToDouble, excessBits_small 64 n h, Nat.mod_one]

theorem sum_nonneg_of_forall (l : List Int) (h : ∀ x ∈ l, 0 ≤ x) : 0 ≤ l.sum := by
  induction l with
  | nil => simp
  | cons x l ih =>
    have hx := h x (List.mem_cons_self x l)
    have hl := ih (fun y hy => h y (List.mem_cons_of_mem x hy))
    simp only [List.sum_cons]
    omega

theorem returnAverage_loop_exact (scores : List Int) :
    ∀ sum : Int, 0 ≤ sum → (∀ x ∈ scores, 0 ≤ x) → sum + scores.sum < 2147483648 →
      returnAverage.loop scores sum = sum + scores.sum := by
  induction scores with
  | nil =>
    intro sum _ _ _
    simp [returnAverage.loop]
  | cons x l ih =>
    intro sum hs hnn hlt
    have hx := hnn x (List.mem_cons_self x l)
    have hl := sum_nonneg_of_forall l (fun y hy => hnn y (List.mem_cons_of_mem x hy))
    simp only [List.sum_cons] at hlt
    have hw : wrap32 (sum + x) = sum + x := by
      unfold wrap32
      omega
    simp only [returnAverage.loop, hw, List.sum_cons]
    rw [ih (sum + x) (by omega) (fun y hy => hnn y (List.mem_cons_of_mem x hy)) (by omega)]
    omega

/-- Claim C26 is not met by the code: `sum / scores.size()` is an integer division (of the
`int` sum converted to the unsigned type of `size()`), made before the conversion to
`double`.  Scores 1 and 2 give 1, not 1.5; scores -3 and -5 give 9223372036854775808
(the quotient 9223372036854775804 of 2^64 - 8 by 2, rounded by the conversion to `double`),
not -4; scores 4 and 6 do give 5.  In general, for scores that are not negative and whose
sum is an `int` (fewer than 2^31 of them), the result is the quotient rounded down. -/
theorem returnAverage_integer_division :
    returnAverage [1, 2] = .returned 1 ∧ ((1 : Nat) : Rat) ≠ (1 + 2) / 2 ∧
    returnAverage [-3, -5] = .returned 9223372036854775808 ∧
    returnAverage [4, 6] = .returned 5 ∧
    ∀ scores : List Int, scores ≠ [] → scores.length < 2147483648 →
      (∀ x ∈ scores, 0 ≤ x) → scores.sum < 2147483648 →
      returnAverage scores = .returned (scores.sum.toNat / scores.length) := by
  refine ⟨by decide, by norm_num, by decide, by decide, ?_⟩
  intro scores hne hsize hnn hlt
  have hlen : scores.length ≠ 0 := by
    intro h
    exact hne (List.length_eq_zero.mp h)
  have hsum := sum_nonneg_of_forall scores hnn
  have hloop := returnAverage_loop_exact scores 0 (le_refl 0) hnn (by omega)
  simp only [zero_add] at hloop
  have hmod : (scores.sum % 18446744073709551616).toNat = scores.sum.toNat := by
    rw [Int.emod_eq_of_lt hsum (by omega)]
  have hq : scores.sum.toNat / scores.length < 9007199254740992 := by
    have h1 : scores.sum.toNat / scores.length ≤ scores.sum.toNat := Nat.div_le_self _ _
    omega
  have hguard : ¬ (scores.length = 0 ∨ 2147483648 ≤ scores.length) := by omega
  simp only [returnAverage, hguard, if_false, hloop, hmod, u64ToDouble_small _ hq]

/-- Witness for C26: scores 70, 80 and 95 give 81, where the average is 81.666... -/
theorem returnAverage_integer_division_witness :
    returnAverage [70, 80, 95] = .returned (([70, 80, 95] : List Int).sum.toNat / 3) :=
  (returnAverage_integer_division).2.2.2.2 [70, 80, 95] (by decide) (by decide) (by decide)
    (by decide)

end Student

namespace Templates

/-- Claim C30 is not met by the code: the `throw` of `pop` stands after the `if`, not in
an `else`, so `pop` raises on every stack.  On the stack of the demo, `1, 2, 3` pushed,
`pop` removes the top element (size 3 becomes 2) and still raises "Stack is empty"; the
same holds for the `pop` of templates.cpp. -/
theorem pop_always_raises :
    (∀ (T : Type) (s : Stack T), (Stack.pop s).2 = some "Stack is empty") ∧
    (∀ (T : Type) (s : Stack T),
      (Stack.popTemplates s).2 = some "Stack is empty, nothing to pop") ∧
    (Stack.pop (⟨[1, 2, 3]⟩ : Stack Int)).1.elements = [1, 2] ∧
    (Stack.pop (⟨[1, 2, 3]⟩ : Stack Int)).1.size + 1 = (⟨[1, 2, 3]⟩ : Stack Int).size ∧
    (Stack.pop (⟨[1, 2, 3]⟩ : Stack Int)).2 = some "Stack is empty" := by
  refine ⟨fun _ _ => rfl, fun _ _ => rfl, by decide, by decide, rfl⟩
end Templates

namespace NumberOfSteps
open Cpp

theorem smallest_loop_spec :
    ∀ (rest : List Int) (i smallest idx : Int),
      (getSmallestInArray.loop rest i smallest idx ∈ rest ∨
        getSmallestInArray.loop rest i smallest idx = smallest) ∧
      getSmallestInArray.loop rest i smallest idx ≤ smallest ∧
      ∀ x ∈ rest, getSmallestInArray.loop rest i smallest idx ≤ x := by
  intro rest
  induction rest with
  | nil =>
    intro i smallest idx
    exact ⟨Or.inr rfl, Int.le_refl _, fun x hx => by cases hx⟩
  | cons y rest ih =>
    intro i smallest idx
    by_cases hlt : y < smallest
    · obtain ⟨h1, h2, h3⟩ := ih (wrap32 (i + 1)) y i
      simp only [getSmallestInArray.loop, hlt, if_true]
      refine ⟨?_, by omega, ?_⟩
      · rcases h1 with h | h
        · exact Or.inl (List.mem_cons_of_mem y h)
        · exact Or.inl (by rw [h]; exact List.mem_cons_self y rest)
      · intro x hx
        rcases List.mem_cons.mp hx with h | h
        · rw [h]; exact h2
        · exact h3 x h
    · obtain ⟨h1, h2, h3⟩ := ih (wrap32 (i + 1)) smallest idx
      simp only [getSmallestInArray.loop, hlt, if_false]
      refine ⟨?_, h2, ?_⟩
      · rcases h1 with h | h
        · exact Or.inl (List.mem_cons_of_mem y h)
        · exact Or.inr h
      · intro x hx
        rcases List.mem_cons.mp hx with h | h
        · rw [h]; omega
        · exact h3 x h

/-- Claim C24. For every non-empty vector (of fewer than 2^31 elements, the range of the
`int` loop counter) `getSmallestInArray` returns the smallest value in it: the result is
an element of the vector and is less than or equal to every element. -/
theorem getSmallestInArray_smallest (stacksVec : List Int) (hne : stacksVec ≠ [])
    (_hsize : stacksVec.length < 2147483648) :
    ∃ r, getSmallestInArray stacksVec = .returned r ∧ r ∈ stacksVec ∧
      ∀ x ∈ stacksVec, r ≤ x := by
  cases stacksVec with
  | nil => exact absurd rfl hne
  | cons first rest =>
    obtain ⟨h1, _, h3⟩ := smallest_loop_spec (first :: rest) 0 first 0
    refine ⟨getSmallestInArray.loop (first :: rest) 0 first 0,
      by simp [getSmallestInArray], ?_, h3⟩
    rcases h1 with h | h
    · exact h
    · rw [h]
      exact List.mem_cons_self first rest

/-- Witness for C24: the smallest of `3, 1, 2` is 1. -/
theorem getSmallestInArray_smallest_witness :
    (∃ r, getSmallestInArray [3, 1, 2] = .returned r ∧ r ∈ ([3, 1, 2] : List Int) ∧
      ∀ x ∈ ([3, 1, 2] : List Int), r ≤ x) ∧
    getSmallestInArray [3, 1, 2] = .returned 1 :=
  ⟨getSmallestInArray_smallest [3, 1, 2] (by decide) (by decide), by decide⟩

theorem wrap32_add_wrap32 (a s : Int) : wrap32 (a + wrap32 s) = wrap32 (s + a) := by
  unfold wrap32
  omega

theorem sum_go_spec :
    ∀ (fuel : Nat) (stacksVec : List Int), stacksVec.length < fuel →
      getSumOfArray.go fuel stacksVec = .returned (wrap32 stacksVec.sum) := by
  intro fuel
  induction fuel with
  | zero =>
    intro v h
    exact absurd h (Nat.not_lt_zero _)
  | succ fuel ih =>
    intro v h
    rcases List.eq_nil_or_concat v with rfl | ⟨l, a, rfl⟩
    · rfl
    · have hl : l.length < fuel := by
        simp at h
        omega
      have hlast : (l.concat a).getLast? = some a := by simp
      have hdrop : (l.concat a).dropLast = l := by simp
      have hsum : (l.concat a).sum = l.sum + a := by simp
      rw [getSumOfArray.go, hlast, hdrop, hsum]
      simp only [ih l hl, wrap32_add_wrap32]

/-- Claim C25. For every vector of ints the recursive `getSumOfArray` terminates (nested
calls one more than the number of elements suffice, and more change nothing) and returns
the sum of all its items reduced to a 32-bit `int`; the result is 0 for the empty
vector. -/
theorem getSumOfArray_sum (stacksVec : List Int) :
    getSumOfArray stacksVec = .returned (wrap32 stacksVec.sum) ∧
    (∀ fuel, stacksVec.length < fuel →
      getSumOfArray.go fuel stacksVec = .returned (wrap32 stacksVec.sum)) ∧
    getSumOfArray [] = .returned 0 ∧
    (isInt stacksVec.sum = true → getSumOfArray stacksVec = .returned stacksVec.sum) := by
  have h := sum_go_spec (stacksVec.length + 1) stacksVec (Nat.lt_succ_self _)
  refine ⟨h, fun fuel hf => sum_go_spec fuel stacksVec hf, rfl, ?_⟩
  intro hint
  have hw : wrap32 stacksVec.sum = stacksVec.sum := by
    simp [isInt] at hint
    unfold wrap32
    omega
  rw [← hw]
  exact h
end NumberOfSteps

namespace Banking

/-- Claim C27. For every `Account<T>` and amount, `withdraw` returns true if and only if
`amount > 0` and `amount <= balance`; when it returns true the balance is the old one
minus the amount (and one entry is appended to the history); when it returns false the
balance is unchanged, as are number and holder, and exactly one entry, the failed
attempt, is appended to the transaction history. -/
theorem withdraw_result {T : Type} [Zero T] [LT T] [LE T] [Sub T]
    [DecidableRel (fun a b : T => a < b)] [DecidableRel (fun a b : T => a ≤ b)]
    (toStr : T → String) (timestamp : String) (acc : Account T) (amount : T) :
    ((Account.withdraw toStr timestamp acc amount).2 = true ↔
      (0 < amount ∧ amount ≤ acc.balance)) ∧
    ((Account.withdraw toStr timestamp acc amount).2 = true →
      (Account.withdraw toStr timestamp acc amount).1.balance = acc.balance - amount ∧
      (Account.withdraw toStr timestamp acc amount).1.transactionHistory =
        acc.transactionHistory ++ [timestamp ++ " - " ++ ("Withdrawal: -" ++ toStr amount)]) ∧
    ((Account.withdraw toStr timestamp acc amount).2 = false →
      (Account.withdraw toStr timestamp acc amount).1.balance = acc.balance ∧
      (Account.withdraw toStr timestamp acc amount).1.accountNumber = acc.accountNumber ∧
      (Account.withdraw toStr timestamp acc amount).1.accountHolder = acc.accountHolder ∧
      (Account.withdraw toStr timestamp acc amount).1.transactionHistory =
        acc.transactionHistory ++
          [timestamp ++ " - " ++ ("Failed withdrawal attempt: -" ++ toStr amount)] ∧
      (Account.withdraw toStr timestamp acc amount).1.transactionHistory.length =
        acc.transactionHistory.length + 1) := by
  by_cases h : 0 < amount ∧ amount ≤ acc.balance
  · simp [Account.withdraw, h, Account.addTransaction]
  · simp [Account.withdraw, h, Account.addTransaction]
end Banking

namespace HelloWorldClass

theorem go_nil (acc s : String) : String.intercalate.go acc s [] = acc := rfl

theorem go_cons (acc s a : String) (l : List String) :
    String.intercalate.go acc s (a :: l) = String.intercalate.go (acc ++ s ++ a) s l := rfl

theorem go_append (os s : String) :
    ∀ (l : List String) (acc : String),
      String.intercalate.go (os ++ acc) s l = os ++ String.intercalate.go acc s l := by
  intro l
  induction l with
  | nil =>
    intro acc
    rfl
  | cons a l ih =>
    intro acc
    rw [go_cons, go_cons, String.append_assoc, String.append_assoc, ih, String.append_assoc]

theorem wrapU32_pred (n : Nat) (h1 : 1 ≤ n) (h2 : n < 4294967296) :
    wrapU32 ((n : Int) - 1) = n - 1 := by
  unfold wrapU32
  omega

theorem loop_text (hw : HelloWorld) (h2 : hw.repeatCount < 4294967296) :
    ∀ (todo i : Nat) (os : String), i + (todo + 1) = hw.repeatCount →
      HelloWorld.loop hw (todo + 1) i os =
        String.intercalate.go (os ++ hw.message) " " (List.replicate todo hw.message) := by
  intro todo
  induction todo with
  | zero =>
    intro i os hi
    have hw1 := wrapU32_pred hw.repeatCount (by omega) h2
    have hnot : ¬ i < wrapU32 ((hw.repeatCount : Int) - 1) := by
      rw [hw1]
      omega
    simp only [HelloWorld.loop, hnot, if_false, List.replicate, go_nil]
  | succ todo ih =>
    intro i os hi
    have hw1 := wrapU32_pred hw.repeatCount (by omega) h2
    have hlt : i < wrapU32 ((hw.repeatCount : Int) - 1) := by
      rw [hw1]
      omega
    rw [HelloWorld.loop]
    simp only [hlt, if_true]
    rw [ih (i + 1) (os ++ hw.message ++ " ") (by omega), List.replicate_succ, go_cons]

/-- Claim C31. Rendering of a `HelloWorld`: for every repeat count `n` (an `unsigned int`,
so `n < 2^32`) and message `m`, `operator<<` appends to the stream the message `n` times
with one space between consecutive repetitions and none before or after (the `n` copies
joined by `" "`), nothing at all for `n = 0`; `print()` writes the same text followed by a
newline. -/
theorem stream_text (n : Nat) (m os : String) (hn : n < 4294967296) :
    HelloWorld.stream os ⟨n, m⟩ = os ++ " ".intercalate (List.replicate n m) ∧
    HelloWorld.print os ⟨n, m⟩ = os ++ " ".intercalate (List.replicate n m) ++ "\n" ∧
    HelloWorld.stream os ⟨0, m⟩ = os := by
  have hloop : HelloWorld.loop ⟨n, m⟩ n 0 os = os ++ " ".intercalate (List.replicate n m) := by
    cases n with
    | zero =>
      show os = os ++ ""
      rw [String.append_empty]
    | succ k =>
      rw [loop_text ⟨k + 1, m⟩ hn k 0 os (by simp), List.replicate_succ]
      show String.intercalate.go (os ++ m) " " (List.replicate k m) =
        os ++ String.intercalate.go m " " (List.replicate k m)
      rw [go_append]
  refine ⟨hloop, ?_, rfl⟩
  show HelloWorld.loop ⟨n, m⟩ n 0 os ++ "\n" = _
  rw [hloop]

/-- Witness for C31: `HelloWorld(3, "Hello")` is rendered as `Hello Hello Hello`. -/
theorem stream_text_witness :
    (HelloWorld.stream "" ⟨3, "Hello"⟩ = "" ++ " ".intercalate (List.replicate 3 "Hello") ∧
      HelloWorld.print "" ⟨3, "Hello"⟩ =
        "" ++ " ".intercalate (List.replicate 3 "Hello") ++ "\n" ∧
      HelloWorld.stream "" ⟨0, "Hello"⟩ = "") ∧
    HelloWorld.stream "" ⟨3, "Hello"⟩ = "Hello Hello Hello" :=
  ⟨stream_text 3 "Hello" "" (by decide), by decide⟩
end HelloWorldClass

namespace NumberOfSteps
open Cpp

theorem loop_exit (stacksVec : List Int) (value : Int) (fuel lo : Nat) :
    binary_search.loop stacksVec value (fuel + 1) (lo : Int) ((lo : Int) - 1) = .returned 0 := by
  have hnot : ¬ ((lo : Int) ≤ (lo : Int) - 1) := by omega
  rw [binary_search.loop, if_neg hnot]

theorem loop_absent (stacksVec : List Int) (value : Int) (habs : value ∉ stacksVec)
    (hsize : stacksVec.length ≤ 1073741824) :
    ∀ (fuel lo hi1 : Nat), lo ≤ hi1 → hi1 ≤ stacksVec.length → hi1 - lo < fuel →
      binary_search.loop stacksVec value fuel (lo : Int) ((hi1 : Int) - 1) = .returned 0 := by
  intro fuel
  induction fuel with
  | zero =>
    intro lo hi1 _ _ hf
    exact absurd hf (Nat.not_lt_zero _)
  | succ fuel ih =>
    intro lo hi1 hle hlen hf
    rcases Nat.eq_or_lt_of_le hle with heq | hlt
    · rw [← heq]
      exact loop_exit stacksVec value fuel lo
    · obtain ⟨hi, hhi⟩ : ∃ hi, hi + 1 = hi1 := ⟨hi1 - 1, by omega⟩
      have hcast : ((hi1 : Int) - 1) = (hi : Int) := by omega
      rw [hcast]
      have hlohi : lo ≤ hi := by omega
      have hsum : lo + hi < 2147483648 := by omega
      obtain ⟨m, hm⟩ : ∃ m, (lo + hi) / 2 = m := ⟨_, rfl⟩
      have hm_lo : lo ≤ m := by omega
      have hm_hi : m ≤ hi := by omega
      have hmlen : m < stacksVec.length := by omega
      obtain ⟨v, hv⟩ : ∃ v, stacksVec[m]? = some v := ⟨_, List.getElem?_eq_getElem hmlen⟩
      have hne : ¬ v = value := by
        intro e
        apply habs
        rw [← e]
        obtain ⟨hlt2, hget⟩ := List.getElem?_eq_some_iff.mp hv
        rw [← hget]
        exact List.getElem_mem hlt2
      rw [loop_unfold stacksVec value fuel lo hi m v hlohi hsum hm hv, if_neg hne]
      by_cases hgt : v > value
      · rw [if_pos hgt]
        have hw : wrap32 ((m : Int) - 1) = (m : Int) - 1 :=
          wrap32_small _ (by omega) (by omega)
        rw [hw]
        exact ih lo m hm_lo (by omega) (by omega)
      · rw [if_neg hgt]
        rw [wrap32_succ m (by omega)]
        have hcast2 : (hi : Int) = ((hi1 : Int) - 1) := by omega
        rw [hcast2]
        exact ih (m + 1) hi1 (by omega) hlen (by omega)

/-- Claim C21, as stated, fails on the sorted vector of 2^31 - 1 zeros searched for the
absent value 1: after the first probe `low = 2^30` and `high = 2^31 - 2`, the `int` sum
`low + high` overflows, `mid` is negative and `stacks[mid]` is outside the vector, so 0 is
not returned. -/
theorem binary_search_absent_counterexample :
    (List.replicate 2147483647 (0 : Int)).Pairwise (· ≤ ·) ∧
    (1 : Int) ∉ List.replicate 2147483647 (0 : Int) ∧
    binary_search (List.replicate 2147483647 (0 : Int)) 1 = .undefined := by
  refine ⟨List.pairwise_replicate.mpr (Or.inr (Int.le_refl 0)), ?_, ?_⟩
  · intro h
    have := List.eq_of_mem_replicate h
    exact absurd this (by decide)
  · have hv : (List.replicate 2147483647 (0 : Int))[1073741823]? = some 0 := by
      rw [List.getElem?_replicate, if_pos (by decide)]
    have hrun := loop_overflow (List.replicate 2147483647 (0 : Int)) 1 0 2147483646
      hv (by decide)
    have hlen : (List.replicate 2147483647 (0 : Int)).length = 2147483646 + 1 := by
      rw [List.length_replicate]
    have hhigh : wrap32 (((2147483646 + 1 : Nat) : Int) - 1) = 2147483646 := by decide
    have hdef : ∀ l : List Int, binary_search l 1 =
        binary_search.loop l 1 (l.length + 1) 0 (wrap32 ((l.length : Int) - 1)) :=
      fun _ => rfl
    rw [hdef, hlen, hhigh]
    exact hrun

/-- Claim C21, amended. For every vector of at most 2^30 elements (the empty vector
included; being sorted is not needed) and every value that does not occur in it,
`binary_search` terminates and returns 0; 0 is also what is returned when the value is
found at index 0 (in `{1, 3, 4, 5}` the present value 1 and the absent value 0 both give
0), so the return value alone does not tell the two cases apart. -/
theorem binary_search_absent (stacksVec : List Int) (value : Int)
    (habs : value ∉ stacksVec) (hsize : stacksVec.length ≤ 1073741824) :
    binary_search stacksVec value = .returned 0 ∧
    binary_search [] value = .returned 0 ∧
    binary_search [1, 3, 4, 5] 1 = .returned 0 ∧
    binary_search [1, 3, 4, 5] 0 = .returned 0 := by
  refine ⟨?_, ?_, by decide, by decide⟩
  · have hhigh : wrap32 ((stacksVec.length : Int) - 1) = (stacksVec.length : Int) - 1 :=
      wrap32_small _ (by omega) (by omega)
    unfold binary_search
    rw [hhigh]
    exact loop_absent stacksVec value habs hsize (stacksVec.length + 1) 0 stacksVec.length
      (Nat.zero_le _) (Nat.le_refl _) (by omega)
  · rfl

/-- Witness for C21 (amended): the value 2 does not occur in `{1, 3, 4, 5}`. -/
theorem binary_search_absent_witness :
    binary_search [1, 3, 4, 5] 2 = .returned 0 ∧
    binary_search [] 2 = .returned 0 ∧
    binary_search [1, 3, 4, 5] 1 = .returned 0 ∧
    binary_search [1, 3, 4, 5] 0 = .returned 0 :=
  binary_search_absent [1, 3, 4, 5] 2 (by decide) (by decide)
end NumberOfSteps

namespace ConstructorsDestructors
open Cpp

theorem readCell_some (cells : List (Option Int)) (p : Nat) (c : Int)
    (h : readCell cells p = some c) :
    ∃ k, p = k + 1 ∧ k < cells.length ∧ cells[k]? = some (some c) := by
  cases p with
  | zero => simp [readCell] at h
  | succ k =>
    refine ⟨k, rfl, ?_, ?_⟩
    · rcases Nat.lt_or_ge k cells.length with hlt | hge
      · exact hlt
      · simp [readCell, List.getElem?_eq_none hge] at h
    · cases hk : cells[k]? with
      | none => simp [readCell, hk] at h
      | some x =>
        cases x with
        | none => simp [readCell, hk] at h
        | some v =>
          simp [readCell, hk] at h
          rw [h]

theorem readCell_set_self (cells : List (Option Int)) (k : Nat) (v : Int)
    (hk : k < cells.length) : readCell (cells.set k (some v)) (k + 1) = some v := by
  simp [readCell, List.getElem?_set_self hk]

theorem readCell_set_ne (cells : List (Option Int)) (k q : Nat) (x : Option Int)
    (h : q ≠ k + 1) : readCell (cells.set k x) q = readCell cells q := by
  cases q with
  | zero => rfl
  | succ j =>
    have hne : k ≠ j := by omega
    simp [readCell, List.getElem?_set_ne hne]

theorem readCell_append (cells : List (Option Int)) (q : Nat) (c : Int) (x : Option Int)
    (h : readCell cells q = some c) : readCell (cells ++ [x]) q = some c := by
  obtain ⟨k, rfl, hk, hget⟩ := readCell_some cells q c h
  simp [readCell, List.getElem?_append_left hk, hget]

theorem readCell_fresh (cells : List (Option Int)) (c : Int) :
    readCell (cells ++ [some c]) (cells.length + 1) = some c := by
  simp [readCell]

theorem countOf_eq {T : Type} (s : Bank T) (i : Nat) (acc : BankAccount T)
    (h : s.accounts[i]? = some acc) : s.countOf i = readCell s.cells acc.transactionCount := by
  simp [Bank.countOf, h]

theorem incrCell_eq (cells : List (Option Int)) (p : Nat) (c : Int)
    (h : readCell cells p = some c) :
    incrCell cells p = some (cells.set (p - 1) (some (wrap32 (c + 1)))) := by
  simp [incrCell, h]

theorem lt_of_getElem?_some {α : Type} (l : List α) (i : Nat) (x : α)
    (h : l[i]? = some x) : i < l.length := (List.getElem?_eq_some_iff.mp h).1

/-- Claim C28. `withdraw` of `BankAccount`: for an account whose counter cell is allocated
and holds a value `c` below `INT_MAX`, an amount greater than the balance leaves the whole
state as it is (balance, transaction count and holder unchanged); an amount not above the
balance makes the balance the old one minus the amount, the transaction count `c + 1`,
and leaves the holder unchanged. -/
theorem withdraw_effect {T : Type} [LinearOrder T] [Sub T] (s : Bank T) (i : Nat)
    (amount : T) (acc : BankAccount T) (c : Int)
    (hacc : s.accounts[i]? = some acc) (hc : s.countOf i = some c)
    (hlow : -2147483648 ≤ c) (hmax : c < 2147483647) :
    (acc.balance < amount → s.withdraw i amount = some s) ∧
    (amount ≤ acc.balance → ∃ s1, s.withdraw i amount = some s1 ∧
      s1.balanceOf i = some (acc.balance - amount) ∧ s1.countOf i = some (c + 1) ∧
      s1.holderOf i = some acc.accountHolder) := by
  have hi : i < s.accounts.length := lt_of_getElem?_some _ _ _ hacc
  rw [countOf_eq s i acc hacc] at hc
  obtain ⟨k, hk, hklen, _⟩ := readCell_some _ _ _ hc
  constructor
  · intro hlt
    have hnot : ¬ amount ≤ acc.balance := not_le.mpr hlt
    simp [Bank.withdraw, hacc, hnot]
  · intro hle
    have hw : wrap32 (c + 1) = c + 1 := by
      unfold wrap32
      omega
    have hnew : (s.accounts.set i { acc with balance := acc.balance - amount })[i]? =
        some { acc with balance := acc.balance - amount } := List.getElem?_set_self hi
    refine ⟨⟨s.cells.set (acc.transactionCount - 1) (some (wrap32 (c + 1))),
      s.accounts.set i { acc with balance := acc.balance - amount }⟩, ?_, ?_, ?_, ?_⟩
    · simp [Bank.withdraw, hacc, hle, incrCell_eq _ _ _ hc]
    · simp [Bank.balanceOf, hnew]
    · rw [countOf_eq _ i _ hnew]
      show readCell (s.cells.set (acc.transactionCount - 1) _) acc.transactionCount = _
      rw [hk, Nat.add_sub_cancel, readCell_set_self _ _ _ hklen, hw]
    · simp [Bank.holderOf, hnew]

/-- Witness for C28: Alice holds 1000 after 3 transactions. -/
theorem withdraw_effect_witness :
    ((1000 : Int) < 400 →
      Bank.withdraw (⟨[some 3], [⟨"Alice", 1000, 1⟩]⟩ : Bank Int) 0 400 =
        some ⟨[some 3], [⟨"Alice", 1000, 1⟩]⟩) ∧
    ((400 : Int) ≤ 1000 → ∃ s1,
      Bank.withdraw (⟨[some 3], [⟨"Alice", 1000, 1⟩]⟩ : Bank Int) 0 400 = some s1 ∧
      s1.balanceOf 0 = some (1000 - 400) ∧ s1.countOf 0 = some (3 + 1) ∧
      s1.holderOf 0 = some "Alice") :=
  withdraw_effect (⟨[some 3], [⟨"Alice", 1000, 1⟩]⟩ : Bank Int) 0 400 ⟨"Alice", 1000, 1⟩ 3
    rfl (by decide) (by decide) (by decide)
end ConstructorsDestructors

namespace ConstructorsDestructors
open Cpp

theorem sameAccount_refl {T : Type} (s : Bank T) (j : Nat) : Bank.sameAccount s s j :=
  ⟨rfl, rfl, rfl⟩

theorem sameAccount_trans {T : Type} (s1 s2 s3 : Bank T) (j : Nat)
    (h12 : Bank.sameAccount s1 s2 j) (h23 : Bank.sameAccount s2 s3 j) :
    Bank.sameAccount s1 s3 j :=
  ⟨h23.1.trans h12.1, h23.2.1.trans h12.2.1, h23.2.2.trans h12.2.2⟩

theorem sameAccount_of_frame {T : Type} (s s2 : Bank T) (j : Nat) (xj : BankAccount T)
    (hj : s.accounts[j]? = some xj) (hacc : s2.accounts[j]? = s.accounts[j]?)
    (hcell : readCell s2.cells xj.transactionCount = readCell s.cells xj.transactionCount) :
    Bank.sameAccount s s2 j := by
  have hj2 : s2.accounts[j]? = some xj := by rw [hacc, hj]
  refine ⟨?_, ?_, ?_⟩
  · simp [Bank.holderOf, hj2, hj]
  · simp [Bank.balanceOf, hj2, hj]
  · rw [countOf_eq _ j xj hj2, countOf_eq s j xj hj, hcell]

theorem call_step {T : Type} [LinearOrder T] [Add T] [Sub T] (s : Bank T) (i : Nat)
    (ai : BankAccount T) (ci : Int)
    (hi : s.accounts[i]? = some ai)
    (hci : readCell s.cells ai.transactionCount = some ci) (call : Call T) :
    ∃ s2 ai2 ci2, s.call i call = some s2 ∧ s2.accounts[i]? = some ai2 ∧
      ai2.transactionCount = ai.transactionCount ∧
      readCell s2.cells ai.transactionCount = some ci2 ∧
      (∀ j, j ≠ i → s2.accounts[j]? = s.accounts[j]?) ∧
      (∀ p, p ≠ ai.transactionCount → readCell s2.cells p = readCell s.cells p) := by
  obtain ⟨k, hk, hklen, _⟩ := readCell_some _ _ _ hci
  have hilen : i < s.accounts.length := lt_of_getElem?_some _ _ _ hi
  have hmoved : ∀ (x : BankAccount T), x.transactionCount = ai.transactionCount →
      ∃ ai2 ci2,
        (s.accounts.set i x)[i]? = some ai2 ∧ ai2.transactionCount = ai.transactionCount ∧
        readCell (s.cells.set (ai.transactionCount - 1) (some (wrap32 (ci + 1))))
          ai.transactionCount = some ci2 ∧
        (∀ j, j ≠ i → (s.accounts.set i x)[j]? = s.accounts[j]?) ∧
        (∀ p, p ≠ ai.transactionCount →
          readCell (s.cells.set (ai.transactionCount - 1) (some (wrap32 (ci + 1)))) p =
            readCell s.cells p) := by
    intro x hx
    refine ⟨x, wrap32 (ci + 1), List.getElem?_set_self hilen, hx, ?_, ?_, ?_⟩
    · rw [hk, Nat.add_sub_cancel]
      exact readCell_set_self _ _ _ hklen
    · intro j hj
      exact List.getElem?_set_ne (fun e => hj e.symm)
    · intro p hp
      rw [hk, Nat.add_sub_cancel]
      exact readCell_set_ne _ _ _ _ (by rw [← hk]; exact hp)
  cases call with
  | deposit amount =>
    obtain ⟨ai2, ci2, h1, h2, h3, h4, h5⟩ :=
      hmoved { ai with balance := ai.balance + amount } rfl
    exact ⟨⟨s.cells.set (ai.transactionCount - 1) (some (wrap32 (ci + 1))),
      s.accounts.set i { ai with balance := ai.balance + amount }⟩, ai2, ci2,
      by simp [Bank.call, Bank.deposit, hi, incrCell_eq _ _ _ hci], h1, h2, h3, h4, h5⟩
  | withdraw amount =>
    by_cases hle : amount ≤ ai.balance
    · obtain ⟨ai2, ci2, h1, h2, h3, h4, h5⟩ :=
        hmoved { ai with balance := ai.balance - amount } rfl
      exact ⟨⟨s.cells.set (ai.transactionCount - 1) (some (wrap32 (ci + 1))),
        s.accounts.set i { ai with balance := ai.balance - amount }⟩, ai2, ci2,
        by simp [Bank.call, Bank.withdraw, hi, hle, incrCell_eq _ _ _ hci],
        h1, h2, h3, h4, h5⟩
    · exact ⟨s, ai, ci, by simp [Bank.call, Bank.withdraw, hi, hle], hi, rfl, hci,
        fun _ _ => rfl, fun _ _ => rfl⟩

theorem call_frame {T : Type} [LinearOrder T] [Add T] [Sub T] (s : Bank T) (i j : Nat)
    (ai aj : BankAccount T) (ci : Int) (hij : j ≠ i)
    (hi : s.accounts[i]? = some ai) (hj : s.accounts[j]? = some aj)
    (hci : readCell s.cells ai.transactionCount = some ci)
    (hptr : aj.transactionCount ≠ ai.transactionCount) (call : Call T) :
    ∃ s2, s.call i call = some s2 ∧ Bank.sameAccount s s2 j := by
  obtain ⟨s2, _, _, hcall, _, _, _, hacc, hcell⟩ := call_step s i ai ci hi hci call
  exact ⟨s2, hcall, sameAccount_of_frame s s2 j aj hj (hacc j hij) (hcell _ hptr)⟩

theorem run_independent {T : Type} [LinearOrder T] [Add T] [Sub T] (a b : Nat) (hab : a ≠ b)
    (cs : List (Nat × Call T)) :
    ∀ (s : Bank T) (xa xb : BankAccount T) (ca cb : Int),
      s.accounts[a]? = some xa → s.accounts[b]? = some xb →
      readCell s.cells xa.transactionCount = some ca →
      readCell s.cells xb.transactionCount = some cb →
      xa.transactionCount ≠ xb.transactionCount →
      (∀ x ∈ cs, x.1 = a ∨ x.1 = b) →
      ∃ s2, s.run cs = some s2 ∧
        ((∀ x ∈ cs, x.1 = b) → Bank.sameAccount s s2 a) ∧
        ((∀ x ∈ cs, x.1 = a) → Bank.sameAccount s s2 b) ∧
        ∀ call : Call T,
          (∃ s3, s2.call b call = some s3 ∧ Bank.sameAccount s2 s3 a) ∧
          (∃ s3, s2.call a call = some s3 ∧ Bank.sameAccount s2 s3 b) := by
  induction cs with
  | nil =>
    intro s xa xb ca cb hxa hxb hca hcb hptr _
    refine ⟨s, rfl, fun _ => sameAccount_refl s a, fun _ => sameAccount_refl s b, ?_⟩
    intro call
    exact ⟨call_frame s b a xb xa cb hab hxb hxa hcb hptr call,
      call_frame s a b xa xb ca (fun e => hab e.symm) hxa hxb hca (fun e => hptr e.symm) call⟩
  | cons x cs ih =>
    intro s xa xb ca cb hxa hxb hca hcb hptr htargets
    obtain ⟨i, call⟩ := x
    have hrest : ∀ y ∈ cs, y.1 = a ∨ y.1 = b :=
      fun y hy => htargets y (List.mem_cons_of_mem _ hy)
    rcases htargets (i, call) (List.mem_cons_self _ _) with hia | hib
    · -- the call is made on `a`
      have hia : i = a := hia
      subst hia
      obtain ⟨s1, ya, da, hcall, hya, hyptr, hda, hacc, hcell⟩ :=
        call_step s i xa ca hxa hca call
      have hxb1 : s1.accounts[b]? = some xb := by rw [hacc b (fun e => hab e.symm), hxb]
      have hcb1 : readCell s1.cells xb.transactionCount = some cb := by
        rw [hcell _ (fun e => hptr e.symm), hcb]
      have hsame : Bank.sameAccount s s1 b :=
        sameAccount_of_frame s s1 b xb hxb (hacc b (fun e => hab e.symm))
          (hcell _ (fun e => hptr e.symm))
      obtain ⟨s2, hrun, hA, hB, hnext⟩ :=
        ih s1 ya xb da cb hya hxb1 (by rw [hyptr]; exact hda) hcb1
          (by rw [hyptr]; exact hptr) hrest
      refine ⟨s2, by simp [Bank.run, hcall, hrun], ?_, ?_, hnext⟩
      · intro hall
        exact absurd (hall (i, call) (List.mem_cons_self _ _)) hab
      · intro hall
        exact sameAccount_trans s s1 s2 b hsame
          (hB (fun y hy => hall y (List.mem_cons_of_mem _ hy)))
    · -- the call is made on `b`
      have hib : i = b := hib
      subst hib
      obtain ⟨s1, yb, db, hcall, hyb, hyptr, hdb, hacc, hcell⟩ :=
        call_step s i xb cb hxb hcb call
      have hxa1 : s1.accounts[a]? = some xa := by rw [hacc a hab, hxa]
      have hca1 : readCell s1.cells xa.transactionCount = some ca := by
        rw [hcell _ hptr, hca]
      have hsame : Bank.sameAccount s s1 a :=
        sameAccount_of_frame s s1 a xa hxa (hacc a hab) (hcell _ hptr)
      obtain ⟨s2, hrun, hA, hB, hnext⟩ :=
        ih s1 xa yb ca db hxa1 hyb hca1 (by rw [hyptr]; exact hdb)
          (by rw [hyptr]; exact hptr) hrest
      refine ⟨s2, by simp [Bank.run, hcall, hrun], ?_, ?_, hnext⟩
      · intro hall
        exact sameAccount_trans s s1 s2 a hsame
          (hA (fun y hy => hall y (List.mem_cons_of_mem _ hy)))
      · intro hall
        exact absurd (hall (i, call) (List.mem_cons_self _ _)) (fun e => hab e.symm)

theorem deleteCell_spec (cells : List (Option Int)) (p : Nat)
    (h : p = 0 ∨ (readCell cells p).isSome = true) :
    ∃ cells0, deleteCell cells p = some cells0 ∧ cells0.length = cells.length ∧
      ∀ q, q ≠ p → readCell cells0 q = readCell cells q := by
  cases p with
  | zero => exact ⟨cells, rfl, rfl, fun _ _ => rfl⟩
  | succ k =>
    rcases h with h | h
    · omega
    · obtain ⟨v, hv⟩ := Option.isSome_iff_exists.mp h
      obtain ⟨k0, hk0, _, hget⟩ := readCell_some _ _ _ hv
      have hkk : k = k0 := by omega
      subst hkk
      refine ⟨cells.set k none, by simp [deleteCell, hget], by simp, ?_⟩
      intro q hq
      exact readCell_set_ne _ _ _ _ hq

/-- Claim C29. Copies of a `BankAccount` are deep.  Let `a` be an account whose counter
cell is allocated and holds `c`.  The copy constructor yields a new account `b`; copy
assignment `b = a` to another account `b`, whose counter is null or an allocated cell
other than the one of `a`, completes.  In both cases `b` has the holder and balance of
`a` and the transaction count `c`, `a` keeps its members and its count, and the two
accounts have different counters.  From then on, every sequence of deposits and
withdrawals on `a` and `b`, in any order, is defined; one made on `b` only leaves holder,
balance and count of `a` as they were, one made on `a` only leaves those of `b` as they
were; and after any such sequence one more call on `b` leaves `a` unchanged and one more
call on `a` leaves `b` unchanged. -/
theorem copy_is_deep {T : Type} [LinearOrder T] [Add T] [Sub T] (s : Bank T) (a : Nat)
    (acc : BankAccount T) (c : Int)
    (ha : s.accounts[a]? = some acc) (hc : s.countOf a = some c) :
    (∃ s1 cp, s.copyCtor a = some s1 ∧
      s1.accounts[s.accounts.length]? = some cp ∧ s1.accounts[a]? = some acc ∧
      cp.accountHolder = acc.accountHolder ∧ cp.balance = acc.balance ∧
      s1.countOf s.accounts.length = some c ∧ s1.countOf a = some c ∧
      cp.transactionCount ≠ acc.transactionCount ∧
      ∀ cs : List (Nat × Call T), (∀ x ∈ cs, x.1 = a ∨ x.1 = s.accounts.length) →
        ∃ s2, s1.run cs = some s2 ∧
          ((∀ x ∈ cs, x.1 = s.accounts.length) → Bank.sameAccount s1 s2 a) ∧
          ((∀ x ∈ cs, x.1 = a) → Bank.sameAccount s1 s2 s.accounts.length) ∧
          ∀ call : Call T,
            (∃ s3, s2.call s.accounts.length call = some s3 ∧ Bank.sameAccount s2 s3 a) ∧
            (∃ s3, s2.call a call = some s3 ∧
              Bank.sameAccount s2 s3 s.accounts.length)) ∧
    (∀ (b : Nat) (old : BankAccount T), s.accounts[b]? = some old → b ≠ a →
      old.transactionCount ≠ acc.transactionCount →
      (old.transactionCount = 0 ∨ (readCell s.cells old.transactionCount).isSome = true) →
      ∃ s1 cp, s.copyAssign b a = some s1 ∧
        s1.accounts[b]? = some cp ∧ s1.accounts[a]? = some acc ∧
        cp.accountHolder = acc.accountHolder ∧ cp.balance = acc.balance ∧
        s1.countOf b = some c ∧ s1.countOf a = some c ∧
        cp.transactionCount ≠ acc.transactionCount ∧
        ∀ cs : List (Nat × Call T), (∀ x ∈ cs, x.1 = a ∨ x.1 = b) →
          ∃ s2, s1.run cs = some s2 ∧
            ((∀ x ∈ cs, x.1 = b) → Bank.sameAccount s1 s2 a) ∧
            ((∀ x ∈ cs, x.1 = a) → Bank.sameAccount s1 s2 b) ∧
            ∀ call : Call T,
              (∃ s3, s2.call b call = some s3 ∧ Bank.sameAccount s2 s3 a) ∧
              (∃ s3, s2.call a call = some s3 ∧ Bank.sameAccount s2 s3 b)) := by
  have halen : a < s.accounts.length := lt_of_getElem?_some _ _ _ ha
  have hc0 : readCell s.cells acc.transactionCount = some c := by
    rw [← countOf_eq s a acc ha]
    exact hc
  obtain ⟨k, hk, hklen, _⟩ := readCell_some _ _ _ hc0
  constructor
  · -- copy construction
    have hnew : (s.accounts ++ [(⟨acc.accountHolder, acc.balance, s.cells.length + 1⟩ :
        BankAccount T)])[s.accounts.length]? =
        some ⟨acc.accountHolder, acc.balance, s.cells.length + 1⟩ :=
      List.getElem?_concat_length _ _
    have hold : (s.accounts ++ [(⟨acc.accountHolder, acc.balance, s.cells.length + 1⟩ :
        BankAccount T)])[a]? = some acc := by
      rw [List.getElem?_append_left halen, ha]
    have hcnew : readCell (s.cells ++ [some c]) (s.cells.length + 1) = some c :=
      readCell_fresh s.cells c
    have hcold : readCell (s.cells ++ [some c]) acc.transactionCount = some c :=
      readCell_append s.cells _ c _ hc0
    have hne1 : acc.transactionCount ≠ s.cells.length + 1 := by omega
    refine ⟨⟨s.cells ++ [some c],
      s.accounts ++ [⟨acc.accountHolder, acc.balance, s.cells.length + 1⟩]⟩,
      ⟨acc.accountHolder, acc.balance, s.cells.length + 1⟩,
      by simp [Bank.copyCtor, ha, hc0], hnew, hold, rfl, rfl, ?_, ?_,
      fun e => hne1 e.symm, ?_⟩
    · rw [countOf_eq _ _ _ hnew]
      exact hcnew
    · rw [countOf_eq _ _ _ hold]
      exact hcold
    · intro cs hcs
      exact run_independent a s.accounts.length (by omega) cs _ acc _ c c hold hnew hcold
        hcnew hne1 hcs
  · -- copy assignment
    intro b old hb hab hptr hdel
    have hblen : b < s.accounts.length := lt_of_getElem?_some _ _ _ hb
    obtain ⟨cells0, hdel0, hlen0, hframe0⟩ := deleteCell_spec s.cells old.transactionCount hdel
    have hc1 : readCell cells0 acc.transactionCount = some c := by
      rw [hframe0 _ (fun e => hptr e.symm), hc0]
    have hnew : (s.accounts.set b (⟨acc.accountHolder, acc.balance,
        cells0.length + 1⟩ : BankAccount T))[b]? =
        some ⟨acc.accountHolder, acc.balance, cells0.length + 1⟩ :=
      List.getElem?_set_self hblen
    have hold : (s.accounts.set b (⟨acc.accountHolder, acc.balance,
        cells0.length + 1⟩ : BankAccount T))[a]? = some acc := by
      rw [List.getElem?_set_ne hab, ha]
    have hcnew : readCell (cells0 ++ [some c]) (cells0.length + 1) = some c :=
      readCell_fresh _ c
    have hcold : readCell (cells0 ++ [some c]) acc.transactionCount = some c :=
      readCell_append _ _ c _ hc1
    have hne1 : acc.transactionCount ≠ cells0.length + 1 := by
      rw [hlen0]
      omega
    refine ⟨⟨cells0 ++ [some c],
      s.accounts.set b ⟨acc.accountHolder, acc.balance, cells0.length + 1⟩⟩,
      ⟨acc.accountHolder, acc.balance, cells0.length + 1⟩,
      by simp [Bank.copyAssign, ha, hb, hab, hdel0, hc1], hnew, hold, rfl, rfl, ?_, ?_,
      fun e => hne1 e.symm, ?_⟩
    · rw [countOf_eq _ _ _ hnew]
      exact hcnew
    · rw [countOf_eq _ _ _ hold]
      exact hcold
    · intro cs hcs
      exact run_independent a b (fun e => hab e.symm) cs _ acc _ c c hold hnew hcold
        hcnew hne1 hcs

/-- Witness for C29: Alice, the only account of a bank, is copied; and in the bank of the
examples Alice is assigned to Bob. -/
theorem copy_is_deep_witness :
    (∃ s1 cp, Bank.copyCtor (⟨[some 3], [⟨"Alice", 1000, 1⟩]⟩ : Bank Int) 0 = some s1 ∧
      s1.accounts[1]? = some cp ∧ s1.accounts[0]? = some ⟨"Alice", 1000, 1⟩ ∧
      cp.accountHolder = "Alice" ∧ cp.balance = 1000 ∧
      s1.countOf 1 = some 3 ∧ s1.countOf 0 = some 3 ∧
      cp.transactionCount ≠ 1 ∧
      ∀ cs : List (Nat × Call Int), (∀ x ∈ cs, x.1 = 0 ∨ x.1 = 1) →
        ∃ s2, s1.run cs = some s2 ∧
          ((∀ x ∈ cs, x.1 = 1) → Bank.sameAccount s1 s2 0) ∧
          ((∀ x ∈ cs, x.1 = 0) → Bank.sameAccount s1 s2 1) ∧
          ∀ call : Call Int,
            (∃ s3, s2.call 1 call = some s3 ∧ Bank.sameAccount s2 s3 0) ∧
            (∃ s3, s2.call 0 call = some s3 ∧ Bank.sameAccount s2 s3 1)) ∧
    (∃ s1 cp, Bank.copyAssign bankS 1 0 = some s1 ∧
      s1.accounts[1]? = some cp ∧ s1.accounts[0]? = some ⟨"Alice", 1000, 1⟩ ∧
      cp.accountHolder = "Alice" ∧ cp.balance = 1000 ∧
      s1.countOf 1 = some 3 ∧ s1.countOf 0 = some 3 ∧
      cp.transactionCount ≠ 1 ∧
      ∀ cs : List (Nat × Call Int), (∀ x ∈ cs, x.1 = 0 ∨ x.1 = 1) →
        ∃ s2, s1.run cs = some s2 ∧
          ((∀ x ∈ cs, x.1 = 1) → Bank.sameAccount s1 s2 0) ∧
          ((∀ x ∈ cs, x.1 = 0) → Bank.sameAccount s1 s2 1) ∧
          ∀ call : Call Int,
            (∃ s3, s2.call 1 call = some s3 ∧ Bank.sameAccount s2 s3 0) ∧
            (∃ s3, s2.call 0 call = some s3 ∧ Bank.sameAccount s2 s3 1)) :=
  ⟨(copy_is_deep (⟨[some 3], [⟨"Alice", 1000, 1⟩]⟩ : Bank Int) 0 ⟨"Alice", 1000, 1⟩ 3
      rfl (by decide)).1,
    (copy_is_deep bankS 0 ⟨"Alice", 1000, 1⟩ 3 rfl (by decide)).2 1 ⟨"Bob", 5, 2⟩
      rfl (by decide) (by decide) (by decide)⟩
end ConstructorsDestructors
